import Mathlib

/-!
# Verification of the process view engine (`src/app/widgets/process_table.rs`)

This file is a shallow embedding, in Lean 4, of the process-table widget of
this repository: the two-phase tree builder, the grouping aggregator, the
sort dispatcher hooks, and the search/filter state machine, together with
proofs about them.

Conventions of the embedding:

* `FxHashMap` values that the code only ever reads through `get` are embedded
  as association lists (`List (κ × β)`) with `alookup`, whose first-match
  semantics agrees with hash-map lookup when keys are distinct, and with
  insertion modelled by prepending (which is exactly overwrite-on-lookup).
* Rust `Vec` used as a stack (`push`/`pop`/`last`) is embedded as a `List`
  whose head is the vector's *end* (the stack top).
* The `f64`/`u64` numeric process fields are embedded as `ℚ`: the claims
  under study are about *which* values are summed and compared, not about
  rounding, and `ℚ` keeps every definition computable and decidable.
* `while` loops are embedded as fuel-indexed recursive functions returning
  `Option`; `none` means the fuel ran out before the loop exited.
* Types that live outside the two given source files (`ProcessHarvest`'s
  fields, `ProcWidgetData`, `AppSearchState`, the `DataTable` sort state,
  query parsing) are modelled from the spec; each such definition carries a
  doc comment saying so.
-/

/-- Process identifier. The source's `Pid` is a machine integer; no
arithmetic is ever performed on it, so `Int` is a faithful embedding. -/
abbrev Pid := Int

/-- Modelled from the spec: the numeric fields of a process record /
display row — cpu%, memory%, memory bytes, read/write bytes-per-second and
cumulative read/write totals ("numeric fields (cpu%, memory%, memory bytes,
I/O rates and totals)"). -/
structure Metrics where
  cpu : ℚ
  memPercent : ℚ
  memBytes : ℚ
  rps : ℚ
  wps : ℚ
  totalRead : ℚ
  totalWrite : ℚ
deriving DecidableEq, Repr

namespace Metrics

/-- Pointwise sum of numeric fields, as used both by the grouping
aggregator and by the tree collapse aggregation. -/
def addM (a b : Metrics) : Metrics :=
  ⟨a.cpu + b.cpu, a.memPercent + b.memPercent, a.memBytes + b.memBytes,
   a.rps + b.rps, a.wps + b.wps, a.totalRead + b.totalRead,
   a.totalWrite + b.totalWrite⟩

instance : Add Metrics := ⟨addM⟩

/-- The all-zero metrics vector. -/
def zeroM : Metrics := ⟨0, 0, 0, 0, 0, 0, 0⟩

instance : Zero Metrics := ⟨zeroM⟩

theorem add_def (a b : Metrics) : a + b = addM a b := rfl

theorem add_comm' (a b : Metrics) : a + b = b + a := by
  cases a; cases b
  simp only [add_def, addM, Metrics.mk.injEq]
  refine ⟨?_, ?_, ?_, ?_, ?_, ?_, ?_⟩ <;> ring

theorem add_assoc' (a b c : Metrics) : a + b + c = a + (b + c) := by
  cases a; cases b; cases c
  simp only [add_def, addM, Metrics.mk.injEq]
  refine ⟨?_, ?_, ?_, ?_, ?_, ?_, ?_⟩ <;> ring

theorem zero_add' (a : Metrics) : 0 + a = a := by
  cases a
  show addM zeroM _ = _
  simp [addM, zeroM]

theorem add_zero' (a : Metrics) : a + 0 = a := by
  rw [add_comm']; exact zero_add' a

instance : AddCommMonoid Metrics where
  add_assoc := add_assoc'
  zero_add := zero_add'
  add_zero := add_zero'
  add_comm := add_comm'
  nsmul := nsmulRec

end Metrics

/-- Modelled from the spec: a `ProcessRecord` of the harvester snapshot —
"pid (unique within a snapshot), optional parent pid, name, command line"
(the parent pid is carried separately by the snapshot's adjacency index and
is not read by this widget, so it is omitted here), the numeric fields,
"owning user, run state". -/
structure ProcessHarvest where
  pid : Pid
  name : String
  command : String
  metrics : Metrics
  user : String
  state : String
deriving DecidableEq, Repr

namespace ProcessHarvest

/-- Modelled from the spec: `ProcessHarvest::add` as used by the grouping
aggregator — "sum numeric fields across members into one synthetic record";
the identity fields of the receiver are retained. -/
def add (a b : ProcessHarvest) : ProcessHarvest :=
  { a with metrics := a.metrics + b.metrics }

end ProcessHarvest

/-- Modelled from the spec: an opaque parsed-query handle. All the widget
does with it is `QueryHandle.matches(record, matchAgainstCommand) -> bool`,
so the handle is embedded as that function. -/
def Query := ProcessHarvest → Bool → Bool

/-- `Query::check(process, is_using_command)`. -/
def Query.check (q : Query) (p : ProcessHarvest) (isUsingCommand : Bool) : Bool :=
  q p isUsingCommand

/-- Modelled from the spec: a `DisplayRow` (`ProcWidgetData`) — "pid,
display label (name or command per mode), numeric fields (possibly
aggregated), optional indentation prefix string (tree mode), disabled flag,
group-size count". -/
structure ProcWidgetData where
  pid : Pid
  id : String
  metrics : Metrics
  pfx : Option String
  disabled : Bool
  numSimilar : Nat
  user : String
  state : String
deriving DecidableEq, Repr

namespace ProcWidgetData

/-- Modelled from the spec: `ProcWidgetData::from_data(process,
is_using_command, is_mem_percent)` builds a display row copying the record's
fields; the label is the command when the command toggle is on, the name
otherwise; prefix empty, enabled, count 1. (`is_mem_percent` only selects
which memory figure is *rendered*; the row carries both.) -/
def fromData (p : ProcessHarvest) (isUsingCommand : Bool) (_isMemPercent : Bool) :
    ProcWidgetData :=
  { pid := p.pid
    id := if isUsingCommand then p.command else p.name
    metrics := p.metrics
    pfx := none
    disabled := false
    numSimilar := 1
    user := p.user
    state := p.state }

/-- Modelled from the spec: `ProcWidgetData::add` — collapse/group
aggregation sums the numeric fields into the receiver, which keeps its own
identity ("starting from the record's own metrics, iteratively sum every
descendant's numeric fields"). -/
def add (a b : ProcWidgetData) : ProcWidgetData :=
  { a with metrics := a.metrics + b.metrics }

/-- Modelled from the spec: the builder-style `prefix(...)` setter. -/
def withPrefix (a : ProcWidgetData) (p : Option String) : ProcWidgetData :=
  { a with pfx := p }

/-- Modelled from the spec: the builder-style `disabled(...)` setter. -/
def withDisabled (a : ProcWidgetData) (d : Bool) : ProcWidgetData :=
  { a with disabled := d }

/-- Modelled from the spec: the builder-style `num_similar(...)` setter. -/
def withNumSimilar (a : ProcWidgetData) (n : Nat) : ProcWidgetData :=
  { a with numSimilar := n }

@[simp] theorem pid_withPrefix (a : ProcWidgetData) (p : Option String) :
    (a.withPrefix p).pid = a.pid := rfl

@[simp] theorem pid_withDisabled (a : ProcWidgetData) (d : Bool) :
    (a.withDisabled d).pid = a.pid := rfl

@[simp] theorem disabled_withDisabled (a : ProcWidgetData) (d : Bool) :
    (a.withDisabled d).disabled = d := rfl

@[simp] theorem pid_add (a b : ProcWidgetData) : (a.add b).pid = a.pid := rfl

@[simp] theorem pid_fromData (p : ProcessHarvest) (c m : Bool) :
    (fromData p c m).pid = p.pid := rfl

@[simp] theorem metrics_fromData (p : ProcessHarvest) (c m : Bool) :
    (fromData p c m).metrics = p.metrics := rfl

end ProcWidgetData

/-! ## Association-list lookup (hash-map `get`) -/

/-- First-match association lookup; the embedding of `FxHashMap::get`. -/
def alookup {β : Type _} (k : Pid) : List (Pid × β) → Option β
  | [] => none
  | (k', v) :: rest => if k' = k then some v else alookup k rest

@[simp] theorem alookup_nil {β : Type _} (k : Pid) : @alookup β k [] = none := rfl

@[simp] theorem alookup_cons {β : Type _} (k k' : Pid) (v : β) (l : List (Pid × β)) :
    alookup k ((k', v) :: l) = if k' = k then some v else alookup k l := rfl

theorem alookup_append {β : Type _} (k : Pid) (l₁ l₂ : List (Pid × β)) :
    alookup k (l₁ ++ l₂) =
      match alookup k l₁ with
      | some v => some v
      | none => alookup k l₂ := by
  induction l₁ with
  | nil => simp
  | cons hd tl ih =>
    obtain ⟨k', v⟩ := hd
    by_cases h : k' = k <;> simp [h, ih]

theorem alookup_append_of_none {β : Type _} (k : Pid) {l₁ : List (Pid × β)}
    (l₂ : List (Pid × β)) (h : alookup k l₁ = none) :
    alookup k (l₁ ++ l₂) = alookup k l₂ := by
  rw [alookup_append, h]

theorem alookup_append_of_some {β : Type _} (k : Pid) {l₁ : List (Pid × β)}
    (l₂ : List (Pid × β)) {v : β} (h : alookup k l₁ = some v) :
    alookup k (l₁ ++ l₂) = some v := by
  rw [alookup_append, h]

/-- If a key is looked up successfully, the key is among the stored keys. -/
theorem mem_keys_of_alookup_isSome {β : Type _} {k : Pid} {l : List (Pid × β)}
    (h : (alookup k l).isSome) : k ∈ l.map Prod.fst := by
  induction l with
  | nil => simp at h
  | cons hd tl ih =>
    obtain ⟨k', v⟩ := hd
    by_cases hk : k' = k
    · simp [hk]
    · simp only [alookup_cons, hk, if_false] at h
      simp [ih h]

theorem alookup_eq_none_of_not_mem_keys {β : Type _} {k : Pid} {l : List (Pid × β)}
    (h : k ∉ l.map Prod.fst) : alookup k l = none := by
  cases hl : alookup k l with
  | none => rfl
  | some v =>
    exact absurd (mem_keys_of_alookup_isSome (by simp [hl])) h

/-- String-keyed association lookup (the grouping key index). -/
def slookup {β : Type _} (k : String) : List (String × β) → Option β
  | [] => none
  | (k', v) :: rest => if k' = k then some v else slookup k rest

@[simp] theorem slookup_nil {β : Type _} (k : String) : @slookup β k [] = none := rfl

@[simp] theorem slookup_cons {β : Type _} (k k' : String) (v : β) (l : List (String × β)) :
    slookup k ((k', v) :: l) = if k' = k then some v else slookup k l := rfl

/-! ## Sorting (the sort dispatcher) -/

/-- `SortOrder` of the table framework: ascending or descending. -/
inductive SortOrder where
  | Ascending
  | Descending
deriving DecidableEq, Repr

/-- The column identities of the process table (`ProcColumn`). -/
inductive ProcColumn where
  | CpuPercent
  | MemoryVal
  | MemoryPercent
  | Pid
  | Count
  | Name
  | Command
  | ReadPerSecond
  | WritePerSecond
  | TotalRead
  | TotalWrite
  | State
  | User
deriving DecidableEq, Repr

/-- Modelled from the spec: "each column identity knows how to compare two
DisplayRows on its field (numeric fields compare numerically; text fields
compare lexicographically; the OS-state field is domain-enum ordered)" —
the run-state enum order is embedded as its string order, which is some
fixed total order on the small state domain. `leRow c a b` holds when `a`
precedes-or-ties `b` in ascending order on column `c`. -/
def ProcColumn.leRow : ProcColumn → ProcWidgetData → ProcWidgetData → Bool
  | .CpuPercent, a, b => a.metrics.cpu ≤ b.metrics.cpu
  | .MemoryVal, a, b => a.metrics.memBytes ≤ b.metrics.memBytes
  | .MemoryPercent, a, b => a.metrics.memPercent ≤ b.metrics.memPercent
  | .Pid, a, b => a.pid ≤ b.pid
  | .Count, a, b => a.numSimilar ≤ b.numSimilar
  | .Name, a, b => a.id ≤ b.id
  | .Command, a, b => a.id ≤ b.id
  | .ReadPerSecond, a, b => a.metrics.rps ≤ b.metrics.rps
  | .WritePerSecond, a, b => a.metrics.wps ≤ b.metrics.wps
  | .TotalRead, a, b => a.metrics.totalRead ≤ b.metrics.totalRead
  | .TotalWrite, a, b => a.metrics.totalWrite ≤ b.metrics.totalWrite
  | .State, a, b => a.state ≤ b.state
  | .User, a, b => a.user ≤ b.user

/-- Stable insertion of one element into a sorted list under a boolean
"may go before" relation. -/
def orderedInsertB {α : Type _} (le : α → α → Bool) (a : α) : List α → List α
  | [] => [a]
  | b :: l => if le a b then a :: b :: l else b :: orderedInsertB le a l

/-- Modelled from the spec: the per-column `compareAndSort` is "a stable
sort (ties preserve input order)"; insertion sort is the canonical stable
sort. -/
def insertionSortB {α : Type _} (le : α → α → Bool) : List α → List α
  | [] => []
  | a :: l => orderedInsertB le a (insertionSortB le l)

theorem orderedInsertB_perm {α : Type _} (le : α → α → Bool) (a : α) (l : List α) :
    List.Perm (orderedInsertB le a l) (a :: l) := by
  induction l with
  | nil => simp [orderedInsertB]
  | cons b l ih =>
    by_cases h : le a b
    · simp [orderedInsertB, h]
    · simp only [orderedInsertB, h, if_neg, Bool.false_eq_true, if_false]
      exact (ih.cons b).trans (List.Perm.swap a b l)

theorem insertionSortB_perm {α : Type _} (le : α → α → Bool) (l : List α) :
    List.Perm (insertionSortB le l) l := by
  induction l with
  | nil => simp [insertionSortB]
  | cons a l ih =>
    exact (orderedInsertB_perm le a (insertionSortB le l)).trans (ih.cons a)

theorem orderedInsertB_map {α β : Type _} (le : β → β → Bool) (f : α → β) (a : α)
    (l : List α) :
    orderedInsertB le (f a) (l.map f) =
      (orderedInsertB (fun x y => le (f x) (f y)) a l).map f := by
  induction l with
  | nil => simp [orderedInsertB]
  | cons b l ih =>
    by_cases h : le (f a) (f b) <;> simp [orderedInsertB, h, ih]

/-- Sorting commutes with `map` along the pulled-back comparison. -/
theorem insertionSortB_map {α β : Type _} (le : β → β → Bool) (f : α → β) (l : List α) :
    insertionSortB le (l.map f) =
      (insertionSortB (fun x y => le (f x) (f y)) l).map f := by
  induction l with
  | nil => simp [insertionSortB]
  | cons a l ih => simp [insertionSortB, ih, orderedInsertB_map]

/-- Modelled from the spec: `SortColumn` of the table framework — a column
identity together with its default sort direction and hidden flag. -/
structure SortColumnState where
  inner : ProcColumn
  defaultOrder : SortOrder
  isHidden : Bool
deriving DecidableEq, Repr

/-- Modelled from the spec: a column's `sort_by(rows, direction)` — the
stable comparator of the column, with "same comparator with direction
flipped" for descending. -/
def SortColumnState.sortBy (c : SortColumnState) (rows : List ProcWidgetData)
    (order : SortOrder) : List ProcWidgetData :=
  match order with
  | .Ascending => insertionSortB c.inner.leRow rows
  | .Descending => insertionSortB (fun a b => c.inner.leRow b a) rows

theorem SortColumnState.sortBy_perm (c : SortColumnState) (rows : List ProcWidgetData)
    (order : SortOrder) : List.Perm (c.sortBy rows order) rows := by
  cases order <;> exact insertionSortB_perm _ rows

/-! ## The widget state -/

/-- Modelled from the spec: the search-state struct (`AppSearchState`) —
"raw text, matching flags, parsed-query handle (nullable), `blank`/`invalid`
flags, last error message". Cursor bookkeeping is out of scope for the
claims under study. -/
structure AppSearchState where
  currentSearchQuery : String
  query : Option Query
  isBlankSearch : Bool
  isInvalidSearch : Bool
  errorMessage : Option String

/-- Modelled from the spec: `AppSearchState::is_invalid_or_blank_search`,
absent from the given sources — true when the search is blank or the last
parse failed; `get_query` in the source consults it to decide whether a
predicate is active ("`activePredicate()` returns none when blank",
"`blank`/`invalid` flags"). -/
def AppSearchState.isInvalidOrBlankSearch (s : AppSearchState) : Bool :=
  s.isBlankSearch || s.isInvalidSearch

/-- `ProcessSearchState`: the search state plus the three matching flags. -/
structure ProcessSearchState where
  searchState : AppSearchState
  isIgnoringCase : Bool
  isSearchingWholeWord : Bool
  isSearchingWithRegex : Bool

/-- `ProcWidgetMode`: `Tree` (with its persistent collapsed-pid set,
embedded as a list read only through membership), `Grouped` or `Normal`. -/
inductive ProcWidgetMode where
  | Tree (collapsedPids : List Pid)
  | Grouped
  | Normal

/-- Modelled from the spec: the slice of the sortable-table framework state
this widget reads and writes — the column list, the active sort index and
direction, and the scroll/cursor position. -/
structure TableState where
  columns : List SortColumnState
  sortIndex : Nat
  order : SortOrder
  displayStartIndex : Nat
  currentIndex : Nat

/-- The `ProcWidget` facade state. -/
structure ProcWidget where
  mode : ProcWidgetMode
  procSearch : ProcessSearchState
  table : TableState
  tableData : List ProcWidgetData
  idPidMap : List (String × List Pid)
  isSortOpen : Bool
  forceRerender : Bool
  forceUpdateData : Bool

/-- The snapshot slice of `ProcessData` that `get_tree_data` destructures:
the pid → record map, the parent-pid → children adjacency and the orphan
roots. -/
structure ProcessData where
  processHarvest : List (Pid × ProcessHarvest)
  processParentMapping : List (Pid × List Pid)
  orphanPids : List Pid

/-- `DataCollection` — only `process_data` is read by this widget. -/
structure DataCollection where
  processData : ProcessData

namespace ProcWidget

/-- `ProcWidget::PID_OR_COUNT`. -/
def PID_OR_COUNT : Nat := 0
/-- `ProcWidget::PROC_NAME_OR_CMD`. -/
def PROC_NAME_OR_CMD : Nat := 1
/-- `ProcWidget::CPU`. -/
def CPU : Nat := 2
/-- `ProcWidget::MEM`. -/
def MEM : Nat := 3
/-- `ProcWidget::USER` (unix column layout). -/
def USER : Nat := 8
/-- `ProcWidget::STATE` (unix column layout). -/
def STATE : Nat := 9

/-- `ProcWidget::is_using_command`: whether column 1 currently shows the
command. -/
def isUsingCommand (w : ProcWidget) : Bool :=
  match w.table.columns.get? PROC_NAME_OR_CMD with
  | some col => col.inner = ProcColumn.Command
  | none => false

/-- `ProcWidget::is_mem_percent`: whether column 3 currently shows memory
as a percentage. -/
def isMemPercent (w : ProcWidget) : Bool :=
  match w.table.columns.get? MEM with
  | some col => col.inner = ProcColumn.MemoryPercent
  | none => false

/-- `ProcWidget::get_query`: the active predicate — `None` whenever the
search is invalid or blank, the stored parsed handle otherwise. -/
def getQuery (w : ProcWidget) : Option Query :=
  if w.procSearch.searchState.isInvalidOrBlankSearch then none
  else w.procSearch.searchState.query

/-- `ProcWidget::try_sort`: sort by the active column and direction, a
no-op when the sort index is out of range. -/
def trySort (w : ProcWidget) (rows : List ProcWidgetData) : List ProcWidgetData :=
  match w.table.columns.get? w.table.sortIndex with
  | some col => col.sortBy rows w.table.order
  | none => rows

/-- `ProcWidget::try_rev_sort`: sort by the active column with the
direction flipped. -/
def tryRevSort (w : ProcWidget) (rows : List ProcWidgetData) : List ProcWidgetData :=
  match w.table.columns.get? w.table.sortIndex with
  | some col =>
    col.sortBy rows
      (match w.table.order with
       | SortOrder.Ascending => SortOrder.Descending
       | SortOrder.Descending => SortOrder.Ascending)
  | none => rows

/-- `ProcWidget::update_query`. The external `parse_query` capability is a
parameter: it receives the raw text and the three matching flags and either
yields a handle or an error message. -/
def updateQuery (parse : String → Bool → Bool → Bool → Except String Query)
    (w : ProcWidget) : ProcWidget :=
  let w :=
    if w.procSearch.searchState.currentSearchQuery.isEmpty then
      { w with
        procSearch.searchState.isBlankSearch := true
        procSearch.searchState.isInvalidSearch := false
        procSearch.searchState.errorMessage := none }
    else
      match parse w.procSearch.searchState.currentSearchQuery
          w.procSearch.isSearchingWholeWord w.procSearch.isIgnoringCase
          w.procSearch.isSearchingWithRegex with
      | Except.ok parsedQuery =>
        { w with
          procSearch.searchState.query := some parsedQuery
          procSearch.searchState.isBlankSearch := false
          procSearch.searchState.isInvalidSearch := false
          procSearch.searchState.errorMessage := none }
      | Except.error err =>
        { w with
          procSearch.searchState.isBlankSearch := false
          procSearch.searchState.isInvalidSearch := true
          procSearch.searchState.errorMessage := some err }
  let w := { w with table.displayStartIndex := 0, table.currentIndex := 0 }
  { w with forceUpdateData := true }

/-- `ProcWidget::hide_column`: mark a column hidden and, if it was the
active sort column, reset the sort to CPU descending. -/
def hideColumn (w : ProcWidget) (index : Nat) : ProcWidget :=
  match w.table.columns.get? index with
  | some col =>
    let w := { w with table.columns := w.table.columns.set index { col with isHidden := true } }
    if w.table.sortIndex = index then
      { w with table.sortIndex := CPU, table.order := SortOrder.Descending }
    else w
  | none => w

/-- `ProcWidget::show_column`: mark a column shown. -/
def showColumn (w : ProcWidget) (index : Nat) : ProcWidget :=
  match w.table.columns.get? index with
  | some col =>
    { w with table.columns := w.table.columns.set index { col with isHidden := false } }
  | none => w

/-- `ProcWidget::on_tab`: toggle Normal ↔ Grouped (no-op in Tree mode),
flipping the identity column between pid and count, its default direction,
and the visibility of the user and state columns. The source's
`unreachable!` arm (column 0 is never anything but Pid/Count) is embedded
as the identity. -/
def onTab (w : ProcWidget) : ProcWidget :=
  match w.mode with
  | ProcWidgetMode.Tree _ => w
  | _ =>
    match w.table.columns.get? PID_OR_COUNT with
    | none => w
    | some sortCol =>
      match sortCol.inner with
      | ProcColumn.Pid =>
        let newCol := { sortCol with
          inner := ProcColumn.Count, defaultOrder := SortOrder.Descending }
        let w := { w with table.columns := w.table.columns.set PID_OR_COUNT newCol }
        let w := hideColumn w USER
        let w := hideColumn w STATE
        let w := { w with mode := ProcWidgetMode.Grouped }
        { w with forceRerender := true, forceUpdateData := true }
      | ProcColumn.Count =>
        let newCol := { sortCol with
          inner := ProcColumn.Pid, defaultOrder := SortOrder.Ascending }
        let w := { w with table.columns := w.table.columns.set PID_OR_COUNT newCol }
        let w := showColumn w USER
        let w := showColumn w STATE
        let w := { w with mode := ProcWidgetMode.Normal }
        { w with forceRerender := true, forceUpdateData := true }
      | _ => w

/-! ## Normal / Grouped refresh -/

/-- The per-record match of the active predicate, `true` when no predicate
is active (`.map(|q| q.check(..)).unwrap_or(true)`). -/
def matchesQuery (q : Option Query) (isUsingCommand : Bool) (p : ProcessHarvest) : Bool :=
  match q with
  | some query => query.check p isUsingCommand
  | none => true

/-- The grouping key of a record: command or name per the command toggle. -/
def idOf (isUsingCommand : Bool) (p : ProcessHarvest) : String :=
  if isUsingCommand then p.command else p.name

/-- In-place update of the entry at a string key. -/
def supdate {β : Type _} (k : String) (f : β → β) : List (String × β) → List (String × β)
  | [] => []
  | (k', v) :: rest => if k' = k then (k', f v) :: rest else (k', v) :: supdate k f rest

/-- One step of the grouped-mode fold: record the member pid in
`id_pid_map` and merge the record into `id_process_mapping` (the
`Entry::Occupied/Vacant` and `get_mut/insert` logic of the source; the
hash maps are embedded as insertion-ordered association lists). -/
def groupStep (isUsingCommand : Bool)
    (maps : List (String × List Pid) × List (String × ProcessHarvest))
    (p : ProcessHarvest) :
    List (String × List Pid) × List (String × ProcessHarvest) :=
  let id := idOf isUsingCommand p
  let idPidMap :=
    match slookup id maps.1 with
    | some _ => supdate id (fun pids => pids ++ [p.pid]) maps.1
    | none => maps.1 ++ [(id, [p.pid])]
  let idProcMapping :=
    match slookup id maps.2 with
    | some _ => supdate id (fun g => g.add p) maps.2
    | none => maps.2 ++ [(id, p)]
  (idPidMap, idProcMapping)

/-- `ProcWidget::get_normal_data`: filter by the active predicate, then
either group (Grouped mode) or map 1:1 (Normal mode); stores the rebuilt
`id_pid_map` into the widget and sorts the rows. Returns the updated widget
and the rows. -/
def getNormalData (w : ProcWidget) (processHarvest : List (Pid × ProcessHarvest)) :
    ProcWidget × List ProcWidgetData :=
  let searchQuery := getQuery w
  let isUsingCmd := isUsingCommand w
  let isMemP := isMemPercent w
  let filtered := (processHarvest.map Prod.snd).filter (matchesQuery searchQuery isUsingCmd)
  match w.mode with
  | ProcWidgetMode.Grouped =>
    let maps := filtered.foldl (groupStep isUsingCmd) ([], [])
    let rows := maps.2.map (fun kv =>
      let process := kv.2
      let id := idOf isUsingCmd process
      let numSimilar := ((slookup id maps.1).map List.length).getD 1
      (ProcWidgetData.fromData process isUsingCmd isMemP).withNumSimilar numSimilar)
    ({ w with idPidMap := maps.1 }, trySort w rows)
  | _ =>
    let rows := filtered.map (fun p => ProcWidgetData.fromData p isUsingCmd isMemP)
    ({ w with idPidMap := [] }, trySort w rows)

end ProcWidget

/-! ## Tree mode: phase 1 (filtered inclusion map) -/

namespace ProcWidget

/-- The `kept_pids` map of `get_tree_data`: every snapshot pid, paired with
whether its record matches the active predicate (`true` when no predicate
is active). -/
def keptPids (processHarvest : List (Pid × ProcessHarvest)) (q : Option Query)
    (isUsingCommand : Bool) : List (Pid × Bool) :=
  processHarvest.map (fun kv => (kv.1, matchesQuery q isUsingCommand kv.2))

/-- The phase-1 `while let Some(process) = stack.last()` loop of
`get_tree_data`, fuel-indexed. The stack holds records (head = top);
`visited` maps a pid to its shown/hidden verdict; `filtered` is the
filtered-forest map under construction (prepending embeds hash-map
insertion). -/
def phase1Loop (processHarvest : List (Pid × ProcessHarvest))
    (parentMapping : List (Pid × List Pid)) (kept : List (Pid × Bool)) :
    Nat → List ProcessHarvest → List (Pid × Bool) → List (Pid × List Pid) →
    Option (List (Pid × List Pid))
  | _, [], _, filtered => some filtered
  | 0, _ :: _, _, _ => none
  | fuel + 1, process :: rest, visited, filtered =>
    let isProcessMatching := (alookup process.pid kept).getD false
    match alookup process.pid parentMapping with
    | some childrenPids =>
      if childrenPids.all (fun pid => (alookup pid visited).isSome) then
        let shownChildren := childrenPids.filter (fun pid => (alookup pid visited).getD false)
        let isShown := isProcessMatching || !shownChildren.isEmpty
        let filtered' :=
          if isShown then
            (process.pid,
              shownChildren.filterMap (fun pid =>
                (alookup pid processHarvest).map (fun p => p.pid))) :: filtered
          else filtered
        phase1Loop processHarvest parentMapping kept fuel rest
          ((process.pid, isShown) :: visited) filtered'
      else
        phase1Loop processHarvest parentMapping kept fuel
          (childrenPids.filterMap (fun pid => alookup pid processHarvest) ++ process :: rest)
          visited filtered
    | none =>
      let filtered' :=
        if isProcessMatching then (process.pid, ([] : List Pid)) :: filtered else filtered
      phase1Loop processHarvest parentMapping kept fuel rest
        ((process.pid, isProcessMatching) :: visited) filtered'

/-- Phase 1 of `get_tree_data`: seed the stack with the orphan-rooted
records (a `Vec` collected in orphan order, peeked/popped from its end) and
run the traversal to a filtered-forest map. -/
def filteredTreeOf (fuel : Nat) (snap : ProcessData) (q : Option Query)
    (isUsingCommand : Bool) : Option (List (Pid × List Pid)) :=
  let kept := keptPids snap.processHarvest q isUsingCommand
  let stack0 := (snap.orphanPids.filterMap
    (fun process => alookup process snap.processHarvest)).reverse
  phase1Loop snap.processHarvest snap.processParentMapping kept fuel stack0 [] []

/-! ## Tree mode: collapse aggregation (the inner sum loop) -/

/-- The `while let Some(process) = sum_queue.pop()` loop of the collapsed
branch: pop a row, add it into the accumulator, and push the rows of its
filtered-forest children (the queue is a `Vec` popped from its end; head =
end here, so `extend` prepends the reversed pushed block). -/
def sumLoop (processHarvest : List (Pid × ProcessHarvest))
    (filteredTree : List (Pid × List Pid)) (isUsingCommand isMemP : Bool) :
    Nat → ProcWidgetData → List ProcWidgetData → Option ProcWidgetData
  | _, acc, [] => some acc
  | 0, _, _ :: _ => none
  | fuel + 1, acc, process :: queueRest =>
    let acc := acc.add process
    let queue :=
      match alookup process.pid filteredTree with
      | some pids =>
        ((pids.filterMap (fun child =>
          (alookup child processHarvest).map
            (fun p => ProcWidgetData.fromData p isUsingCommand isMemP))).reverse) ++ queueRest
      | none => queueRest
    sumLoop processHarvest filteredTree isUsingCommand isMemP fuel acc queue

/-- The collapsed branch of phase 2: clone the row and, when the pid has a
filtered-forest entry, sum every descendant reached through the
filtered-forest map into it. -/
def sumCollapsed (processHarvest : List (Pid × ProcessHarvest))
    (filteredTree : List (Pid × List Pid)) (isUsingCommand isMemP : Bool)
    (fuel : Nat) (process : ProcWidgetData) : Option ProcWidgetData :=
  match alookup process.pid filteredTree with
  | some childrenPids =>
    sumLoop processHarvest filteredTree isUsingCommand isMemP fuel process
      ((childrenPids.filterMap (fun child =>
        (alookup child processHarvest).map
          (fun p => ProcWidgetData.fromData p isUsingCommand isMemP))).reverse)
  | none => some process

/-! ## Tree mode: phase 2 (decorated depth-first emission) -/

/-- The end-of-iteration cleanup: pop exhausted sibling-count frames (and
their prefix fragments) while the top count is zero. -/
def popZeros : List Nat → List String → List Nat × List String
  | 0 :: lengthRest, pfxs => popZeros lengthRest pfxs.tail
  | lengthStack, pfxs => (lengthStack, pfxs)

/-- The branch-glyph prefix of an emitted row: empty at root depth,
otherwise the joined ancestor fragments, the end/split branch glyph, the
horizontal connector and a space. The collapsed variant appends the
collapse marker `"+ "`. -/
def rowPrefix (pfxs : List String) (isLast : Bool) : String :=
  if pfxs.isEmpty then ""
  else String.join pfxs.reverse ++ (if isLast then "└" else "├") ++ "─" ++ " "

/-- The phase-2 emission loop of `get_tree_data`, fuel-indexed. `stack`
holds display rows (head = `Vec` end = top); `lengthStack` the parallel
siblings-remaining counters; `pfxs` the prefix fragments (head = top);
`data` the rows emitted so far, in order. `sumFuel` bounds the inner
collapse-sum loop. -/
def emitLoop (w : ProcWidget) (processHarvest : List (Pid × ProcessHarvest))
    (filteredTree : List (Pid × List Pid)) (kept : List (Pid × Bool))
    (collapsedPids : List Pid) (isUsingCommand isMemP : Bool) (sumFuel : Nat) :
    Nat → List ProcWidgetData → List Nat → List String → List ProcWidgetData →
    Option (List ProcWidgetData)
  | fuel, stack, lengthStack, pfxs, data =>
    match stack, lengthStack with
    | process :: stackRest, siblingsLeft :: lengthRest =>
      match fuel with
      | 0 => none
      | fuel + 1 =>
        let siblingsLeft := siblingsLeft - 1
        let disabled := !((alookup process.pid kept).getD false)
        let isLast := siblingsLeft = 0
        if collapsedPids.contains process.pid then
          match sumCollapsed processHarvest filteredTree isUsingCommand isMemP sumFuel
              process with
          | none => none
          | some summedProcess =>
            let pfxStr :=
              if pfxs.isEmpty then "" ++ "+ " else rowPrefix pfxs isLast ++ "+ "
            let data := data ++ [(summedProcess.withPrefix (some pfxStr)).withDisabled disabled]
            let cleaned := popZeros (siblingsLeft :: lengthRest) pfxs
            emitLoop w processHarvest filteredTree kept collapsedPids isUsingCommand isMemP
              sumFuel fuel stackRest cleaned.1 cleaned.2 data
        else
          let pfxStr := rowPrefix pfxs isLast
          let pid := process.pid
          let data := data ++ [(process.withPrefix (some pfxStr)).withDisabled disabled]
          match alookup pid filteredTree with
          | some childrenPids =>
            let contFrag :=
              if pfxs.isEmpty then "" else if isLast then "   " else "│" ++ "  "
            let pfxs := contFrag :: pfxs
            let children := childrenPids.filterMap (fun childPid =>
              (alookup childPid processHarvest).map
                (fun p => ProcWidgetData.fromData p isUsingCommand isMemP))
            let children := tryRevSort w children
            let lengthStack' := children.length :: siblingsLeft :: lengthRest
            let stack' := children.reverse ++ stackRest
            let cleaned := popZeros lengthStack' pfxs
            emitLoop w processHarvest filteredTree kept collapsedPids isUsingCommand isMemP
              sumFuel fuel stack' cleaned.1 cleaned.2 data
          | none =>
            let cleaned := popZeros (siblingsLeft :: lengthRest) pfxs
            emitLoop w processHarvest filteredTree kept collapsedPids isUsingCommand isMemP
              sumFuel fuel stackRest cleaned.1 cleaned.2 data
    | _, _ => some data

/-- `ProcWidget::get_tree_data`: phase 1 builds the filtered-forest map,
phase 2 seeds the emission stack with the shown orphan roots (sorted with
`try_sort`, popped from the `Vec` end) and flattens depth-first. One `fuel`
bounds phase 1, phase 2 and each inner collapse sum. -/
def getTreeData (fuel : Nat) (w : ProcWidget) (collapsedPids : List Pid)
    (dataCollection : DataCollection) : Option (List ProcWidgetData) :=
  let searchQuery := getQuery w
  let isUsingCmd := isUsingCommand w
  let isMemP := isMemPercent w
  let snap := dataCollection.processData
  let kept := keptPids snap.processHarvest searchQuery isUsingCmd
  match filteredTreeOf fuel snap searchQuery isUsingCmd with
  | none => none
  | some filteredTree =>
    let rootRows := snap.orphanPids.filterMap (fun pid =>
      if (alookup pid filteredTree).isSome then
        (alookup pid snap.processHarvest).map
          (fun process => ProcWidgetData.fromData process isUsingCmd isMemP)
      else none)
    let stack := (trySort w rootRows).reverse
    let lengthStack := [stack.length]
    emitLoop w snap.processHarvest filteredTree kept collapsedPids isUsingCmd isMemP
      fuel fuel stack lengthStack [] []

/-- `ProcWidget::update_displayed_process_data`: dispatch by mode, store
the produced rows into `table_data`. -/
def updateDisplayedProcessData (fuel : Nat) (w : ProcWidget)
    (dataCollection : DataCollection) : Option ProcWidget :=
  match w.mode with
  | ProcWidgetMode.Grouped | ProcWidgetMode.Normal =>
    let res := getNormalData w dataCollection.processData.processHarvest
    some { res.1 with tableData := res.2 }
  | ProcWidgetMode.Tree collapsedPids =>
    (getTreeData fuel w collapsedPids dataCollection).map
      (fun rows => { w with tableData := rows })

end ProcWidget

/-! ## Basic facts about the facade operations -/

namespace ProcWidget

theorem trySort_perm (w : ProcWidget) (rows : List ProcWidgetData) :
    List.Perm (trySort w rows) rows := by
  unfold trySort
  cases w.table.columns.get? w.table.sortIndex with
  | none => exact List.Perm.refl rows
  | some col => exact col.sortBy_perm rows w.table.order

theorem tryRevSort_perm (w : ProcWidget) (rows : List ProcWidgetData) :
    List.Perm (tryRevSort w rows) rows := by
  unfold tryRevSort
  cases w.table.columns.get? w.table.sortIndex with
  | none => exact List.Perm.refl rows
  | some col => exact col.sortBy_perm rows _

/-- `update_query` never changes the view mode. -/
theorem updateQuery_mode (parse : String → Bool → Bool → Bool → Except String Query)
    (w : ProcWidget) : (updateQuery parse w).mode = w.mode := by
  unfold updateQuery
  by_cases h : w.procSearch.searchState.currentSearchQuery.isEmpty
  · simp [h]
  · simp only [h, Bool.false_eq_true, if_false]
    cases parse w.procSearch.searchState.currentSearchQuery
        w.procSearch.isSearchingWholeWord w.procSearch.isIgnoringCase
        w.procSearch.isSearchingWithRegex <;> rfl

/-- `update_query` never changes the column configuration. -/
theorem updateQuery_columns (parse : String → Bool → Bool → Bool → Except String Query)
    (w : ProcWidget) : (updateQuery parse w).table.columns = w.table.columns := by
  unfold updateQuery
  by_cases h : w.procSearch.searchState.currentSearchQuery.isEmpty
  · simp [h]
  · simp only [h, Bool.false_eq_true, if_false]
    cases parse w.procSearch.searchState.currentSearchQuery
        w.procSearch.isSearchingWholeWord w.procSearch.isIgnoringCase
        w.procSearch.isSearchingWithRegex <;> rfl

end ProcWidget

/-! ## Concrete fixtures for witnesses and counterexamples

These mirror `ProcWidget::new_process_table`'s unix column layout and a
default widget state; they are used as the concrete inputs of the witness
theorems below. -/

/-- The ten-column unix layout built by `new_process_table` (Normal mode
defaults: pid ascending, CPU% the default sort). -/
def sampleColumns : List SortColumnState :=
  [⟨ProcColumn.Pid, SortOrder.Ascending, false⟩,
   ⟨ProcColumn.Name, SortOrder.Ascending, false⟩,
   ⟨ProcColumn.CpuPercent, SortOrder.Descending, false⟩,
   ⟨ProcColumn.MemoryPercent, SortOrder.Descending, false⟩,
   ⟨ProcColumn.ReadPerSecond, SortOrder.Descending, false⟩,
   ⟨ProcColumn.WritePerSecond, SortOrder.Descending, false⟩,
   ⟨ProcColumn.TotalRead, SortOrder.Descending, false⟩,
   ⟨ProcColumn.TotalWrite, SortOrder.Descending, false⟩,
   ⟨ProcColumn.User, SortOrder.Ascending, false⟩,
   ⟨ProcColumn.State, SortOrder.Ascending, false⟩]

/-- A blank search state. -/
def blankSearchState : AppSearchState :=
  { currentSearchQuery := "", query := none, isBlankSearch := true,
    isInvalidSearch := false, errorMessage := none }

/-- A sample record with the given pid, name and cpu share. -/
def sampleRec (pid : Pid) (name : String) (cpu : ℚ) : ProcessHarvest :=
  { pid := pid, name := name, command := name ++ " -c"
    metrics := ⟨cpu, 0, 0, 0, 0, 0, 0⟩, user := "u", state := "R" }

/-- A sample widget in the given mode, pid-ascending sort, blank search. -/
def sampleWidget (mode : ProcWidgetMode) : ProcWidget :=
  let pss : ProcessSearchState :=
    { searchState := blankSearchState, isIgnoringCase := true,
      isSearchingWholeWord := false, isSearchingWithRegex := false }
  let tbl : TableState :=
    { columns := sampleColumns, sortIndex := 0, order := SortOrder.Ascending,
      displayStartIndex := 3, currentIndex := 4 }
  { mode := mode, procSearch := pss, table := tbl, tableData := [], idPidMap := [],
    isSortOpen := false, forceRerender := true, forceUpdateData := false }

/-! ## C7: blank query behaviour of `update_query` -/

namespace ProcWidget

theorem filter_matches_none (isCmd : Bool) (l : List ProcessHarvest) :
    l.filter (matchesQuery none isCmd) = l := by
  induction l with
  | nil => rfl
  | cons p l ih => simp [List.filter, matchesQuery, ih]

/-- C7: every call to `update_query`, whatever the text and the parse
outcome, resets the scroll and cursor indices to zero and sets the
data-dirty flag; and on empty text it sets `blank := true` and
`invalid := false`, so the active predicate is `none` (match everything)
and — in Normal mode — every process contributes exactly one row, none of
them disabled. -/
theorem spec_C7_update_query_blank_and_reset
    (parse : String → Bool → Bool → Bool → Except String Query) (w : ProcWidget) :
    ((updateQuery parse w).table.displayStartIndex = 0 ∧
     (updateQuery parse w).table.currentIndex = 0 ∧
     (updateQuery parse w).forceUpdateData = true) ∧
    (w.procSearch.searchState.currentSearchQuery = "" →
      (updateQuery parse w).procSearch.searchState.isBlankSearch = true ∧
      (updateQuery parse w).procSearch.searchState.isInvalidSearch = false ∧
      getQuery (updateQuery parse w) = none ∧
      (w.mode = ProcWidgetMode.Normal → ∀ harvest : List (Pid × ProcessHarvest),
        (getNormalData (updateQuery parse w) harvest).2.length = harvest.length ∧
        ∀ r ∈ (getNormalData (updateQuery parse w) harvest).2, r.disabled = false)) := by
  refine ⟨⟨rfl, rfl, rfl⟩, ?_⟩
  intro hblank
  have hempty : w.procSearch.searchState.currentSearchQuery.isEmpty = true := by
    rw [hblank]; rfl
  have hw : updateQuery parse w =
      { w with
        procSearch.searchState.isBlankSearch := true
        procSearch.searchState.isInvalidSearch := false
        procSearch.searchState.errorMessage := none
        table.displayStartIndex := 0
        table.currentIndex := 0
        forceUpdateData := true } := by
    unfold updateQuery
    simp [hempty]
  refine ⟨?_, ?_, ?_, ?_⟩
  · rw [hw]
  · rw [hw]
  · rw [hw]; rfl
  · intro hmode harvest
    have hq : getQuery (updateQuery parse w) = none := by rw [hw]; rfl
    have hmode' : (updateQuery parse w).mode = ProcWidgetMode.Normal := by
      rw [updateQuery_mode, hmode]
    constructor
    · show (getNormalData (updateQuery parse w) harvest).2.length = harvest.length
      unfold getNormalData
      rw [hmode', hq]
      simp only
      rw [(trySort_perm _ _).length_eq]
      rw [filter_matches_none]
      simp
    · intro r hr
      unfold getNormalData at hr
      rw [hmode', hq] at hr
      simp only at hr
      have hr' := (trySort_perm _ _).mem_iff.mp hr
      rw [filter_matches_none] at hr'
      obtain ⟨p, _, rfl⟩ := List.mem_map.mp hr'
      rfl

end ProcWidget

/-! ## C2: failed-parse behaviour of `update_query` -/

namespace ProcWidget

/-- A query handle matching only processes named `"a"`. -/
def queryOnlyA : Query := fun p _ => p.name = "a"

/-- A widget whose last *valid* search parsed to `queryOnlyA`, and whose
current text has been edited to `"["` (which will fail to parse). -/
def widgetStaleQuery : ProcWidget :=
  let w := sampleWidget ProcWidgetMode.Normal
  let ss : AppSearchState :=
    { currentSearchQuery := "[", query := some queryOnlyA, isBlankSearch := false,
      isInvalidSearch := false, errorMessage := none }
  { w with procSearch.searchState := ss }

/-- A parse capability that rejects every text. -/
def parseAlwaysFails : String → Bool → Bool → Bool → Except String Query :=
  fun _ _ _ _ => Except.error "invalid regex"

/-- C2 (amended): when `update_query` is called with non-empty text that
fails to parse, the invalid flag is set, the error message is stored, and
the previously parsed query handle is *not cleared from storage* — but,
because `get_query` returns `None` whenever the invalid flag is set, the
predicate used for filtering on subsequent refreshes is match-everything,
not the retained handle. -/
theorem spec_C2_update_query_invalid
    (parse : String → Bool → Bool → Bool → Except String Query) (w : ProcWidget)
    (err : String)
    (hne : w.procSearch.searchState.currentSearchQuery ≠ "")
    (hfail : parse w.procSearch.searchState.currentSearchQuery
      w.procSearch.isSearchingWholeWord w.procSearch.isIgnoringCase
      w.procSearch.isSearchingWithRegex = Except.error err) :
    (updateQuery parse w).procSearch.searchState.isInvalidSearch = true ∧
    (updateQuery parse w).procSearch.searchState.errorMessage = some err ∧
    (updateQuery parse w).procSearch.searchState.query =
      w.procSearch.searchState.query ∧
    getQuery (updateQuery parse w) = none ∧
    (∀ harvest : List (Pid × ProcessHarvest),
      (harvest.map Prod.snd).filter
          (matchesQuery (getQuery (updateQuery parse w))
            (isUsingCommand (updateQuery parse w))) =
        harvest.map Prod.snd) := by
  have hempty : w.procSearch.searchState.currentSearchQuery.isEmpty = false := by
    rw [Bool.eq_false_iff]
    intro h
    exact hne ((String.isEmpty_iff _).mp h)
  have hw : updateQuery parse w =
      { w with
        procSearch.searchState.isBlankSearch := false
        procSearch.searchState.isInvalidSearch := true
        procSearch.searchState.errorMessage := some err
        table.displayStartIndex := 0
        table.currentIndex := 0
        forceUpdateData := true } := by
    unfold updateQuery
    simp [hempty, hfail]
  have hq : getQuery (updateQuery parse w) = none := by
    rw [hw]
    unfold getQuery AppSearchState.isInvalidOrBlankSearch
    simp
  refine ⟨by rw [hw], by rw [hw], by rw [hw], hq, ?_⟩
  intro harvest
  rw [hq]
  exact filter_matches_none _ _

end ProcWidget

namespace ProcWidget

/-- C2 counterexample: at this concrete input the three bookkeeping parts
of the claim hold (invalid set, error stored, handle retained), but the
predicate used for filtering after the failed parse is *not* the retained
handle: the stored handle `queryOnlyA` matches no process in the snapshot,
yet the refresh still emits the row for pid 7 — the active predicate has
become match-everything. -/
theorem spec_C2_counterexample :
    (updateQuery parseAlwaysFails widgetStaleQuery).procSearch.searchState.isInvalidSearch
        = true ∧
    (updateQuery parseAlwaysFails widgetStaleQuery).procSearch.searchState.query
        = some queryOnlyA ∧
    ((getNormalData (updateQuery parseAlwaysFails widgetStaleQuery)
        [(7, sampleRec 7 "b" 1)]).2.map (fun r => r.pid) = [7]) ∧
    ([sampleRec 7 "b" 1].filter (fun p => Query.check queryOnlyA p false) = []) := by
  refine ⟨rfl, rfl, rfl, rfl⟩

/-- Witness for the hypotheses of the amended C2 theorem, at the same
concrete input. -/
theorem spec_C2_witness :
    widgetStaleQuery.procSearch.searchState.currentSearchQuery ≠ "" ∧
    (updateQuery parseAlwaysFails widgetStaleQuery).procSearch.searchState.isInvalidSearch
        = true ∧
    (updateQuery parseAlwaysFails widgetStaleQuery).procSearch.searchState.errorMessage
        = some "invalid regex" ∧
    getQuery (updateQuery parseAlwaysFails widgetStaleQuery) = none := by
  have hne : widgetStaleQuery.procSearch.searchState.currentSearchQuery ≠ "" := by
    intro h
    exact absurd h (by decide)
  have h := spec_C2_update_query_invalid parseAlwaysFails widgetStaleQuery
    "invalid regex" hne rfl
  exact ⟨hne, h.1, h.2.1, h.2.2.2.1⟩

end ProcWidget

/-! ## C5: the `on_tab` Normal ↔ Grouped toggle -/

namespace ProcWidget

/-- C5: `on_tab` is a no-op in Tree mode; otherwise it flips the identity
column between pid and count together with that column's default sort
direction (ascending for pid, descending for count), hides the user and
process-state columns on entering Grouped and shows them again on
returning to Normal, and resets the sort to CPU% descending exactly when
the active sort column is one of the columns being hidden. -/
theorem spec_C5_on_tab (w : ProcWidget)
    (c0 c1 c2 c3 c4 c5 c6 c7 c8 c9 : SortColumnState)
    (hcols : w.table.columns = [c0, c1, c2, c3, c4, c5, c6, c7, c8, c9]) :
    (∀ cp, w.mode = ProcWidgetMode.Tree cp → onTab w = w) ∧
    ((w.mode = ProcWidgetMode.Grouped ∨ w.mode = ProcWidgetMode.Normal) →
      (c0.inner = ProcColumn.Pid →
        (onTab w).mode = ProcWidgetMode.Grouped ∧
        ((onTab w).table.columns.get? PID_OR_COUNT).map SortColumnState.inner
            = some ProcColumn.Count ∧
        ((onTab w).table.columns.get? PID_OR_COUNT).map SortColumnState.defaultOrder
            = some SortOrder.Descending ∧
        ((onTab w).table.columns.get? USER).map SortColumnState.isHidden = some true ∧
        ((onTab w).table.columns.get? STATE).map SortColumnState.isHidden = some true ∧
        ((w.table.sortIndex = USER ∨ w.table.sortIndex = STATE) →
          (onTab w).table.sortIndex = CPU ∧
          (onTab w).table.order = SortOrder.Descending) ∧
        (w.table.sortIndex ≠ USER → w.table.sortIndex ≠ STATE →
          (onTab w).table.sortIndex = w.table.sortIndex ∧
          (onTab w).table.order = w.table.order)) ∧
      (c0.inner = ProcColumn.Count →
        (onTab w).mode = ProcWidgetMode.Normal ∧
        ((onTab w).table.columns.get? PID_OR_COUNT).map SortColumnState.inner
            = some ProcColumn.Pid ∧
        ((onTab w).table.columns.get? PID_OR_COUNT).map SortColumnState.defaultOrder
            = some SortOrder.Ascending ∧
        ((onTab w).table.columns.get? USER).map SortColumnState.isHidden = some false ∧
        ((onTab w).table.columns.get? STATE).map SortColumnState.isHidden = some false ∧
        (onTab w).table.sortIndex = w.table.sortIndex ∧
        (onTab w).table.order = w.table.order)) := by
  refine ⟨fun cp hm => by unfold onTab; rw [hm], fun hmode => ⟨fun hpid => ?_, fun hcount => ?_⟩⟩
  · by_cases h8 : w.table.sortIndex = 8
    · have ht : onTab w =
          { w with
            table.columns :=
              [{ c0 with inner := ProcColumn.Count, defaultOrder := SortOrder.Descending },
               c1, c2, c3, c4, c5, c6, c7,
               { c8 with isHidden := true }, { c9 with isHidden := true }]
            table.sortIndex := 2
            table.order := SortOrder.Descending
            mode := ProcWidgetMode.Grouped
            forceRerender := true
            forceUpdateData := true } := by
        unfold onTab hideColumn
        rcases hmode with hm | hm <;>
          · rw [hm]
            simp [hcols, hpid, h8, PID_OR_COUNT, USER, STATE, CPU, List.set]
      rw [ht]
      exact ⟨rfl, rfl, rfl, rfl, rfl, fun _ => ⟨rfl, rfl⟩,
        fun hu _ => absurd h8 hu⟩
    · by_cases h9 : w.table.sortIndex = 9
      · have ht : onTab w =
            { w with
              table.columns :=
                [{ c0 with inner := ProcColumn.Count, defaultOrder := SortOrder.Descending },
                 c1, c2, c3, c4, c5, c6, c7,
                 { c8 with isHidden := true }, { c9 with isHidden := true }]
              table.sortIndex := 2
              table.order := SortOrder.Descending
              mode := ProcWidgetMode.Grouped
              forceRerender := true
              forceUpdateData := true } := by
          unfold onTab hideColumn
          rcases hmode with hm | hm <;>
            · rw [hm]
              simp [hcols, hpid, h8, h9, PID_OR_COUNT, USER, STATE, CPU, List.set]
        rw [ht]
        exact ⟨rfl, rfl, rfl, rfl, rfl, fun _ => ⟨rfl, rfl⟩,
          fun _ hs => absurd h9 hs⟩
      · have ht : onTab w =
            { w with
              table.columns :=
                [{ c0 with inner := ProcColumn.Count, defaultOrder := SortOrder.Descending },
                 c1, c2, c3, c4, c5, c6, c7,
                 { c8 with isHidden := true }, { c9 with isHidden := true }]
              mode := ProcWidgetMode.Grouped
              forceRerender := true
              forceUpdateData := true } := by
          unfold onTab hideColumn
          rcases hmode with hm | hm <;>
            · rw [hm]
              simp [hcols, hpid, h8, h9, PID_OR_COUNT, USER, STATE, CPU, List.set]
        rw [ht]
        refine ⟨rfl, rfl, rfl, rfl, rfl, fun hs => ?_, fun _ _ => ⟨rfl, rfl⟩⟩
        rcases hs with h | h
        · exact absurd h h8
        · exact absurd h h9
  · have ht : onTab w =
        { w with
          table.columns :=
            [{ c0 with inner := ProcColumn.Pid, defaultOrder := SortOrder.Ascending },
             c1, c2, c3, c4, c5, c6, c7,
             { c8 with isHidden := false }, { c9 with isHidden := false }]
          mode := ProcWidgetMode.Normal
          forceRerender := true
          forceUpdateData := true } := by
      unfold onTab showColumn
      rcases hmode with hm | hm <;>
        · rw [hm]
          simp [hcols, hcount, PID_OR_COUNT, USER, STATE, List.set]
    rw [ht]
    exact ⟨rfl, rfl, rfl, rfl, rfl, rfl, rfl⟩

/-- Witness for the hypotheses of the C5 theorem: a concrete Normal-mode
widget with the pid column active and the user column as the sort column,
and a concrete Tree-mode widget. -/
theorem spec_C5_witness :
    (sampleWidget (ProcWidgetMode.Tree [])).mode = ProcWidgetMode.Tree [] ∧
    onTab (sampleWidget (ProcWidgetMode.Tree [])) = sampleWidget (ProcWidgetMode.Tree []) ∧
    (onTab (sampleWidget ProcWidgetMode.Normal)).mode = ProcWidgetMode.Grouped ∧
    ((onTab (sampleWidget ProcWidgetMode.Normal)).table.columns.get? USER).map
        SortColumnState.isHidden = some true := by
  have hcols : (sampleWidget (ProcWidgetMode.Tree [])).table.columns =
      [⟨ProcColumn.Pid, SortOrder.Ascending, false⟩,
       ⟨ProcColumn.Name, SortOrder.Ascending, false⟩,
       ⟨ProcColumn.CpuPercent, SortOrder.Descending, false⟩,
       ⟨ProcColumn.MemoryPercent, SortOrder.Descending, false⟩,
       ⟨ProcColumn.ReadPerSecond, SortOrder.Descending, false⟩,
       ⟨ProcColumn.WritePerSecond, SortOrder.Descending, false⟩,
       ⟨ProcColumn.TotalRead, SortOrder.Descending, false⟩,
       ⟨ProcColumn.TotalWrite, SortOrder.Descending, false⟩,
       ⟨ProcColumn.User, SortOrder.Ascending, false⟩,
       ⟨ProcColumn.State, SortOrder.Ascending, false⟩] := rfl
  have h1 := spec_C5_on_tab (sampleWidget (ProcWidgetMode.Tree [])) _ _ _ _ _ _ _ _ _ _ hcols
  have hcols2 : (sampleWidget ProcWidgetMode.Normal).table.columns =
      [⟨ProcColumn.Pid, SortOrder.Ascending, false⟩,
       ⟨ProcColumn.Name, SortOrder.Ascending, false⟩,
       ⟨ProcColumn.CpuPercent, SortOrder.Descending, false⟩,
       ⟨ProcColumn.MemoryPercent, SortOrder.Descending, false⟩,
       ⟨ProcColumn.ReadPerSecond, SortOrder.Descending, false⟩,
       ⟨ProcColumn.WritePerSecond, SortOrder.Descending, false⟩,
       ⟨ProcColumn.TotalRead, SortOrder.Descending, false⟩,
       ⟨ProcColumn.TotalWrite, SortOrder.Descending, false⟩,
       ⟨ProcColumn.User, SortOrder.Ascending, false⟩,
       ⟨ProcColumn.State, SortOrder.Ascending, false⟩] := rfl
  have h2 := spec_C5_on_tab (sampleWidget ProcWidgetMode.Normal) _ _ _ _ _ _ _ _ _ _ hcols2
  have h2' := (h2.2 (Or.inr rfl)).1 rfl
  exact ⟨rfl, h1.1 [] rfl, h2'.1, h2'.2.2.2.1⟩

end ProcWidget

/-! ## C10: frame effect of `update_displayed_process_data` -/

namespace ProcWidget

/-- The identity → member-pids map the grouped branch rebuilds from the
current snapshot: a function of the snapshot and the widget's current
search/column settings only. -/
def groupedIdPidMap (w : ProcWidget) (harvest : List (Pid × ProcessHarvest)) :
    List (String × List Pid) :=
  (((harvest.map Prod.snd).filter (matchesQuery (getQuery w) (isUsingCommand w))).foldl
    (groupStep (isUsingCommand w)) ([], [])).1

/-- C10: a refresh only replaces `table_data` and (mode-dependently)
`id_pid_map`: in Grouped mode the id → pids map is rebuilt from the current
filtered snapshot, in Normal mode it is replaced by the empty map, in Tree
mode it is left unchanged; the mode, search state, table state (columns,
sort settings, scroll position) and the remaining flags are never touched. -/
theorem spec_C10_refresh_frame (fuel : Nat) (w w' : ProcWidget) (dc : DataCollection)
    (h : updateDisplayedProcessData fuel w dc = some w') :
    w'.mode = w.mode ∧ w'.procSearch = w.procSearch ∧ w'.table = w.table ∧
    w'.isSortOpen = w.isSortOpen ∧ w'.forceRerender = w.forceRerender ∧
    w'.forceUpdateData = w.forceUpdateData ∧
    (w.mode = ProcWidgetMode.Grouped →
      w'.idPidMap = groupedIdPidMap w dc.processData.processHarvest) ∧
    (w.mode = ProcWidgetMode.Normal → w'.idPidMap = []) ∧
    (∀ cp, w.mode = ProcWidgetMode.Tree cp → w'.idPidMap = w.idPidMap) := by
  unfold updateDisplayedProcessData at h
  cases hm : w.mode with
  | Grouped =>
    rw [hm] at h
    simp only [Option.some.injEq] at h
    subst h
    unfold getNormalData
    rw [hm]
    refine ⟨rfl, rfl, rfl, rfl, rfl, rfl, fun _ => rfl, fun hn => ?_, fun cp hc => ?_⟩
    · cases hn
    · cases hc
  | Normal =>
    rw [hm] at h
    simp only [Option.some.injEq] at h
    subst h
    unfold getNormalData
    rw [hm]
    refine ⟨rfl, rfl, rfl, rfl, rfl, rfl, fun hg => ?_, fun _ => rfl, fun cp hc => ?_⟩
    · cases hg
    · cases hc
  | Tree cp =>
    rw [hm] at h
    rw [Option.map_eq_some'] at h
    obtain ⟨rows, _, h⟩ := h
    subst h
    refine ⟨rfl, rfl, rfl, rfl, rfl, rfl, fun hg => ?_, fun hn => ?_, fun cp' hc => rfl⟩
    · cases hg
    · cases hn

/-- A one-process snapshot used by the C10 witness. -/
def sampleDC : DataCollection :=
  ⟨⟨[(10, sampleRec 10 "w" 5)], [], [10]⟩⟩

/-- The widget state a Grouped refresh of `sampleDC` produces. -/
def sampleGroupedResult : ProcWidget :=
  { sampleWidget ProcWidgetMode.Grouped with
    tableData := [(ProcWidgetData.fromData (sampleRec 10 "w" 5) false false).withNumSimilar 1]
    idPidMap := [("w", [10])] }

/-- Witness for the hypothesis of the C10 theorem at a concrete refresh. -/
theorem spec_C10_witness :
    updateDisplayedProcessData 5 (sampleWidget ProcWidgetMode.Grouped) sampleDC
        = some sampleGroupedResult ∧
    sampleGroupedResult.procSearch = (sampleWidget ProcWidgetMode.Grouped).procSearch ∧
    sampleGroupedResult.idPidMap =
      groupedIdPidMap (sampleWidget ProcWidgetMode.Grouped)
        sampleDC.processData.processHarvest := by
  have h : updateDisplayedProcessData 5 (sampleWidget ProcWidgetMode.Grouped) sampleDC
      = some sampleGroupedResult := rfl
  have hmain := spec_C10_refresh_frame 5 (sampleWidget ProcWidgetMode.Grouped)
    sampleGroupedResult sampleDC h
  exact ⟨h, hmain.2.1, hmain.2.2.2.2.2.2.1 rfl⟩

end ProcWidget

/-! ## C4: the grouping aggregator -/

namespace ProcWidget

theorem slookup_eq_none_iff {β : Type _} (k : String) (l : List (String × β)) :
    slookup k l = none ↔ k ∉ l.map Prod.fst := by
  induction l with
  | nil => simp
  | cons hd tl ih =>
    obtain ⟨k', v⟩ := hd
    by_cases h : k' = k <;> simp [h, ih, Ne.symm]

theorem slookup_supdate_self {β : Type _} (k : String) (f : β → β) (l : List (String × β)) :
    slookup k (supdate k f l) = (slookup k l).map f := by
  induction l with
  | nil => rfl
  | cons hd tl ih =>
    obtain ⟨k', v⟩ := hd
    by_cases h : k' = k <;> simp [supdate, h, ih]

theorem slookup_supdate_ne {β : Type _} {k k' : String} (f : β → β) (l : List (String × β))
    (h : k' ≠ k) : slookup k' (supdate k f l) = slookup k' l := by
  induction l with
  | nil => rfl
  | cons hd tl ih =>
    obtain ⟨k₀, v⟩ := hd
    by_cases h0 : k₀ = k
    · subst h0
      simp [supdate, Ne.symm h]
    · by_cases h1 : k₀ = k' <;> simp [supdate, h0, h1, ih, h]

theorem supdate_keys {β : Type _} (k : String) (f : β → β) (l : List (String × β)) :
    (supdate k f l).map Prod.fst = l.map Prod.fst := by
  induction l with
  | nil => rfl
  | cons hd tl ih =>
    obtain ⟨k', v⟩ := hd
    by_cases h : k' = k <;> simp [supdate, h, ih]

theorem slookup_append {β : Type _} (k : String) (l₁ l₂ : List (String × β)) :
    slookup k (l₁ ++ l₂) =
      match slookup k l₁ with
      | some v => some v
      | none => slookup k l₂ := by
  induction l₁ with
  | nil => simp
  | cons hd tl ih =>
    obtain ⟨k', v⟩ := hd
    by_cases h : k' = k <;> simp [h, ih]

theorem slookup_of_mem_nodup {β : Type _} {l : List (String × β)} {k : String} {v : β}
    (hmem : (k, v) ∈ l) (hnd : (l.map Prod.fst).Nodup) : slookup k l = some v := by
  induction l with
  | nil => cases hmem
  | cons hd tl ih =>
    obtain ⟨k', v'⟩ := hd
    simp only [List.map_cons, List.nodup_cons] at hnd
    rcases List.mem_cons.mp hmem with heq | htl
    · injection heq with h1 h2
      subst h1
      subst h2
      simp
    · have hne : k' ≠ k := by
        intro h
        subst h
        exact hnd.1 (List.mem_map.mpr ⟨(k', v), htl, rfl⟩)
      simp [hne, ih htl hnd.2]

/-- The members of one identity group among a record list. -/
def membersOf (c : Bool) (id : String) (ps : List ProcessHarvest) : List ProcessHarvest :=
  ps.filter (fun p => idOf c p = id)

/-- Folding `ProcessHarvest.add` over the later members of a group. -/
def mergeGroup (g : ProcessHarvest) (ms : List ProcessHarvest) : ProcessHarvest :=
  ms.foldl ProcessHarvest.add g

theorem mergeGroup_metrics (g : ProcessHarvest) (ms : List ProcessHarvest) :
    (mergeGroup g ms).metrics = g.metrics + (ms.map ProcessHarvest.metrics).sum := by
  induction ms generalizing g with
  | nil => simp [mergeGroup]
  | cons p ms ih =>
    show (mergeGroup (g.add p) ms).metrics = _
    rw [ih]
    show (g.metrics + p.metrics) + _ = _
    rw [List.map_cons, List.sum_cons, Metrics.add_assoc']

theorem mergeGroup_name (g : ProcessHarvest) (ms : List ProcessHarvest) :
    (mergeGroup g ms).name = g.name := by
  induction ms generalizing g with
  | nil => rfl
  | cons p ms ih => exact ih (g.add p)

theorem mergeGroup_command (g : ProcessHarvest) (ms : List ProcessHarvest) :
    (mergeGroup g ms).command = g.command := by
  induction ms generalizing g with
  | nil => rfl
  | cons p ms ih => exact ih (g.add p)

theorem idOf_mergeGroup (c : Bool) (g : ProcessHarvest) (ms : List ProcessHarvest) :
    idOf c (mergeGroup g ms) = idOf c g := by
  unfold idOf
  cases c <;> simp [mergeGroup_name, mergeGroup_command]

theorem mem_supdate {β : Type _} (k : String) (f : β → β) (l : List (String × β)) :
    ∀ kv ∈ supdate k f l, kv ∈ l ∨ ∃ v, (k, v) ∈ l ∧ kv = (k, f v) := by
  induction l with
  | nil => intro kv h; cases h
  | cons hd tl ih =>
    obtain ⟨k₀, v₀⟩ := hd
    intro kv hkv
    by_cases h0 : k₀ = k
    · rw [supdate, if_pos h0] at hkv
      rcases List.mem_cons.mp hkv with heq | htl
      · subst heq
        subst h0
        right
        exact ⟨v₀, List.mem_cons_self _ _, rfl⟩
      · left
        exact List.mem_cons_of_mem _ htl
    · rw [supdate, if_neg h0] at hkv
      rcases List.mem_cons.mp hkv with heq | htl
      · subst heq
        left
        exact List.mem_cons_self _ _
      · rcases ih kv htl with h | ⟨v, hv, he⟩
        · left
          exact List.mem_cons_of_mem _ h
        · right
          exact ⟨v, List.mem_cons_of_mem _ hv, he⟩

/-- The invariant of the grouped-mode fold: after consuming `ps`, the two
maps record exactly the groups of `ps` — member pids in order in the first,
the running `add`-merge in the second — with coherent, duplicate-free
keys. -/
def GroupInv (c : Bool) (ps : List ProcessHarvest)
    (m : List (String × List Pid) × List (String × ProcessHarvest)) : Prop :=
  (∀ id,
    (slookup id m.1 = (if (membersOf c id ps).isEmpty then none
      else some ((membersOf c id ps).map ProcessHarvest.pid))) ∧
    (slookup id m.2 =
      match membersOf c id ps with
      | [] => none
      | g :: rest => some (mergeGroup g rest))) ∧
  (∀ kv ∈ m.2, idOf c kv.2 = kv.1) ∧
  (m.2.map Prod.fst).Nodup ∧
  (m.1.map Prod.fst = m.2.map Prod.fst)

theorem membersOf_append (c : Bool) (id : String) (ps : List ProcessHarvest)
    (p : ProcessHarvest) :
    membersOf c id (ps ++ [p]) =
      if idOf c p = id then membersOf c id ps ++ [p] else membersOf c id ps := by
  unfold membersOf
  rw [List.filter_append]
  by_cases h : idOf c p = id <;> simp [h]

theorem groupStep_inv (c : Bool) (ps : List ProcessHarvest)
    (m : List (String × List Pid) × List (String × ProcessHarvest)) (p : ProcessHarvest)
    (h : GroupInv c ps m) : GroupInv c (ps ++ [p]) (groupStep c m p) := by
  obtain ⟨hpt, hco, hnd, hkeys⟩ := h
  have hmem2keys : ∀ id, slookup id m.2 = none ↔ id ∉ m.2.map Prod.fst :=
    fun id => slookup_eq_none_iff id m.2
  constructor
  · intro id
    by_cases hid : idOf c p = id
    · subst hid
      -- the group of p grows by p
      rcases hm : membersOf c (idOf c p) ps with _ | ⟨g, rest⟩
      · -- first member: both lookups were none, fresh entries appended
        have h1 := (hpt (idOf c p)).1
        have h2 := (hpt (idOf c p)).2
        rw [hm] at h1 h2
        simp only [List.isEmpty_nil, if_true] at h1
        constructor
        · show slookup (idOf c p) (groupStep c m p).1 = _
          unfold groupStep
          simp only [h1]
          rw [membersOf_append]
          simp only [if_pos rfl, hm]
          rw [slookup_append, h1]
          simp
        · show slookup (idOf c p) (groupStep c m p).2 = _
          unfold groupStep
          simp only [h2]
          rw [membersOf_append]
          simp only [if_pos rfl, hm]
          rw [slookup_append, h2]
          simp [mergeGroup]
      · -- existing group: in-place updates
        have h1 := (hpt (idOf c p)).1
        have h2 := (hpt (idOf c p)).2
        rw [hm] at h1 h2
        simp only [List.isEmpty_cons, if_false, Bool.false_eq_true] at h1
        constructor
        · show slookup (idOf c p) (groupStep c m p).1 = _
          unfold groupStep
          simp only [h1]
          rw [slookup_supdate_self, h1]
          rw [membersOf_append]
          simp [hm]
        · show slookup (idOf c p) (groupStep c m p).2 = _
          unfold groupStep
          simp only [h1, h2]
          rw [slookup_supdate_self, h2]
          rw [membersOf_append]
          simp only [if_pos rfl, hm]
          simp [mergeGroup]
    · -- other identities untouched
      have hstep1 : slookup id (groupStep c m p).1 = slookup id m.1 := by
        unfold groupStep
        cases hl : slookup (idOf c p) m.1 with
        | some v =>
          simp only [hl]
          exact slookup_supdate_ne _ _ (Ne.symm hid)
        | none =>
          simp only [hl]
          rw [slookup_append]
          cases hi : slookup id m.1 with
          | some v => rfl
          | none => simp [hid]
      have hstep2 : slookup id (groupStep c m p).2 = slookup id m.2 := by
        unfold groupStep
        cases hl : slookup (idOf c p) m.2 with
        | some v =>
          simp only [hl]
          exact slookup_supdate_ne _ _ (Ne.symm hid)
        | none =>
          simp only [hl]
          rw [slookup_append]
          cases hi : slookup id m.2 with
          | some v => rfl
          | none => simp [hid]
      rw [hstep1, hstep2, membersOf_append]
      simp only [hid, if_false, Bool.false_eq_true]
      exact hpt id
  · -- coherence, nodup, key agreement
    have hkeq : (groupStep c m p).2.map Prod.fst = m.2.map Prod.fst ∨
        (groupStep c m p).2.map Prod.fst = m.2.map Prod.fst ++ [idOf c p] ∧
          idOf c p ∉ m.2.map Prod.fst := by
      unfold groupStep
      cases hl : slookup (idOf c p) m.2 with
      | some v =>
        left
        simp only [hl]
        exact supdate_keys _ _ _
      | none =>
        right
        constructor
        · simp only [hl, List.map_append]
          rfl
        · exact (slookup_eq_none_iff _ _).mp hl
    refine ⟨?_, ?_, ?_⟩
    · intro kv hkv
      unfold groupStep at hkv
      simp only at hkv
      cases hl : slookup (idOf c p) m.2 with
      | some v =>
        rw [hl] at hkv
        rcases mem_supdate _ _ _ kv hkv with h | ⟨v', hv', he⟩
        · exact hco kv h
        · subst he
          have hv'id := hco (idOf c p, v') hv'
          simp only at hv'id
          show idOf c (v'.add p) = idOf c p
          have : idOf c (v'.add p) = idOf c v' := by
            unfold idOf ProcessHarvest.add
            cases c <;> rfl
          rw [this, hv'id]
      | none =>
        rw [hl] at hkv
        rcases List.mem_append.mp hkv with htl | hnew
        · exact hco kv htl
        · rcases List.mem_singleton.mp hnew with rfl
          rfl
    · rcases hkeq with he | ⟨he, hnew⟩
      · rw [he]; exact hnd
      · rw [he]
        refine List.Nodup.append hnd (List.nodup_singleton _) ?_
        intro a ha hb
        rw [List.mem_singleton] at hb
        subst hb
        exact hnew ha
    · unfold groupStep
      cases hl1 : slookup (idOf c p) m.1 with
      | some v =>
        cases hl2 : slookup (idOf c p) m.2 with
        | some v2 =>
          simp only [hl1, hl2]
          rw [supdate_keys, supdate_keys]
          exact hkeys
        | none =>
          exfalso
          have h1 : idOf c p ∉ m.2.map Prod.fst := (slookup_eq_none_iff _ _).mp hl2
          rw [← hkeys] at h1
          have h2 : slookup (idOf c p) m.1 = none := (slookup_eq_none_iff _ _).mpr h1
          rw [hl1] at h2
          cases h2
      | none =>
        have hl2 : slookup (idOf c p) m.2 = none := by
          rw [slookup_eq_none_iff, ← hkeys]
          exact (slookup_eq_none_iff _ _).mp hl1
        simp only [hl1, hl2, List.map_append, List.map_cons, List.map_nil]
        rw [hkeys]

end ProcWidget

namespace ProcWidget

theorem GroupInv_nil (c : Bool) : GroupInv c [] ([], []) := by
  refine ⟨fun id => ⟨rfl, rfl⟩, fun kv h => absurd h (List.not_mem_nil kv), List.nodup_nil, rfl⟩

theorem groupFold_inv (c : Bool) (l : List ProcessHarvest) :
    ∀ (ps : List ProcessHarvest)
      (m : List (String × List Pid) × List (String × ProcessHarvest)),
      GroupInv c ps m → GroupInv c (ps ++ l) (l.foldl (groupStep c) m) := by
  induction l with
  | nil => intro ps m h; simpa using h
  | cons p l ih =>
    intro ps m h
    have h1 := ih (ps ++ [p]) (groupStep c m p) (groupStep_inv c ps m p h)
    rw [List.append_assoc] at h1
    simpa using h1

theorem membersOf_eq_nil_iff (c : Bool) (id : String) (ps : List ProcessHarvest) :
    membersOf c id ps = [] ↔ id ∉ ps.map (idOf c) := by
  unfold membersOf
  rw [List.filter_eq_nil_iff]
  constructor
  · intro h hmem
    obtain ⟨p, hp, hid⟩ := List.mem_map.mp hmem
    exact h p hp (by simp [hid])
  · intro h p hp hid
    exact h (List.mem_map.mpr ⟨p, hp, by simpa using hid⟩)

@[simp] theorem id_withNumSimilar (a : ProcWidgetData) (n : Nat) :
    (a.withNumSimilar n).id = a.id := rfl

@[simp] theorem numSimilar_withNumSimilar (a : ProcWidgetData) (n : Nat) :
    (a.withNumSimilar n).numSimilar = n := rfl

@[simp] theorem metrics_withNumSimilar (a : ProcWidgetData) (n : Nat) :
    (a.withNumSimilar n).metrics = a.metrics := rfl

@[simp] theorem id_fromData (p : ProcessHarvest) (c m : Bool) :
    (ProcWidgetData.fromData p c m).id = idOf c p := rfl

/-- C4: in Grouped mode a refresh emits exactly one row per distinct
identity key (name, or command when the command toggle is on) among the
predicate-matching processes; each row's numeric fields are the pointwise
sum of its members' numeric fields, its count is the number of members,
and the rebuilt id → pids map stores exactly the member pids. -/
theorem spec_C4_grouped_rows (w : ProcWidget) (harvest : List (Pid × ProcessHarvest))
    (hmode : w.mode = ProcWidgetMode.Grouped) :
    ((getNormalData w harvest).2.map ProcWidgetData.id).Nodup ∧
    (∀ i, i ∈ (getNormalData w harvest).2.map ProcWidgetData.id ↔
      i ∈ ((harvest.map Prod.snd).filter
        (matchesQuery (getQuery w) (isUsingCommand w))).map (idOf (isUsingCommand w))) ∧
    ∀ r ∈ (getNormalData w harvest).2,
      r.metrics = ((membersOf (isUsingCommand w) r.id
          ((harvest.map Prod.snd).filter
            (matchesQuery (getQuery w) (isUsingCommand w)))).map
          ProcessHarvest.metrics).sum ∧
      r.numSimilar = (membersOf (isUsingCommand w) r.id
          ((harvest.map Prod.snd).filter
            (matchesQuery (getQuery w) (isUsingCommand w)))).length ∧
      slookup r.id (getNormalData w harvest).1.idPidMap =
        some ((membersOf (isUsingCommand w) r.id
          ((harvest.map Prod.snd).filter
            (matchesQuery (getQuery w) (isUsingCommand w)))).map ProcessHarvest.pid) := by
  have hform : getNormalData w harvest =
      ({ w with idPidMap :=
          (((harvest.map Prod.snd).filter
            (matchesQuery (getQuery w) (isUsingCommand w))).foldl
            (groupStep (isUsingCommand w)) ([], [])).1 },
        trySort w
          ((((harvest.map Prod.snd).filter
            (matchesQuery (getQuery w) (isUsingCommand w))).foldl
            (groupStep (isUsingCommand w)) ([], [])).2.map (fun kv =>
            (ProcWidgetData.fromData kv.2 (isUsingCommand w) (isMemPercent w)).withNumSimilar
              (((slookup (idOf (isUsingCommand w) kv.2)
                ((((harvest.map Prod.snd).filter
                  (matchesQuery (getQuery w) (isUsingCommand w))).foldl
                  (groupStep (isUsingCommand w)) ([], [])).1)).map List.length).getD 1)))) := by
    unfold getNormalData
    rw [hmode]
  have hinv := groupFold_inv (isUsingCommand w)
    ((harvest.map Prod.snd).filter (matchesQuery (getQuery w) (isUsingCommand w)))
    [] ([], []) (GroupInv_nil (isUsingCommand w))
  rw [List.nil_append] at hinv
  obtain ⟨hpt, hco, hnd, hkeys⟩ := hinv
  -- abbreviations
  generalize hc : isUsingCommand w = c at *
  generalize hfil : (harvest.map Prod.snd).filter (matchesQuery (getQuery w) c) = filtered at *
  generalize hmaps : filtered.foldl (groupStep c) ([], []) = maps at *
  have hrowid : ∀ kv ∈ maps.2,
      ((ProcWidgetData.fromData kv.2 c (isMemPercent w)).withNumSimilar
        (((slookup (idOf c kv.2) maps.1).map List.length).getD 1)).id = kv.1 := by
    intro kv hkv
    simp [hco kv hkv]
  have hmapid : (maps.2.map (fun kv =>
      (ProcWidgetData.fromData kv.2 c (isMemPercent w)).withNumSimilar
        (((slookup (idOf c kv.2) maps.1).map List.length).getD 1))).map ProcWidgetData.id
      = maps.2.map Prod.fst := by
    rw [List.map_map]
    exact List.map_congr_left hrowid
  have hperm : List.Perm ((getNormalData w harvest).2.map ProcWidgetData.id)
      (maps.2.map Prod.fst) := by
    rw [hform]
    simp only
    rw [← hmapid]
    exact (trySort_perm w _).map ProcWidgetData.id
  refine ⟨?_, ?_, ?_⟩
  · exact hperm.nodup_iff.mpr hnd
  · intro i
    rw [hperm.mem_iff]
    constructor
    · intro hi
      by_contra hno
      have hnil : membersOf c i filtered = [] := (membersOf_eq_nil_iff c i filtered).mpr hno
      have := (hpt i).2
      rw [hnil] at this
      exact (slookup_eq_none_iff i maps.2).mp this hi
    · intro hi
      have hne : membersOf c i filtered ≠ [] := by
        rw [Ne, membersOf_eq_nil_iff]
        exact fun h => h hi
      rcases hm : membersOf c i filtered with _ | ⟨g, rest⟩
      · exact absurd hm hne
      · have := (hpt i).2
        rw [hm] at this
        by_contra hno
        rw [(slookup_eq_none_iff i maps.2).mpr hno] at this
        cases this
  · intro r hr
    have hr0 : r ∈ maps.2.map (fun kv =>
        (ProcWidgetData.fromData kv.2 c (isMemPercent w)).withNumSimilar
          (((slookup (idOf c kv.2) maps.1).map List.length).getD 1)) := by
      rw [hform] at hr
      simp only at hr
      exact (trySort_perm w _).mem_iff.mp hr
    obtain ⟨kv, hkv, hre⟩ := List.mem_map.mp hr0
    have hid : r.id = kv.1 := by rw [← hre]; exact hrowid kv hkv
    have hlook2 : slookup kv.1 maps.2 = some kv.2 := slookup_of_mem_nodup hkv hnd
    have hmm := (hpt kv.1).2
    rcases hm : membersOf c kv.1 filtered with _ | ⟨g, rest⟩
    · rw [hm] at hmm
      rw [hlook2] at hmm
      cases hmm
    · rw [hm] at hmm
      rw [hlook2] at hmm
      injection hmm with hkv2
      have hm1 := (hpt kv.1).1
      rw [hm] at hm1
      simp only [List.isEmpty_cons, Bool.false_eq_true, if_false] at hm1
      have hmetrics : r.metrics = ((membersOf c r.id filtered).map ProcessHarvest.metrics).sum := by
        rw [hid, hm]
        rw [← hre]
        simp only [metrics_withNumSimilar, ProcWidgetData.metrics_fromData]
        rw [hkv2, mergeGroup_metrics]
        simp
      have hcount : r.numSimilar = (membersOf c r.id filtered).length := by
        rw [hid, hm]
        rw [← hre]
        simp only [numSimilar_withNumSimilar]
        rw [hco kv hkv, hm1]
        simp [hm]
      have hpidmap : slookup r.id (getNormalData w harvest).1.idPidMap =
          some ((membersOf c r.id filtered).map ProcessHarvest.pid) := by
        rw [hform]
        simp only
        rw [hid, hm1, hm]
      exact ⟨hmetrics, hcount, hpidmap⟩

/-- Witness for the hypothesis of the C4 theorem, at the spec's own
scenario: two processes named "worker" with cpu 5% and 7% yield one row
with cpu 12% and count 2. -/
theorem spec_C4_witness :
    ((getNormalData (sampleWidget ProcWidgetMode.Grouped)
        [(10, sampleRec 10 "worker" 5), (11, sampleRec 11 "worker" 7)]).2.map
      ProcWidgetData.id).Nodup ∧
    ((getNormalData (sampleWidget ProcWidgetMode.Grouped)
        [(10, sampleRec 10 "worker" 5), (11, sampleRec 11 "worker" 7)]).2.map
      (fun r => (r.id, r.metrics.cpu, r.numSimilar))) = [("worker", 12, 2)] := by
  refine ⟨(spec_C4_grouped_rows (sampleWidget ProcWidgetMode.Grouped)
    [(10, sampleRec 10 "worker" 5), (11, sampleRec 11 "worker" 7)] rfl).1, ?_⟩
  have h57 : (5 : ℚ) + 7 = 12 := by norm_num
  calc ((getNormalData (sampleWidget ProcWidgetMode.Grouped)
        [(10, sampleRec 10 "worker" 5), (11, sampleRec 11 "worker" 7)]).2.map
      (fun r => (r.id, r.metrics.cpu, r.numSimilar)))
      = [("worker", (5 : ℚ) + 7, 2)] := rfl
    _ = [("worker", 12, 2)] := by rw [h57]

end ProcWidget

/-! ## C6: phase-2 stack seeding versus the sort direction -/

namespace ProcWidget

/-- The snapshot of the C6 failing input: two orphan roots, pids 1 and 2,
no parent/child edges. -/
def twoRootsDC : DataCollection :=
  ⟨⟨[(1, sampleRec 1 "a" 1), (2, sampleRec 2 "b" 2)], [], [1, 2]⟩⟩

/-- C6 (failing input): with the active sort being pid *ascending*, the
phase-2 stack is seeded with `try_sort` (the forward comparator), so the
LIFO pops emit the two roots as `[2, 1]` — the reverse of the user's
chosen order. The claim (and §4.4 of the spec) requires the seeding to use
the reverse-order variant so that pops come out in forward order `[1, 2]`;
children pushed during emission do use `try_rev_sort`, which is what makes
the root order inconsistent with the child order. -/
theorem spec_C6_root_seed_not_reverse_sorted :
    (sampleWidget (ProcWidgetMode.Tree [])).table.order = SortOrder.Ascending ∧
    ((sampleWidget (ProcWidgetMode.Tree [])).table.columns.get?
      (sampleWidget (ProcWidgetMode.Tree [])).table.sortIndex).map
        SortColumnState.inner = some ProcColumn.Pid ∧
    (getTreeData 100 (sampleWidget (ProcWidgetMode.Tree [])) [] twoRootsDC).map
      (fun rows => rows.map ProcWidgetData.pid) = some [2, 1] := by
  exact ⟨rfl, rfl, rfl⟩

/-! ## C9: the disabled flag of emitted tree rows -/

/-- One-step unfolding of the emission loop. -/
theorem emitLoop_eq (w : ProcWidget) (processHarvest : List (Pid × ProcessHarvest))
    (filteredTree : List (Pid × List Pid)) (kept : List (Pid × Bool))
    (collapsedPids : List Pid) (isUsingCommand isMemP : Bool) (sumFuel : Nat)
    (fuel : Nat) (stack : List ProcWidgetData) (lengthStack : List Nat)
    (pfxs : List String) (data : List ProcWidgetData) :
    emitLoop w processHarvest filteredTree kept collapsedPids isUsingCommand isMemP sumFuel
      fuel stack lengthStack pfxs data =
    match stack, lengthStack with
    | process :: stackRest, siblingsLeft :: lengthRest =>
      match fuel with
      | 0 => none
      | fuel + 1 =>
        let siblingsLeft := siblingsLeft - 1
        let disabled := !((alookup process.pid kept).getD false)
        let isLast := siblingsLeft = 0
        if collapsedPids.contains process.pid then
          match sumCollapsed processHarvest filteredTree isUsingCommand isMemP sumFuel
              process with
          | none => none
          | some summedProcess =>
            let pfxStr :=
              if pfxs.isEmpty then "" ++ "+ " else rowPrefix pfxs isLast ++ "+ "
            let data := data ++ [(summedProcess.withPrefix (some pfxStr)).withDisabled disabled]
            let cleaned := popZeros (siblingsLeft :: lengthRest) pfxs
            emitLoop w processHarvest filteredTree kept collapsedPids isUsingCommand isMemP
              sumFuel fuel stackRest cleaned.1 cleaned.2 data
        else
          let pfxStr := rowPrefix pfxs isLast
          let pid := process.pid
          let data := data ++ [(process.withPrefix (some pfxStr)).withDisabled disabled]
          match alookup pid filteredTree with
          | some childrenPids =>
            let contFrag :=
              if pfxs.isEmpty then "" else if isLast then "   " else "│" ++ "  "
            let pfxs := contFrag :: pfxs
            let children := childrenPids.filterMap (fun childPid =>
              (alookup childPid processHarvest).map
                (fun p => ProcWidgetData.fromData p isUsingCommand isMemP))
            let children := tryRevSort w children
            let lengthStack' := children.length :: siblingsLeft :: lengthRest
            let stack' := children.reverse ++ stackRest
            let cleaned := popZeros lengthStack' pfxs
            emitLoop w processHarvest filteredTree kept collapsedPids isUsingCommand isMemP
              sumFuel fuel stack' cleaned.1 cleaned.2 data
          | none =>
            let cleaned := popZeros (siblingsLeft :: lengthRest) pfxs
            emitLoop w processHarvest filteredTree kept collapsedPids isUsingCommand isMemP
              sumFuel fuel stackRest cleaned.1 cleaned.2 data
    | _, _ => some data := by
  cases fuel with
  | zero =>
    cases stack with
    | nil => rfl
    | cons p srest =>
      cases lengthStack with
      | nil => rfl
      | cons n lrest => rfl
  | succ fuel =>
    cases stack with
    | nil => rfl
    | cons p srest =>
      cases lengthStack with
      | nil => rfl
      | cons n lrest => rfl

theorem sumLoop_pid (harvest : List (Pid × ProcessHarvest))
    (filteredTree : List (Pid × List Pid)) (c m : Bool) :
    ∀ (fuel : Nat) (acc : ProcWidgetData) (queue : List ProcWidgetData)
      (res : ProcWidgetData),
      sumLoop harvest filteredTree c m fuel acc queue = some res → res.pid = acc.pid := by
  intro fuel
  induction fuel with
  | zero =>
    intro acc queue res h
    cases queue with
    | nil =>
      injection h with h
      rw [← h]
    | cons p q => cases h
  | succ fuel ih =>
    intro acc queue res h
    cases queue with
    | nil =>
      injection h with h
      rw [← h]
    | cons p q =>
      have := ih (acc.add p) _ res h
      rw [this]
      rfl

theorem sumCollapsed_pid (harvest : List (Pid × ProcessHarvest))
    (filteredTree : List (Pid × List Pid)) (c m : Bool) (fuel : Nat)
    (process res : ProcWidgetData)
    (h : sumCollapsed harvest filteredTree c m fuel process = some res) :
    res.pid = process.pid := by
  unfold sumCollapsed at h
  cases hl : alookup process.pid filteredTree with
  | some pids =>
    rw [hl] at h
    exact sumLoop_pid harvest filteredTree c m fuel process _ res h
  | none =>
    rw [hl] at h
    injection h with h
    rw [← h]

/-- The per-row property maintained by the emission loop: every emitted
row's disabled flag is the negation of its pid's kept verdict. -/
theorem emitLoop_disabled_inv (w : ProcWidget) (harvest : List (Pid × ProcessHarvest))
    (filteredTree : List (Pid × List Pid)) (kept : List (Pid × Bool))
    (collapsedPids : List Pid) (c m : Bool) (sumFuel : Nat) :
    ∀ (fuel : Nat) (stack : List ProcWidgetData) (lengthStack : List Nat)
      (pfxs : List String) (data rows : List ProcWidgetData),
      emitLoop w harvest filteredTree kept collapsedPids c m sumFuel fuel stack
        lengthStack pfxs data = some rows →
      (∀ r ∈ data, r.disabled = !((alookup r.pid kept).getD false)) →
      ∀ r ∈ rows, r.disabled = !((alookup r.pid kept).getD false) := by
  intro fuel
  induction fuel with
  | zero =>
    intro stack lengthStack pfxs data rows h hdata
    cases stack with
    | nil =>
      rw [emitLoop_eq] at h
      injection h with h
      rw [← h]
      exact hdata
    | cons p s =>
      cases lengthStack with
      | nil =>
        rw [emitLoop_eq] at h
        injection h with h
        rw [← h]
        exact hdata
      | cons n L =>
        rw [emitLoop_eq] at h
        simp at h
  | succ fuel ih =>
    intro stack lengthStack pfxs data rows h hdata
    cases stack with
    | nil =>
      rw [emitLoop_eq] at h
      injection h with h
      rw [← h]
      exact hdata
    | cons p s =>
      cases lengthStack with
      | nil =>
        rw [emitLoop_eq] at h
        injection h with h
        rw [← h]
        exact hdata
      | cons n L =>
        rw [emitLoop_eq] at h
        simp only at h
        by_cases hcol : collapsedPids.contains p.pid = true
        · rw [if_pos hcol] at h
          cases hsum : sumCollapsed harvest filteredTree c m sumFuel p with
          | none =>
            rw [hsum] at h
            cases h
          | some summed =>
            rw [hsum] at h
            refine ih _ _ _ _ rows h ?_
            intro r hr
            rcases List.mem_append.mp hr with hold | hnew
            · exact hdata r hold
            · rcases List.mem_singleton.mp hnew with rfl
              simp only [ProcWidgetData.disabled_withDisabled, ProcWidgetData.pid_withDisabled,
                ProcWidgetData.pid_withPrefix]
              rw [sumCollapsed_pid harvest filteredTree c m sumFuel p summed hsum]
        · rw [if_neg hcol] at h
          cases hft : alookup p.pid filteredTree with
          | some childrenPids =>
            rw [hft] at h
            refine ih _ _ _ _ rows h ?_
            intro r hr
            rcases List.mem_append.mp hr with hold | hnew
            · exact hdata r hold
            · rcases List.mem_singleton.mp hnew with rfl
              simp
          | none =>
            rw [hft] at h
            refine ih _ _ _ _ rows h ?_
            intro r hr
            rcases List.mem_append.mp hr with hold | hnew
            · exact hdata r hold
            · rcases List.mem_singleton.mp hnew with rfl
              simp

/-- Looking a pid up in `kept_pids` yields exactly its record's predicate
verdict. -/
theorem alookup_keptPids (harvest : List (Pid × ProcessHarvest)) (q : Option Query)
    (c : Bool) (pid : Pid) (rec : ProcessHarvest)
    (h : alookup pid harvest = some rec) :
    alookup pid (keptPids harvest q c) = some (matchesQuery q c rec) := by
  induction harvest with
  | nil => cases h
  | cons hd tl ih =>
    obtain ⟨k, v⟩ := hd
    by_cases hk : k = pid
    · rw [alookup_cons, if_pos hk] at h
      injection h with h
      subst h
      show alookup pid ((k, matchesQuery q c v) :: keptPids tl q c) = _
      rw [alookup_cons, if_pos hk]
    · rw [alookup_cons, if_neg hk] at h
      show alookup pid ((k, matchesQuery q c v) :: keptPids tl q c) = _
      rw [alookup_cons, if_neg hk]
      exact ih h

/-- C9: in Tree mode, an emitted aggregate row for a collapsed pid is
disabled iff its own record fails the active predicate — descendant
matches summed into the row have no bearing on the flag. (The proof gives
the fact for every emitted row; a collapsed root's summary row keeps the
root's pid, so the claim is the instance at pids in the collapsed set.) -/
theorem spec_C9_collapsed_row_disabled (fuel : Nat) (w : ProcWidget)
    (collapsedPids : List Pid) (dc : DataCollection) (rows : List ProcWidgetData)
    (h : getTreeData fuel w collapsedPids dc = some rows) :
    ∀ r ∈ rows, r.pid ∈ collapsedPids →
      ∀ rec, alookup r.pid dc.processData.processHarvest = some rec →
        r.disabled = !(matchesQuery (getQuery w) (isUsingCommand w) rec) := by
  unfold getTreeData at h
  simp only at h
  cases hft : filteredTreeOf fuel dc.processData (getQuery w) (isUsingCommand w) with
  | none =>
    rw [hft] at h
    cases h
  | some filteredTree =>
    rw [hft] at h
    simp only at h
    intro r hr _ rec hrec
    have hinv := emitLoop_disabled_inv w dc.processData.processHarvest filteredTree
      (keptPids dc.processData.processHarvest (getQuery w) (isUsingCommand w))
      collapsedPids (isUsingCommand w) (isMemPercent w) fuel fuel _ _ _ _ rows h
      (fun r hr => absurd hr (List.not_mem_nil r)) r hr
    rw [alookup_keptPids _ _ _ _ rec hrec] at hinv
    simpa using hinv

end ProcWidget

namespace ProcWidget

/-- A query handle matching only processes named `"bash"`. -/
def queryBash : Query := fun p _ => p.name = "bash"

/-- A Tree-mode widget whose active search is the parsed query "bash". -/
def widgetBashTree : ProcWidget :=
  let w := sampleWidget (ProcWidgetMode.Tree [])
  let ss : AppSearchState :=
    { currentSearchQuery := "bash", query := some queryBash, isBlankSearch := false,
      isInvalidSearch := false, errorMessage := none }
  { w with procSearch.searchState := ss }

/-- The spec's scenario snapshot: root 1 ("initd") with children 2
("sshd") and 3 ("bash"). -/
def initTreeDC : DataCollection :=
  ⟨⟨[(1, sampleRec 1 "initd" 1), (2, sampleRec 2 "sshd" 2), (3, sampleRec 3 "bash" 3)],
    [(1, [2, 3])], [1]⟩⟩

/-- The rows the Tree refresh emits for `initTreeDC` with pid 1 collapsed. -/
def c9rows : List ProcWidgetData :=
  (getTreeData 100 widgetBashTree [1] initTreeDC).getD []

/-- Witness for the hypotheses of the C9 theorem: collapsing pid 1 under
the query "bash" emits one aggregate row for pid 1, and that row is
disabled — the root "initd" itself fails the predicate even though the
descendant "bash" that was summed into the row matches it. -/
theorem spec_C9_witness :
    getTreeData 100 widgetBashTree [1] initTreeDC = some c9rows ∧
    c9rows.map ProcWidgetData.pid = [1] ∧
    (∀ r ∈ c9rows, r.pid ∈ ([1] : List Pid) →
      ∀ rec, alookup r.pid initTreeDC.processData.processHarvest = some rec →
        r.disabled = !(matchesQuery (getQuery widgetBashTree)
          (isUsingCommand widgetBashTree) rec)) ∧
    c9rows.map ProcWidgetData.disabled = [true] ∧
    matchesQuery (getQuery widgetBashTree) (isUsingCommand widgetBashTree)
      (sampleRec 3 "bash" 3) = true := by
  refine ⟨rfl, rfl, spec_C9_collapsed_row_disabled 100 widgetBashTree [1] initTreeDC
    c9rows rfl, rfl, rfl⟩

end ProcWidget

/-! ## The forest model

The acyclic-forest precondition of the snapshot (spec §3/§7) is embedded
as: there exists a list of rose trees whose nodes carry the harvest
records, with the snapshot's maps agreeing with the tree structure. The
phase-1/phase-2 loops are then characterised by structural recursion over
these trees. -/

/-- A rose tree of process records. -/
inductive RTree where
  | node : ProcessHarvest → List RTree → RTree
deriving Repr

namespace RTree

/-- The record at the root. -/
def rootRec : RTree → ProcessHarvest
  | node r _ => r

/-- The pid at the root. -/
def rootPid : RTree → Pid
  | node r _ => r.pid

/-- The child subtrees. -/
def children : RTree → List RTree
  | node _ cs => cs

end RTree

mutual
/-- All pids of a tree, root first. -/
def treePids : RTree → List Pid
  | .node r cs => r.pid :: forestPids cs
/-- All pids of a forest. -/
def forestPids : List RTree → List Pid
  | [] => []
  | t :: ts => treePids t ++ forestPids ts
end

mutual
/-- Phase-1 shownness: a node is shown iff its record matches the
predicate or some child subtree is shown. -/
def shownTree (kept : Pid → Bool) : RTree → Bool
  | .node r cs => kept r.pid || anyShown kept cs
/-- Whether some tree of the forest is shown. -/
def anyShown (kept : Pid → Bool) : List RTree → Bool
  | [] => false
  | t :: ts => shownTree kept t || anyShown kept ts
end

/-- The shown children's root pids, in adjacency order — the value stored
in the filtered-forest map at a shown node. -/
def shownRootPids (kept : Pid → Bool) (cs : List RTree) : List Pid :=
  (cs.filter (fun c => shownTree kept c)).map RTree.rootPid

mutual
/-- The `visited_pids` entries contributed by processing one tree (root
verdict on top, later siblings' blocks below earlier ones). -/
def treeVerdicts (kept : Pid → Bool) : RTree → List (Pid × Bool)
  | .node r cs => (r.pid, shownTree kept (.node r cs)) :: forestVerdictsRev kept cs
/-- The `visited_pids` entries contributed by processing a forest in stack
order. -/
def forestVerdictsRev (kept : Pid → Bool) : List RTree → List (Pid × Bool)
  | [] => []
  | t :: ts => forestVerdictsRev kept ts ++ treeVerdicts kept t
end

mutual
/-- The `filtered_tree` entries contributed by processing one tree. -/
def treeFents (kept : Pid → Bool) : RTree → List (Pid × List Pid)
  | .node r cs =>
    if shownTree kept (.node r cs) then
      (r.pid, shownRootPids kept cs) :: forestFentsRev kept cs
    else forestFentsRev kept cs
/-- The `filtered_tree` entries contributed by processing a forest. -/
def forestFentsRev (kept : Pid → Bool) : List RTree → List (Pid × List Pid)
  | [] => []
  | t :: ts => forestFentsRev kept ts ++ treeFents kept t
end

mutual
/-- The number of phase-1 loop iterations processing one tree takes. -/
def treeCost : RTree → Nat
  | .node _ cs => if cs.isEmpty then 1 else 2 + forestCost cs
/-- The number of phase-1 loop iterations processing a forest takes. -/
def forestCost : List RTree → Nat
  | [] => 0
  | t :: ts => treeCost t + forestCost ts
end

/-- Wellformedness of one tree against the snapshot maps: every node's
record is stored at its pid, and its adjacency entry lists exactly its
children's root pids (a leaf may instead have no adjacency entry). -/
inductive TreeWF (harvest : List (Pid × ProcessHarvest)) (pm : List (Pid × List Pid)) :
    RTree → Prop where
  | mk (r : ProcessHarvest) (cs : List RTree) :
      alookup r.pid harvest = some r →
      (alookup r.pid pm = some (cs.map RTree.rootPid) ∨
        (cs = [] ∧ alookup r.pid pm = none)) →
      (∀ c ∈ cs, TreeWF harvest pm c) →
      TreeWF harvest pm (.node r cs)

/-- Occurrence of a subtree inside a tree. -/
inductive OccursInT : RTree → RTree → Prop where
  | refl (t : RTree) : OccursInT t t
  | child {t c s : RTree} : c ∈ t.children → OccursInT c s → OccursInT t s

/-- Occurrence of a subtree inside a forest. -/
def OccursInF (ts : List RTree) (s : RTree) : Prop :=
  ∃ t ∈ ts, OccursInT t s

/-- The snapshot forms an acyclic forest described by `ts` (the spec's
"acyclic forest, consistent keys" precondition, §7): every tree is
wellformed, all pids are distinct, map keys agree with record pids, the
record map holds exactly the forest's nodes, and the orphan list resolves
to exactly the forest's roots in order — entries for pids that have left
the snapshot are allowed and resolve to nothing. -/
structure ForestInv (snap : ProcessData) (ts : List RTree) : Prop where
  wf : ∀ t ∈ ts, TreeWF snap.processHarvest snap.processParentMapping t
  nodup : (forestPids ts).Nodup
  keysMatch : ∀ kv ∈ snap.processHarvest, kv.2.pid = kv.1
  cover : ∀ kv ∈ snap.processHarvest, kv.1 ∈ forestPids ts
  seeds : snap.orphanPids.filterMap (fun p => alookup p snap.processHarvest)
    = ts.map RTree.rootRec

/-! ### Structural lemmas about the forest model -/

theorem rootPid_mem_treePids (t : RTree) : t.rootPid ∈ treePids t := by
  cases t with
  | node r cs =>
    rw [treePids]
    exact List.mem_cons_self _ _

theorem treePids_subset_forestPids {t : RTree} {ts : List RTree} (h : t ∈ ts) :
    ∀ p ∈ treePids t, p ∈ forestPids ts := by
  induction ts with
  | nil => cases h
  | cons t' ts ih =>
    intro p hp
    rw [forestPids]
    rcases List.mem_cons.mp h with rfl | hmem
    · exact List.mem_append_left _ hp
    · exact List.mem_append_right _ (ih hmem p hp)

theorem rootPid_mem_of_occurs {t s : RTree} (h : OccursInT t s) :
    s.rootPid ∈ treePids t := by
  induction h with
  | refl t => exact rootPid_mem_treePids t
  | @child t c s hc hocc ih =>
    cases t with
    | node r cs =>
      rw [treePids]
      exact List.mem_cons_of_mem _ (treePids_subset_forestPids hc _ ih)

theorem treePids_subset_of_occurs {t s : RTree} (h : OccursInT t s) :
    ∀ p ∈ treePids s, p ∈ treePids t := by
  induction h with
  | refl t => exact fun p hp => hp
  | @child t c s hc hocc ih =>
    intro p hp
    cases t with
    | node r cs =>
      rw [treePids]
      exact List.mem_cons_of_mem _ (treePids_subset_forestPids hc _ (ih p hp))

theorem TreeWF.of_occurs {harvest : List (Pid × ProcessHarvest)}
    {pm : List (Pid × List Pid)} {t s : RTree} (hwf : TreeWF harvest pm t)
    (h : OccursInT t s) : TreeWF harvest pm s := by
  induction h with
  | refl t => exact hwf
  | @child t c s hc hocc ih =>
    apply ih
    cases hwf with
    | mk r cs _ _ hcs => exact hcs c hc

theorem TreeWF.root_lookup {harvest : List (Pid × ProcessHarvest)}
    {pm : List (Pid × List Pid)} {t : RTree} (hwf : TreeWF harvest pm t) :
    alookup t.rootPid harvest = some t.rootRec := by
  cases hwf with
  | mk r cs hl _ _ => exact hl

theorem anyShown_iff (kept : Pid → Bool) (ts : List RTree) :
    anyShown kept ts = true ↔ ∃ t ∈ ts, shownTree kept t = true := by
  induction ts with
  | nil => simp [anyShown]
  | cons t ts ih =>
    rw [anyShown, Bool.or_eq_true, ih]
    constructor
    · rintro (h | ⟨t', ht', hs⟩)
      · exact ⟨t, List.mem_cons_self _ _, h⟩
      · exact ⟨t', List.mem_cons_of_mem _ ht', hs⟩
    · rintro ⟨t', ht', hs⟩
      rcases List.mem_cons.mp ht' with rfl | hmem
      · exact Or.inl hs
      · exact Or.inr ⟨t', hmem, hs⟩

theorem shownTree_of_occurs {kept : Pid → Bool} {t s : RTree} (h : OccursInT t s)
    (hs : shownTree kept s = true) : shownTree kept t = true := by
  induction h with
  | refl t => exact hs
  | @child t c s hc hocc ih =>
    cases t with
    | node r cs =>
      rw [shownTree, Bool.or_eq_true]
      exact Or.inr ((anyShown_iff kept cs).mpr ⟨c, hc, ih hs⟩)

theorem occursInT_child {t s c : RTree} (h : OccursInT t s) (hc : c ∈ s.children) :
    OccursInT t c := by
  induction h with
  | refl t => exact OccursInT.child hc (OccursInT.refl c)
  | child hc' hocc ih => exact OccursInT.child hc' (ih hc)

theorem occursInF_child {ts : List RTree} {s c : RTree} (h : OccursInF ts s)
    (hc : c ∈ s.children) : OccursInF ts c := by
  obtain ⟨t, ht, hocc⟩ := h
  exact ⟨t, ht, occursInT_child hocc hc⟩

theorem exists_occurs_of_mem_treePids {p : Pid} :
    ∀ (t : RTree), p ∈ treePids t → ∃ s, OccursInT t s ∧ s.rootPid = p
  | .node r cs, h => by
    rw [treePids] at h
    rcases List.mem_cons.mp h with rfl | hmem
    · exact ⟨.node r cs, OccursInT.refl _, rfl⟩
    · -- p lies in some child's pid set
      have : ∀ (l : List RTree), (∀ c ∈ l, c ∈ cs) → p ∈ forestPids l →
          ∃ s, OccursInT (.node r cs) s ∧ s.rootPid = p := by
        intro l
        induction l with
        | nil => intro _ h'; cases h'
        | cons c l ih =>
          intro hsub h'
          rw [forestPids] at h'
          rcases List.mem_append.mp h' with hin | hin
          · obtain ⟨s, hocc, hp⟩ := exists_occurs_of_mem_treePids c hin
            exact ⟨s, OccursInT.child (hsub c (List.mem_cons_self _ _)) hocc, hp⟩
          · exact ih (fun c' hc' => hsub c' (List.mem_cons_of_mem _ hc')) hin
      exact this cs (fun c hc => hc) hmem
termination_by t _ => sizeOf t
decreasing_by
  have h1 : sizeOf c < sizeOf cs := List.sizeOf_lt_of_mem (hsub c (List.mem_cons_self c l))
  simp only [RTree.node.sizeOf_spec]
  omega

theorem exists_occursF_of_mem_forestPids {p : Pid} {ts : List RTree}
    (h : p ∈ forestPids ts) : ∃ s, OccursInF ts s ∧ s.rootPid = p := by
  induction ts with
  | nil => cases h
  | cons t ts ih =>
    rw [forestPids] at h
    rcases List.mem_append.mp h with hin | hin
    · obtain ⟨s, hocc, hp⟩ := exists_occurs_of_mem_treePids t hin
      exact ⟨s, ⟨t, List.mem_cons_self _ _, hocc⟩, hp⟩
    · obtain ⟨s, ⟨t', ht', hocc⟩, hp⟩ := ih hin
      exact ⟨s, ⟨t', List.mem_cons_of_mem _ ht', hocc⟩, hp⟩

theorem forestPids_perm {ts ts' : List RTree} (h : List.Perm ts ts') :
    List.Perm (forestPids ts) (forestPids ts') := by
  induction h with
  | nil => exact List.Perm.refl _
  | cons t _ ih =>
    rw [forestPids, forestPids]
    exact ih.append_left (treePids t)
  | swap t t' l =>
    rw [forestPids, forestPids, forestPids, forestPids, ← List.append_assoc,
      ← List.append_assoc]
    exact (List.perm_append_comm.append_right _)
  | trans _ _ ih1 ih2 => exact ih1.trans ih2

mutual
theorem alookup_treeVerdicts_none (kept : Pid → Bool) (p : Pid) :
    ∀ (t : RTree), p ∉ treePids t → alookup p (treeVerdicts kept t) = none
  | .node r cs, h => by
    rw [treeVerdicts, alookup_cons]
    rw [treePids] at h
    have h1 : r.pid ≠ p := fun he => h (he ▸ List.mem_cons_self _ _)
    rw [if_neg h1]
    exact alookup_forestVerdicts_none kept p cs (fun hm => h (List.mem_cons_of_mem _ hm))
theorem alookup_forestVerdicts_none (kept : Pid → Bool) (p : Pid) :
    ∀ (ts : List RTree), p ∉ forestPids ts → alookup p (forestVerdictsRev kept ts) = none
  | [], _ => rfl
  | t :: ts, h => by
    rw [forestVerdictsRev]
    rw [forestPids] at h
    rw [alookup_append_of_none _ _
      (alookup_forestVerdicts_none kept p ts (fun hm => h (List.mem_append_right _ hm)))]
    exact alookup_treeVerdicts_none kept p t (fun hm => h (List.mem_append_left _ hm))
end

mutual
theorem alookup_treeFents_none (kept : Pid → Bool) (p : Pid) :
    ∀ (t : RTree), p ∉ treePids t → alookup p (treeFents kept t) = none
  | .node r cs, h => by
    rw [treeFents]
    rw [treePids] at h
    have h1 : r.pid ≠ p := fun he => h (he ▸ List.mem_cons_self _ _)
    have h2 := alookup_forestFents_none kept p cs (fun hm => h (List.mem_cons_of_mem _ hm))
    by_cases hs : shownTree kept (.node r cs) = true
    · rw [if_pos hs, alookup_cons, if_neg h1]
      exact h2
    · rw [if_neg hs]
      exact h2
theorem alookup_forestFents_none (kept : Pid → Bool) (p : Pid) :
    ∀ (ts : List RTree), p ∉ forestPids ts → alookup p (forestFentsRev kept ts) = none
  | [], _ => rfl
  | t :: ts, h => by
    rw [forestFentsRev]
    rw [forestPids] at h
    rw [alookup_append_of_none _ _
      (alookup_forestFents_none kept p ts (fun hm => h (List.mem_append_right _ hm)))]
    exact alookup_treeFents_none kept p t (fun hm => h (List.mem_append_left _ hm))
end

theorem alookup_treeVerdicts_root (kept : Pid → Bool) (t : RTree) :
    alookup t.rootPid (treeVerdicts kept t) = some (shownTree kept t) := by
  cases t with
  | node r cs =>
    rw [treeVerdicts]
    show alookup r.pid _ = _
    rw [alookup_cons, if_pos rfl]

/-- Looking up a forest member's root pid in the accumulated verdict
entries yields that member's shownness. -/
theorem alookup_forestVerdicts_mem (kept : Pid → Bool) (c : RTree) :
    ∀ (ts : List RTree), (forestPids ts).Nodup → c ∈ ts →
      ∀ V : List (Pid × Bool),
        alookup c.rootPid (forestVerdictsRev kept ts ++ V) = some (shownTree kept c) := by
  intro ts
  induction ts with
  | nil =>
    intro _ hc
    cases hc
  | cons t ts ih =>
    intro hnd hc V
    rw [forestVerdictsRev, List.append_assoc]
    rw [forestPids] at hnd
    rcases List.mem_cons.mp hc with rfl | hmem
    · have hdisj := List.disjoint_of_nodup_append hnd
      have hnone : alookup c.rootPid (forestVerdictsRev kept ts) = none :=
        alookup_forestVerdicts_none kept _ ts
          (fun hm => hdisj (rootPid_mem_treePids c) hm)
      rw [alookup_append_of_none _ _ hnone]
      exact alookup_append_of_some _ _ (alookup_treeVerdicts_root kept c)
    · exact ih hnd.of_append_right hmem (treeVerdicts kept t ++ V)

/-- The filtered-forest entries of a subtree occurrence: present with the
shown children exactly when the subtree is shown. -/
theorem alookup_treeFents_occurs (kept : Pid → Bool) : ∀ (t : RTree),
    (treePids t).Nodup → ∀ (s : RTree), OccursInT t s →
      alookup s.rootPid (treeFents kept t) =
        if shownTree kept s = true then some (shownRootPids kept s.children)
        else none := by
  refine @RTree.rec
    (fun t => (treePids t).Nodup → ∀ s, OccursInT t s →
      alookup s.rootPid (treeFents kept t) =
        if shownTree kept s = true then some (shownRootPids kept s.children) else none)
    (fun cs => (forestPids cs).Nodup → ∀ s, OccursInF cs s →
      alookup s.rootPid (forestFentsRev kept cs) =
        if shownTree kept s = true then some (shownRootPids kept s.children) else none)
    ?_ ?_ ?_
  · intro r cs ihcs hnd s hocc
    rw [treePids] at hnd
    have hroot : r.pid ∉ forestPids cs := (List.nodup_cons.mp hnd).1
    have hndcs : (forestPids cs).Nodup := (List.nodup_cons.mp hnd).2
    cases hocc with
    | refl =>
      rw [treeFents]
      by_cases hs : shownTree kept (RTree.node r cs) = true
      · rw [if_pos hs, if_pos hs]
        show alookup r.pid _ = _
        rw [alookup_cons, if_pos rfl]
        rfl
      · rw [if_neg hs, if_neg hs]
        show alookup r.pid _ = _
        exact alookup_forestFents_none kept _ cs hroot
    | @child _ c _ hc hocc' =>
      have hocc'' : OccursInF cs s := ⟨c, hc, hocc'⟩
      have hmem : s.rootPid ∈ forestPids cs :=
        treePids_subset_forestPids hc _ (rootPid_mem_of_occurs hocc')
      have hne : r.pid ≠ s.rootPid := fun he => hroot (he ▸ hmem)
      rw [treeFents]
      by_cases hs : shownTree kept (RTree.node r cs) = true
      · rw [if_pos hs, alookup_cons, if_neg hne]
        exact ihcs hndcs s hocc''
      · rw [if_neg hs]
        exact ihcs hndcs s hocc''
  · intro _ s hocc
    obtain ⟨t, ht, _⟩ := hocc
    cases ht
  · intro t ts iht ihts hnd s hocc
    rw [forestPids] at hnd
    have hdisj := List.disjoint_of_nodup_append hnd
    have hndt : (treePids t).Nodup := hnd.of_append_left
    have hndts : (forestPids ts).Nodup := hnd.of_append_right
    obtain ⟨t', ht', hocc'⟩ := hocc
    rw [forestFentsRev]
    rcases List.mem_cons.mp ht' with rfl | hmem
    · have hmemt : s.rootPid ∈ treePids t' := rootPid_mem_of_occurs hocc'
      have hnone : alookup s.rootPid (forestFentsRev kept ts) = none :=
        alookup_forestFents_none kept _ ts (fun hm => hdisj hmemt hm)
      rw [alookup_append_of_none _ _ hnone]
      exact iht hndt s hocc'
    · have hmemts : s.rootPid ∈ forestPids ts :=
        treePids_subset_forestPids hmem _ (rootPid_mem_of_occurs hocc')
      have hres := ihts hndts s ⟨t', hmem, hocc'⟩
      by_cases hs : shownTree kept s = true
      · rw [if_pos hs] at hres ⊢
        exact alookup_append_of_some _ _ hres
      · rw [if_neg hs] at hres ⊢
        rw [alookup_append_of_none _ _ hres]
        exact alookup_treeFents_none kept _ t (fun hm => hdisj hm hmemts)

/-! ### Phase-1 characterisation -/

/-- The match verdict function induced by the `kept_pids` map. -/
def keptOf (keptA : List (Pid × Bool)) : Pid → Bool :=
  fun p => (alookup p keptA).getD false

theorem RTree.rootRec_pid (t : RTree) : t.rootRec.pid = t.rootPid := by
  cases t with
  | node r cs => rfl

theorem filterMap_eq_map_of_forall {α β : Type _} (l : List α) (f : α → Option β)
    (g : α → β) (h : ∀ x ∈ l, f x = some (g x)) : l.filterMap f = l.map g := by
  induction l with
  | nil => rfl
  | cons x l ih =>
    rw [List.filterMap_cons, h x (List.mem_cons_self _ _), List.map_cons,
      ih (fun y hy => h y (List.mem_cons_of_mem _ hy))]

theorem anyShown_eq_not_isEmpty_filter (kept : Pid → Bool) (cs : List RTree) :
    anyShown kept cs = !(cs.filter (fun c => shownTree kept c)).isEmpty := by
  induction cs with
  | nil => rfl
  | cons t ts ih =>
    rw [anyShown, List.filter_cons]
    by_cases hs : shownTree kept t = true
    · simp [hs]
    · have hs' : shownTree kept t = false := Bool.eq_false_iff.mpr hs
      simp only [hs', Bool.false_eq_true, if_false, Bool.false_or]
      exact ih

namespace ProcWidget

/-- Adding fuel preserves a successful phase-1 run. -/
theorem phase1Loop_mono (harvest : List (Pid × ProcessHarvest))
    (pm : List (Pid × List Pid)) (keptA : List (Pid × Bool)) :
    ∀ (fuel : Nat) (stack : List ProcessHarvest) (visited : List (Pid × Bool))
      (filtered res : List (Pid × List Pid)),
      phase1Loop harvest pm keptA fuel stack visited filtered = some res →
      phase1Loop harvest pm keptA (fuel + 1) stack visited filtered = some res := by
  intro fuel
  induction fuel with
  | zero =>
    intro stack visited filtered res h
    cases stack with
    | nil => exact h
    | cons p rest => cases h
  | succ fuel ih =>
    intro stack visited filtered res h
    cases stack with
    | nil => exact h
    | cons p rest =>
      rw [phase1Loop] at h ⊢
      simp only at h ⊢
      cases hadj : alookup p.pid pm with
      | some childrenPids =>
        rw [hadj] at h
        simp only at h ⊢
        by_cases hall : childrenPids.all (fun pid => (alookup pid visited).isSome) = true
        · rw [if_pos hall] at h ⊢
          exact ih _ _ _ res h
        · rw [if_neg hall] at h ⊢
          exact ih _ _ _ res h
      | none =>
        rw [hadj] at h
        simp only at h ⊢
        exact ih _ _ _ res h

theorem phase1Loop_mono_le (harvest : List (Pid × ProcessHarvest))
    (pm : List (Pid × List Pid)) (keptA : List (Pid × Bool))
    {fuel fuel' : Nat} (hle : fuel ≤ fuel') (stack : List ProcessHarvest)
    (visited : List (Pid × Bool)) (filtered res : List (Pid × List Pid))
    (h : phase1Loop harvest pm keptA fuel stack visited filtered = some res) :
    phase1Loop harvest pm keptA fuel' stack visited filtered = some res := by
  induction hle with
  | refl => exact h
  | step _ ih => exact phase1Loop_mono harvest pm keptA _ _ _ _ _ ih

end ProcWidget

namespace ProcWidget

/-- Processing one wellformed tree whose pids are fresh advances the
phase-1 loop by exactly `treeCost`, contributing the tree's verdicts and
filtered-forest entries; mutually, the same for a forest laid out on the
stack. -/
theorem phase1_run_tree (harvest : List (Pid × ProcessHarvest))
    (pm : List (Pid × List Pid)) (keptA : List (Pid × Bool)) : ∀ (t : RTree),
    TreeWF harvest pm t → (treePids t).Nodup →
    ∀ (visited : List (Pid × Bool)), (∀ p ∈ treePids t, alookup p visited = none) →
    ∀ (fuel : Nat) (rest : List ProcessHarvest) (filtered : List (Pid × List Pid)),
      phase1Loop harvest pm keptA (treeCost t + fuel) (t.rootRec :: rest) visited filtered =
        phase1Loop harvest pm keptA fuel rest
          (treeVerdicts (keptOf keptA) t ++ visited)
          (treeFents (keptOf keptA) t ++ filtered) := by
  refine @RTree.rec
    (fun t => TreeWF harvest pm t → (treePids t).Nodup →
      ∀ visited, (∀ p ∈ treePids t, alookup p visited = none) →
      ∀ fuel rest filtered,
        phase1Loop harvest pm keptA (treeCost t + fuel) (t.rootRec :: rest) visited filtered =
          phase1Loop harvest pm keptA fuel rest
            (treeVerdicts (keptOf keptA) t ++ visited)
            (treeFents (keptOf keptA) t ++ filtered))
    (fun ts => (∀ t ∈ ts, TreeWF harvest pm t) → (forestPids ts).Nodup →
      ∀ visited, (∀ p ∈ forestPids ts, alookup p visited = none) →
      ∀ fuel rest filtered,
        phase1Loop harvest pm keptA (forestCost ts + fuel)
            (ts.map RTree.rootRec ++ rest) visited filtered =
          phase1Loop harvest pm keptA fuel rest
            (forestVerdictsRev (keptOf keptA) ts ++ visited)
            (forestFentsRev (keptOf keptA) ts ++ filtered))
    ?_ ?_ ?_
  · -- a single tree node
    intro r cs ihcs hwf hnd visited hfresh fuel rest filtered
    have hrl : alookup r.pid harvest = some r := by
      cases hwf with | mk _ _ h _ _ => exact h
    have hadj : alookup r.pid pm = some (cs.map RTree.rootPid) ∨
        (cs = [] ∧ alookup r.pid pm = none) := by
      cases hwf with | mk _ _ _ h _ => exact h
    have hcwf : ∀ c ∈ cs, TreeWF harvest pm c := by
      cases hwf with | mk _ _ _ _ h => exact h
    cases cs with
    | nil =>
      have hcost : treeCost (RTree.node r []) + fuel = fuel + 1 := by
        rw [treeCost]
        simp [Nat.add_comm]
      rw [hcost, phase1Loop]
      simp only [RTree.rootRec]
      have hgoal : ∀ b : Bool,
          b = shownTree (keptOf keptA) (RTree.node r []) →
          phase1Loop harvest pm keptA fuel rest ((r.pid, b) :: visited)
            (if b = true then (r.pid, ([] : List Pid)) :: filtered else filtered) =
          phase1Loop harvest pm keptA fuel rest
            (treeVerdicts (keptOf keptA) (RTree.node r []) ++ visited)
            (treeFents (keptOf keptA) (RTree.node r []) ++ filtered) := by
        intro b hb
        rw [treeVerdicts, treeFents, forestVerdictsRev, forestFentsRev, ← hb]
        cases b with
        | true =>
          simp only [if_true]
          rfl
        | false =>
          simp only [Bool.false_eq_true, if_false]
          rfl
      rcases hadj with hadj | ⟨_, hadj⟩
      · simp only [List.map_nil] at hadj
        rw [hadj]
        simp only [List.all_nil, if_true, List.filter_nil, List.isEmpty_nil,
          List.filterMap_nil]
        apply hgoal
        rw [shownTree, anyShown, keptOf]
        simp
      · rw [hadj]
        apply hgoal
        rw [shownTree, anyShown, keptOf]
        simp
    | cons c0 cs' =>
      rcases hadj with hadj | ⟨hnil, _⟩
      · have hcost : treeCost (RTree.node r (c0 :: cs')) + fuel
            = (1 + (forestCost (c0 :: cs') + fuel)) + 1 := by
          rw [treeCost]
          simp only [List.isEmpty_cons, Bool.false_eq_true, if_false]
          omega
        rw [hcost, phase1Loop]
        simp only [RTree.rootRec]
        rw [hadj]
        simp only
        -- the children are not all visited yet: the head child is fresh
        have hfreshc0 : alookup c0.rootPid visited = none := by
          apply hfresh
          rw [treePids]
          exact List.mem_cons_of_mem _
            (treePids_subset_forestPids (List.mem_cons_self _ _) _
              (rootPid_mem_treePids c0))
        have hall : (((c0 :: cs').map RTree.rootPid).all
            (fun pid => (alookup pid visited).isSome)) = false := by
          apply Bool.eq_false_iff.mpr
          intro hall
          rw [List.all_eq_true] at hall
          have := hall c0.rootPid (List.mem_map.mpr ⟨c0, List.mem_cons_self _ _, rfl⟩)
          rw [hfreshc0] at this
          cases this
        rw [hall]
        simp only [Bool.false_eq_true, if_false]
        -- pushing resolves every child pid to its record
        have hpush : ((c0 :: cs').map RTree.rootPid).filterMap
            (fun pid => alookup pid harvest) = (c0 :: cs').map RTree.rootRec := by
          rw [List.filterMap_map]
          apply filterMap_eq_map_of_forall
          intro c hc
          exact (hcwf c hc).root_lookup
        rw [hpush]
        -- process the forest of children
        have hndcs : (forestPids (c0 :: cs')).Nodup := by
          rw [treePids] at hnd
          exact (List.nodup_cons.mp hnd).2
        have hfreshcs : ∀ p ∈ forestPids (c0 :: cs'), alookup p visited = none := by
          intro p hp
          apply hfresh
          rw [treePids]
          exact List.mem_cons_of_mem _ hp
        have hforest := ihcs hcwf hndcs visited hfreshcs (1 + fuel)
          (r :: rest) filtered
        rw [show forestCost (c0 :: cs') + (1 + fuel)
            = 1 + (forestCost (c0 :: cs') + fuel) from by omega] at hforest
        rw [hforest]
        -- the second visit of the root: all children are now visited
        rw [show 1 + fuel = fuel + 1 from by omega, phase1Loop]
        simp only [RTree.rootRec]
        rw [hadj]
        simp only
        have hvmem : ∀ c ∈ c0 :: cs',
            alookup c.rootPid (forestVerdictsRev (keptOf keptA) (c0 :: cs') ++ visited)
              = some (shownTree (keptOf keptA) c) := by
          intro c hc
          exact alookup_forestVerdicts_mem (keptOf keptA) c _ hndcs hc visited
        have hall2 : (((c0 :: cs').map RTree.rootPid).all (fun pid =>
            (alookup pid (forestVerdictsRev (keptOf keptA) (c0 :: cs') ++ visited)).isSome))
            = true := by
          rw [List.all_eq_true]
          intro pid hpid
          obtain ⟨c, hc, rfl⟩ := List.mem_map.mp hpid
          rw [hvmem c hc]
          rfl
        rw [hall2]
        simp only [if_true]
        -- the filter over verdicts is exactly the shown children
        have hfilter : ((c0 :: cs').map RTree.rootPid).filter (fun pid =>
            (alookup pid (forestVerdictsRev (keptOf keptA) (c0 :: cs') ++ visited)).getD false)
            = shownRootPids (keptOf keptA) (c0 :: cs') := by
          rw [List.filter_map]
          unfold shownRootPids
          congr 1
          apply List.filter_congr
          intro c hc
          show ((alookup c.rootPid _).getD false) = _
          rw [hvmem c hc]
          rfl
        rw [hfilter]
        -- the emptiness test of the shown children is `anyShown`
        have hempty : (!(shownRootPids (keptOf keptA) (c0 :: cs')).isEmpty)
            = anyShown (keptOf keptA) (c0 :: cs') := by
          rw [anyShown_eq_not_isEmpty_filter]
          unfold shownRootPids
          congr 1
          cases (c0 :: cs').filter (fun c => shownTree (keptOf keptA) c) <;> rfl
        rw [hempty]
        -- resolving the shown children back to pids is the identity
        have hshownres : (shownRootPids (keptOf keptA) (c0 :: cs')).filterMap
            (fun pid => (alookup pid harvest).map (fun p => p.pid))
            = shownRootPids (keptOf keptA) (c0 :: cs') := by
          unfold shownRootPids
          rw [List.filterMap_map]
          apply filterMap_eq_map_of_forall
          intro c hc
          have hcmem : c ∈ c0 :: cs' := List.mem_of_mem_filter hc
          show (alookup c.rootPid harvest).map (fun p => p.pid) = some c.rootPid
          rw [(hcwf c hcmem).root_lookup]
          simp [RTree.rootRec_pid]
        rw [hshownres]
        -- both sides are now the same recursive call
        have hsh : ((alookup r.pid keptA).getD false
              || anyShown (keptOf keptA) (c0 :: cs'))
            = shownTree (keptOf keptA) (RTree.node r (c0 :: cs')) := by
          rw [shownTree]
          rfl
        rw [treeVerdicts, treeFents, hsh]
        by_cases hs : shownTree (keptOf keptA) (RTree.node r (c0 :: cs')) = true
        · rw [if_pos hs, if_pos hs]
          simp [List.append_assoc]
        · rw [if_neg hs, if_neg hs]
          simp [List.append_assoc]
      · cases hnil
  · -- the empty forest
    intro _ hnd visited hfresh fuel rest filtered
    rw [forestCost]
    simp [forestVerdictsRev, forestFentsRev]
  · -- a forest with a head tree
    intro t ts iht ihts hwfs hnd visited hfresh fuel rest filtered
    rw [forestPids] at hnd
    have hdisj := List.disjoint_of_nodup_append hnd
    have hwt : TreeWF harvest pm t := hwfs t (List.mem_cons_self _ _)
    have hwts : ∀ t' ∈ ts, TreeWF harvest pm t' :=
      fun t' ht' => hwfs t' (List.mem_cons_of_mem _ ht')
    rw [forestCost, List.map_cons, List.cons_append]
    rw [show treeCost t + forestCost ts + fuel
        = treeCost t + (forestCost ts + fuel) from by omega]
    rw [iht hwt hnd.of_append_left visited
      (fun p hp => hfresh p (List.mem_append_left _ hp))
      (forestCost ts + fuel) (ts.map RTree.rootRec ++ rest) filtered]
    have hfresh' : ∀ p ∈ forestPids ts,
        alookup p (treeVerdicts (keptOf keptA) t ++ visited) = none := by
      intro p hp
      rw [alookup_append_of_none _ _
        (alookup_treeVerdicts_none (keptOf keptA) p t (fun hm => hdisj hm hp))]
      exact hfresh p (List.mem_append_right _ hp)
    rw [ihts hwts hnd.of_append_right _ hfresh' fuel rest _]
    rw [forestVerdictsRev, forestFentsRev]
    simp [List.append_assoc]

end ProcWidget

theorem alookup_mem {β : Type _} {k : Pid} {v : β} :
    ∀ {l : List (Pid × β)}, alookup k l = some v → (k, v) ∈ l := by
  intro l
  induction l with
  | nil => intro h; cases h
  | cons hd tl ih =>
    obtain ⟨k', v'⟩ := hd
    intro h
    rw [alookup_cons] at h
    by_cases hk : k' = k
    · rw [if_pos hk] at h
      injection h with h
      subst hk
      subst h
      exact List.mem_cons_self _ _
    · rw [if_neg hk] at h
      exact List.mem_cons_of_mem _ (ih h)

/-- Forest-level filtered-entry characterisation. -/
theorem alookup_forestFents_occurs (kept : Pid → Bool) {ts : List RTree}
    (hnd : (forestPids ts).Nodup) {s : RTree} (hocc : OccursInF ts s) :
    alookup s.rootPid (forestFentsRev kept ts) =
      if shownTree kept s = true then some (shownRootPids kept s.children)
      else none := by
  induction ts with
  | nil =>
    obtain ⟨t, ht, _⟩ := hocc
    cases ht
  | cons t ts ih =>
    rw [forestPids] at hnd
    have hdisj := List.disjoint_of_nodup_append hnd
    obtain ⟨t', ht', hocc'⟩ := hocc
    rw [forestFentsRev]
    rcases List.mem_cons.mp ht' with rfl | hmem
    · have hmemt : s.rootPid ∈ treePids t' := rootPid_mem_of_occurs hocc'
      have hnone : alookup s.rootPid (forestFentsRev kept ts) = none :=
        alookup_forestFents_none kept _ ts (fun hm => hdisj hmemt hm)
      rw [alookup_append_of_none _ _ hnone]
      exact alookup_treeFents_occurs kept t' hnd.of_append_left s hocc'
    · have hmemts : s.rootPid ∈ forestPids ts :=
        treePids_subset_forestPids hmem _ (rootPid_mem_of_occurs hocc')
      have hres := ih hnd.of_append_right ⟨t', hmem, hocc'⟩
      by_cases hs : shownTree kept s = true
      · rw [if_pos hs] at hres ⊢
        exact alookup_append_of_some _ _ hres
      · rw [if_neg hs] at hres ⊢
        rw [alookup_append_of_none _ _ hres]
        exact alookup_treeFents_none kept _ t (fun hm => hdisj hm hmemts)

namespace ProcWidget

/-- Forest-level export of the phase-1 run lemma. -/
theorem phase1_run_forest (harvest : List (Pid × ProcessHarvest))
    (pm : List (Pid × List Pid)) (keptA : List (Pid × Bool)) : ∀ (ts : List RTree),
    (∀ t ∈ ts, TreeWF harvest pm t) → (forestPids ts).Nodup →
    ∀ (visited : List (Pid × Bool)), (∀ p ∈ forestPids ts, alookup p visited = none) →
    ∀ (fuel : Nat) (rest : List ProcessHarvest) (filtered : List (Pid × List Pid)),
      phase1Loop harvest pm keptA (forestCost ts + fuel)
          (ts.map RTree.rootRec ++ rest) visited filtered =
        phase1Loop harvest pm keptA fuel rest
          (forestVerdictsRev (keptOf keptA) ts ++ visited)
          (forestFentsRev (keptOf keptA) ts ++ filtered) := by
  intro ts
  induction ts with
  | nil =>
    intro _ _ visited _ fuel rest filtered
    rw [forestCost]
    simp [forestVerdictsRev, forestFentsRev]
  | cons t ts ih =>
    intro hwfs hnd visited hfresh fuel rest filtered
    rw [forestPids] at hnd
    have hdisj := List.disjoint_of_nodup_append hnd
    rw [forestCost, List.map_cons, List.cons_append]
    rw [show treeCost t + forestCost ts + fuel
        = treeCost t + (forestCost ts + fuel) from by omega]
    rw [phase1_run_tree harvest pm keptA t (hwfs t (List.mem_cons_self _ _))
      hnd.of_append_left visited (fun p hp => hfresh p (List.mem_append_left _ hp))
      (forestCost ts + fuel) (ts.map RTree.rootRec ++ rest) filtered]
    have hfresh' : ∀ p ∈ forestPids ts,
        alookup p (treeVerdicts (keptOf keptA) t ++ visited) = none := by
      intro p hp
      rw [alookup_append_of_none _ _
        (alookup_treeVerdicts_none (keptOf keptA) p t (fun hm => hdisj hm hp))]
      exact hfresh p (List.mem_append_right _ hp)
    rw [ih (fun t' ht' => hwfs t' (List.mem_cons_of_mem _ ht')) hnd.of_append_right
      _ hfresh' fuel rest _]
    rw [forestVerdictsRev, forestFentsRev]
    simp [List.append_assoc]

/-- The canonical successful phase-1 run under the forest precondition:
the filtered-forest map is exactly the forest's filtered entries. -/
theorem filteredTreeOf_run (snap : ProcessData) (ts : List RTree)
    (hinv : ForestInv snap ts) (q : Option Query) (isCmd : Bool) :
    filteredTreeOf (forestCost ts.reverse) snap q isCmd =
      some (forestFentsRev (keptOf (keptPids snap.processHarvest q isCmd)) ts.reverse) := by
  unfold filteredTreeOf
  have hstack : (snap.orphanPids.filterMap (fun p => alookup p snap.processHarvest)).reverse
      = ts.reverse.map RTree.rootRec := by
    rw [hinv.seeds, List.map_reverse]
  rw [hstack]
  have hwf : ∀ t ∈ ts.reverse, TreeWF snap.processHarvest snap.processParentMapping t :=
    fun t ht => hinv.wf t (List.mem_reverse.mp ht)
  have hnd : (forestPids ts.reverse).Nodup :=
    ((forestPids_perm (List.reverse_perm ts)).nodup_iff).mpr hinv.nodup
  have hfresh : ∀ p ∈ forestPids ts.reverse, alookup p ([] : List (Pid × Bool)) = none :=
    fun p _ => rfl
  have hrun := phase1_run_forest snap.processHarvest snap.processParentMapping
    (keptPids snap.processHarvest q isCmd) ts.reverse hwf hnd [] hfresh 0 [] []
  rw [Nat.add_zero, List.append_nil] at hrun
  rw [hrun]
  simp only [List.append_nil]
  rfl

end ProcWidget

theorem shownTree_eq (kept : Pid → Bool) (s : RTree) :
    shownTree kept s = (kept s.rootPid || anyShown kept s.children) := by
  cases s with
  | node r cs => rw [shownTree]; rfl

namespace ProcWidget

/-- C1: for every snapshot forming an acyclic forest and every active
predicate, the phase-1 filtered-forest map contains a pid iff its record
matches the predicate or at least one of its children is included in the
filtered forest. -/
theorem spec_C1_tree_inclusion (snap : ProcessData) (ts : List RTree)
    (hinv : ForestInv snap ts) (q : Option Query) (isCmd : Bool)
    (fuel : Nat) (F : List (Pid × List Pid))
    (hrun : filteredTreeOf fuel snap q isCmd = some F) :
    ∀ (p : Pid) (rec : ProcessHarvest), alookup p snap.processHarvest = some rec →
      ((alookup p F).isSome = true ↔
        (matchesQuery q isCmd rec = true ∨
          ∃ cpid ∈ (alookup p snap.processParentMapping).getD [],
            (alookup cpid F).isSome = true)) := by
  have hcanon := filteredTreeOf_run snap ts hinv q isCmd
  have hFeq : F = forestFentsRev (keptOf (keptPids snap.processHarvest q isCmd))
      ts.reverse := by
    unfold filteredTreeOf at hrun hcanon
    have h1 := phase1Loop_mono_le snap.processHarvest snap.processParentMapping
      (keptPids snap.processHarvest q isCmd)
      (Nat.le_max_left fuel (forestCost ts.reverse)) _ _ _ _ hrun
    have h2 := phase1Loop_mono_le snap.processHarvest snap.processParentMapping
      (keptPids snap.processHarvest q isCmd)
      (Nat.le_max_right fuel (forestCost ts.reverse)) _ _ _ _ hcanon
    rw [h1] at h2
    exact Option.some.inj h2
  subst hFeq
  have hndR : (forestPids ts.reverse).Nodup :=
    ((forestPids_perm (List.reverse_perm ts)).nodup_iff).mpr hinv.nodup
  intro p rec hrec
  have hpmem : p ∈ forestPids ts := hinv.cover (p, rec) (alookup_mem hrec)
  obtain ⟨s, hoccF, hp⟩ := exists_occursF_of_mem_forestPids hpmem
  obtain ⟨t, ht, hocc⟩ := hoccF
  have hoccR : OccursInF ts.reverse s := ⟨t, List.mem_reverse.mpr ht, hocc⟩
  have hwfs : TreeWF snap.processHarvest snap.processParentMapping s :=
    (hinv.wf t ht).of_occurs hocc
  subst hp
  have hrecs : rec = s.rootRec := by
    have h := hwfs.root_lookup
    rw [hrec] at h
    exact Option.some.inj h
  have hkept : keptOf (keptPids snap.processHarvest q isCmd) s.rootPid
      = matchesQuery q isCmd rec := by
    unfold keptOf
    rw [alookup_keptPids snap.processHarvest q isCmd _ rec hrec]
    rfl
  have hadjval : (alookup s.rootPid snap.processParentMapping).getD []
      = s.children.map RTree.rootPid := by
    cases hwfs with
    | mk r cs _ hadj _ =>
      simp only [RTree.rootPid, RTree.children]
      rcases hadj with hadj | ⟨rfl, hadj⟩
      · rw [hadj]
        rfl
      · rw [hadj]
        rfl
  have hchar := alookup_forestFents_occurs
    (keptOf (keptPids snap.processHarvest q isCmd)) hndR hoccR
  have hchild : ∀ c ∈ s.children,
      ((alookup c.rootPid (forestFentsRev
        (keptOf (keptPids snap.processHarvest q isCmd)) ts.reverse)).isSome)
      = shownTree (keptOf (keptPids snap.processHarvest q isCmd)) c := by
    intro c hc
    rw [alookup_forestFents_occurs (keptOf (keptPids snap.processHarvest q isCmd))
      hndR (occursInF_child hoccR hc)]
    by_cases hs : shownTree (keptOf (keptPids snap.processHarvest q isCmd)) c = true
    · rw [if_pos hs, hs]
      rfl
    · rw [if_neg hs, Bool.eq_false_iff.mpr hs]
      rfl
  rw [hchar, hadjval]
  constructor
  · intro hsome
    by_cases hs : shownTree (keptOf (keptPids snap.processHarvest q isCmd)) s = true
    · rw [shownTree_eq, Bool.or_eq_true] at hs
      rcases hs with hk | hany
      · left
        rw [← hkept]
        exact hk
      · right
        obtain ⟨c, hc, hcs⟩ := (anyShown_iff _ _).mp hany
        refine ⟨c.rootPid, List.mem_map.mpr ⟨c, hc, rfl⟩, ?_⟩
        rw [hchild c hc, hcs]
    · rw [if_neg hs] at hsome
      cases hsome
  · intro h
    have hs : shownTree (keptOf (keptPids snap.processHarvest q isCmd)) s = true := by
      rw [shownTree_eq, Bool.or_eq_true]
      rcases h with hm | ⟨cpid, hcpid, hcsome⟩
      · left
        rw [hkept]
        exact hm
      · right
        obtain ⟨c, hc, rfl⟩ := List.mem_map.mp hcpid
        rw [hchild c hc] at hcsome
        exact (anyShown_iff _ _).mpr ⟨c, hc, hcsome⟩
    rw [if_pos hs]
    rfl

end ProcWidget

namespace ProcWidget

/-- The rose-tree description of `initTreeDC`'s snapshot. -/
def initTree : RTree :=
  .node (sampleRec 1 "initd" 1)
    [.node (sampleRec 2 "sshd" 2) [], .node (sampleRec 3 "bash" 3) []]

theorem initTree_forestInv : ForestInv initTreeDC.processData [initTree] := by
  refine ⟨?_, ?_, ?_, ?_, ?_⟩
  · intro t ht
    rw [List.mem_singleton] at ht
    subst ht
    refine TreeWF.mk _ _ rfl (Or.inl rfl) ?_
    intro c hc
    rcases List.mem_cons.mp hc with rfl | hc
    · exact TreeWF.mk _ _ rfl (Or.inr ⟨rfl, rfl⟩)
        (fun c hc => absurd hc (List.not_mem_nil c))
    · rcases List.mem_singleton.mp hc with rfl
      exact TreeWF.mk _ _ rfl (Or.inr ⟨rfl, rfl⟩)
        (fun c hc => absurd hc (List.not_mem_nil c))
  · decide
  · decide
  · decide
  · rfl

/-- The filtered-forest map phase 1 produces for the scenario. -/
def c1F : List (Pid × List Pid) :=
  (filteredTreeOf 20 initTreeDC.processData (some queryBash) false).getD []

/-- Witness for the hypotheses of the C1 theorem at the spec's scenario:
under the query "bash", pid 1 is included (its child 3 is included), pid 3
is included (it matches), and pid 2 is excluded on both counts. -/
theorem spec_C1_witness :
    filteredTreeOf 20 initTreeDC.processData (some queryBash) false = some c1F ∧
    alookup 1 initTreeDC.processData.processHarvest = some (sampleRec 1 "initd" 1) ∧
    ((alookup 1 c1F).isSome = true ↔
      (matchesQuery (some queryBash) false (sampleRec 1 "initd" 1) = true ∨
        ∃ cpid ∈ (alookup 1 initTreeDC.processData.processParentMapping).getD [],
          (alookup cpid c1F).isSome = true)) ∧
    (alookup 1 c1F).isSome = true ∧
    (alookup 2 c1F).isSome = false ∧
    (alookup 3 c1F).isSome = true := by
  refine ⟨rfl, rfl, spec_C1_tree_inclusion initTreeDC.processData [initTree]
    initTree_forestInv (some queryBash) false 20 c1F rfl 1 (sampleRec 1 "initd" 1) rfl,
    rfl, rfl, rfl⟩

end ProcWidget

/-! ## Collapse aggregation: the specified subtree sum -/

mutual
/-- The aggregate the collapse sum computes over one shown subtree: the
root's metrics plus the sums over its shown child subtrees (the nodes
reachable through the filtered-forest map). -/
def subSumTree (kept : Pid → Bool) : RTree → Metrics
  | .node r cs => r.metrics + subSumForest kept cs
/-- The aggregate over the shown trees of a forest. -/
def subSumForest (kept : Pid → Bool) : List RTree → Metrics
  | [] => 0
  | t :: ts =>
    (if shownTree kept t then subSumTree kept t else 0) + subSumForest kept ts
end

mutual
/-- The number of `sum_queue` iterations the collapse sum spends on one
shown subtree. -/
def sumCostTree (kept : Pid → Bool) : RTree → Nat
  | .node _ cs => 1 + sumCostForest kept cs
/-- The number of iterations spent on the shown trees of a forest. -/
def sumCostForest (kept : Pid → Bool) : List RTree → Nat
  | [] => 0
  | t :: ts =>
    (if shownTree kept t then sumCostTree kept t else 0) + sumCostForest kept ts
end

theorem subSumForest_eq (kept : Pid → Bool) (ts : List RTree) :
    subSumForest kept ts
      = ((ts.filter (fun t => shownTree kept t)).map (subSumTree kept)).sum := by
  induction ts with
  | nil => rfl
  | cons t ts ih =>
    rw [subSumForest, ih, List.filter_cons]
    by_cases h : shownTree kept t = true
    · rw [if_pos h, if_pos h, List.map_cons, List.sum_cons]
    · rw [if_neg h, if_neg h, zero_add]

theorem sumCostForest_eq (kept : Pid → Bool) (ts : List RTree) :
    sumCostForest kept ts
      = ((ts.filter (fun t => shownTree kept t)).map (sumCostTree kept)).sum := by
  induction ts with
  | nil => rfl
  | cons t ts ih =>
    rw [sumCostForest, ih, List.filter_cons]
    by_cases h : shownTree kept t = true
    · rw [if_pos h, if_pos h, List.map_cons, List.sum_cons]
    · rw [if_neg h, if_neg h, Nat.zero_add]

/-- The display row of a subtree's root record. -/
def rowOf (isCmd isMemP : Bool) (s : RTree) : ProcWidgetData :=
  ProcWidgetData.fromData s.rootRec isCmd isMemP

@[simp] theorem rowOf_pid (c m : Bool) (s : RTree) : (rowOf c m s).pid = s.rootPid := by
  rw [rowOf, ProcWidgetData.pid_fromData, RTree.rootRec_pid]

/-- Add a metrics vector into a display row's numeric fields. -/
def ProcWidgetData.bumpMetrics (a : ProcWidgetData) (m : Metrics) : ProcWidgetData :=
  { a with metrics := a.metrics + m }

@[simp] theorem ProcWidgetData.bumpMetrics_zero (a : ProcWidgetData) :
    a.bumpMetrics 0 = a := by
  cases a
  rw [bumpMetrics, add_zero]

theorem ProcWidgetData.bumpMetrics_bumpMetrics (a : ProcWidgetData) (m n : Metrics) :
    (a.bumpMetrics m).bumpMetrics n = a.bumpMetrics (m + n) := by
  cases a
  rw [bumpMetrics, bumpMetrics, bumpMetrics]
  simp only [add_assoc]

theorem ProcWidgetData.add_eq_bumpMetrics (a b : ProcWidgetData) :
    a.add b = a.bumpMetrics b.metrics := rfl

@[simp] theorem ProcWidgetData.bumpMetrics_pid (a : ProcWidgetData) (m : Metrics) :
    (a.bumpMetrics m).pid = a.pid := rfl

@[simp] theorem ProcWidgetData.bumpMetrics_metrics (a : ProcWidgetData) (m : Metrics) :
    (a.bumpMetrics m).metrics = a.metrics + m := rfl

/-- Resolving the shown child pids through the record map yields the shown
children's display rows, in order. -/
theorem resolve_shownRootPids (harvest : List (Pid × ProcessHarvest)) (c m : Bool)
    (kept : Pid → Bool) (cs : List RTree)
    (hres : ∀ t ∈ cs, alookup t.rootPid harvest = some t.rootRec) :
    (shownRootPids kept cs).filterMap (fun child =>
        (alookup child harvest).map (fun p => ProcWidgetData.fromData p c m))
      = (cs.filter (fun t => shownTree kept t)).map (rowOf c m) := by
  rw [shownRootPids, List.filterMap_map]
  apply filterMap_eq_map_of_forall
  intro t ht
  have hmem : t ∈ cs := List.mem_of_mem_filter ht
  show (alookup t.rootPid harvest).map (fun p => ProcWidgetData.fromData p c m)
    = some (rowOf c m t)
  rw [hres t hmem]
  rfl

namespace ProcWidget

/-- Unconditional one-step unfolding of the collapse-sum loop. -/
theorem sumLoop_eq (harvest : List (Pid × ProcessHarvest))
    (filteredTree : List (Pid × List Pid)) (c m : Bool) (fuel : Nat)
    (acc : ProcWidgetData) (queue : List ProcWidgetData) :
    sumLoop harvest filteredTree c m fuel acc queue =
      match fuel, queue with
      | _, [] => some acc
      | 0, _ :: _ => none
      | fuel + 1, process :: queueRest =>
        sumLoop harvest filteredTree c m fuel (acc.add process)
          (match alookup process.pid filteredTree with
           | some pids =>
             ((pids.filterMap (fun child =>
               (alookup child harvest).map
                 (fun p => ProcWidgetData.fromData p c m))).reverse) ++ queueRest
           | none => queueRest) := by
  cases fuel <;> cases queue <;> rfl

/-- Adding fuel preserves a successful collapse-sum run. -/
theorem sumLoop_mono (harvest : List (Pid × ProcessHarvest))
    (filteredTree : List (Pid × List Pid)) (c m : Bool) :
    ∀ (fuel : Nat) (acc : ProcWidgetData) (queue : List ProcWidgetData)
      (res : ProcWidgetData),
      sumLoop harvest filteredTree c m fuel acc queue = some res →
      sumLoop harvest filteredTree c m (fuel + 1) acc queue = some res := by
  intro fuel
  induction fuel with
  | zero =>
    intro acc queue res h
    cases queue with
    | nil => exact h
    | cons p q => cases h
  | succ fuel ih =>
    intro acc queue res h
    cases queue with
    | nil => exact h
    | cons p q =>
      rw [sumLoop_eq] at h ⊢
      exact ih _ _ res h

theorem sumLoop_mono_le (harvest : List (Pid × ProcessHarvest))
    (filteredTree : List (Pid × List Pid)) (c m : Bool)
    {fuel fuel' : Nat} (hle : fuel ≤ fuel') (acc : ProcWidgetData)
    (queue : List ProcWidgetData) (res : ProcWidgetData)
    (h : sumLoop harvest filteredTree c m fuel acc queue = some res) :
    sumLoop harvest filteredTree c m fuel' acc queue = some res := by
  induction hle with
  | refl => exact h
  | step _ ih => exact sumLoop_mono harvest filteredTree c m _ _ _ _ ih

/-- Adding fuel preserves a successful collapse sum. -/
theorem sumCollapsed_mono_le (harvest : List (Pid × ProcessHarvest))
    (filteredTree : List (Pid × List Pid)) (c m : Bool)
    {fuel fuel' : Nat} (hle : fuel ≤ fuel') (process res : ProcWidgetData)
    (h : sumCollapsed harvest filteredTree c m fuel process = some res) :
    sumCollapsed harvest filteredTree c m fuel' process = some res := by
  unfold sumCollapsed at h ⊢
  cases hl : alookup process.pid filteredTree with
  | some pids =>
    rw [hl] at h
    simp only at h ⊢
    exact sumLoop_mono_le harvest filteredTree c m hle _ _ _ h
  | none =>
    rw [hl] at h
    simp only at h ⊢
    exact h

end ProcWidget

namespace ProcWidget

/-- Processing one shown subtree's row advances the collapse-sum loop by
exactly its sum cost, adding the subtree sum into the accumulator. `G`
abstracts "occurs in the snapshot forest": all the run needs is that `G`
nodes carry the filtered-forest characterisation, resolve in the record
map, and are closed under children. Strong induction on the tree size (the
loop recurses into the *filtered, reversed* child list, which is not a
structural subterm). -/
theorem sumLoop_run_tree (harvest : List (Pid × ProcessHarvest))
    (F : List (Pid × List Pid)) (c m : Bool) (kept : Pid → Bool)
    (G : RTree → Prop)
    (hchar : ∀ s, G s → shownTree kept s = true →
      alookup s.rootPid F = some (shownRootPids kept s.children))
    (hres : ∀ s, G s → alookup s.rootPid harvest = some s.rootRec)
    (hchild : ∀ s t, G s → t ∈ s.children → G t) :
    ∀ (n : Nat) (s : RTree), sizeOf s ≤ n → G s → shownTree kept s = true →
    ∀ (fuel : Nat) (acc : ProcWidgetData) (queue : List ProcWidgetData),
      sumLoop harvest F c m (sumCostTree kept s + fuel) acc (rowOf c m s :: queue)
        = sumLoop harvest F c m fuel (acc.bumpMetrics (subSumTree kept s)) queue := by
  intro n
  induction n with
  | zero =>
    intro s hsz
    exfalso
    cases s with
    | node r cs =>
      rw [RTree.node.sizeOf_spec] at hsz
      omega
  | succ n ih =>
    intro s hsz hG hshown fuel acc queue
    cases s with
    | node r cs =>
      rw [RTree.node.sizeOf_spec] at hsz
      -- the forest step, for any sublist of the children
      have hforest : ∀ (l : List RTree), (∀ t ∈ l, t ∈ cs) →
          (∀ t ∈ l, shownTree kept t = true) → (∀ t ∈ l, G t) →
          ∀ (fuel : Nat) (acc : ProcWidgetData) (queue : List ProcWidgetData),
            sumLoop harvest F c m ((l.map (sumCostTree kept)).sum + fuel) acc
                (l.map (rowOf c m) ++ queue)
              = sumLoop harvest F c m fuel
                  (acc.bumpMetrics ((l.map (subSumTree kept)).sum)) queue := by
        intro l
        induction l with
        | nil =>
          intro _ _ _ fuel acc queue
          simp only [List.map_nil, List.sum_nil, Nat.zero_add, List.nil_append,
            ProcWidgetData.bumpMetrics_zero]
        | cons t l ihl =>
          intro hmem hshownl hGl fuel acc queue
          simp only [List.map_cons, List.sum_cons, List.cons_append]
          rw [show sumCostTree kept t + (l.map (sumCostTree kept)).sum + fuel
              = sumCostTree kept t + ((l.map (sumCostTree kept)).sum + fuel) from by omega]
          have hszt : sizeOf t ≤ n := by
            have := List.sizeOf_lt_of_mem (hmem t (List.mem_cons_self _ _))
            omega
          rw [ih t hszt (hGl t (List.mem_cons_self _ _))
            (hshownl t (List.mem_cons_self _ _))]
          rw [ihl (fun t' h => hmem t' (List.mem_cons_of_mem _ h))
            (fun t' h => hshownl t' (List.mem_cons_of_mem _ h))
            (fun t' h => hGl t' (List.mem_cons_of_mem _ h))]
          rw [ProcWidgetData.bumpMetrics_bumpMetrics]
      -- the node step
      rw [sumCostTree, show 1 + sumCostForest kept cs + fuel
          = (sumCostForest kept cs + fuel) + 1 from by omega]
      rw [sumLoop]
      have hpid : (rowOf c m (RTree.node r cs)).pid = (RTree.node r cs).rootPid :=
        rowOf_pid c m _
      rw [hpid, hchar _ hG hshown]
      simp only
      have hresc : ∀ t ∈ cs, alookup t.rootPid harvest = some t.rootRec :=
        fun t ht => hres t (hchild (RTree.node r cs) t hG ht)
      rw [show (RTree.node r cs).children = cs from rfl,
        resolve_shownRootPids harvest c m kept cs hresc, ← List.map_reverse]
      have hms : ∀ t ∈ (cs.filter (fun t => shownTree kept t)).reverse, t ∈ cs :=
        fun t ht => List.mem_of_mem_filter (List.mem_reverse.mp ht)
      have hss : ∀ t ∈ (cs.filter (fun t => shownTree kept t)).reverse,
          shownTree kept t = true :=
        fun t ht => List.of_mem_filter (List.mem_reverse.mp ht)
      have hGs : ∀ t ∈ (cs.filter (fun t => shownTree kept t)).reverse, G t :=
        fun t ht => hchild (RTree.node r cs) t hG (hms t ht)
      have hcosteq : sumCostForest kept cs
          = (((cs.filter (fun t => shownTree kept t)).reverse).map
              (sumCostTree kept)).sum := by
        rw [sumCostForest_eq, List.map_reverse, List.sum_reverse]
      rw [hcosteq, hforest _ hms hss hGs fuel _ queue]
      have hacc : (acc.add (rowOf c m (RTree.node r cs))).bumpMetrics
          ((((cs.filter (fun t => shownTree kept t)).reverse).map
            (subSumTree kept)).sum)
          = acc.bumpMetrics (subSumTree kept (RTree.node r cs)) := by
        rw [ProcWidgetData.add_eq_bumpMetrics, ProcWidgetData.bumpMetrics_bumpMetrics,
          List.map_reverse, List.sum_reverse, ← subSumForest_eq, subSumTree]
        rfl
      rw [hacc]

end ProcWidget

namespace ProcWidget

/-- The forest version of the collapse-sum run lemma, for any list of
shown `G`-trees laid out on the queue. -/
theorem sumLoop_run_forest (harvest : List (Pid × ProcessHarvest))
    (F : List (Pid × List Pid)) (c m : Bool) (kept : Pid → Bool)
    (G : RTree → Prop)
    (hchar : ∀ s, G s → shownTree kept s = true →
      alookup s.rootPid F = some (shownRootPids kept s.children))
    (hres : ∀ s, G s → alookup s.rootPid harvest = some s.rootRec)
    (hchild : ∀ s t, G s → t ∈ s.children → G t) :
    ∀ (l : List RTree), (∀ t ∈ l, shownTree kept t = true) → (∀ t ∈ l, G t) →
    ∀ (fuel : Nat) (acc : ProcWidgetData) (queue : List ProcWidgetData),
      sumLoop harvest F c m ((l.map (sumCostTree kept)).sum + fuel) acc
          (l.map (rowOf c m) ++ queue)
        = sumLoop harvest F c m fuel
            (acc.bumpMetrics ((l.map (subSumTree kept)).sum)) queue := by
  intro l
  induction l with
  | nil =>
    intro _ _ fuel acc queue
    simp only [List.map_nil, List.sum_nil, Nat.zero_add, List.nil_append,
      ProcWidgetData.bumpMetrics_zero]
  | cons t l ihl =>
    intro hshownl hGl fuel acc queue
    simp only [List.map_cons, List.sum_cons, List.cons_append]
    rw [show sumCostTree kept t + (l.map (sumCostTree kept)).sum + fuel
        = sumCostTree kept t + ((l.map (sumCostTree kept)).sum + fuel) from by omega]
    rw [sumLoop_run_tree harvest F c m kept G hchar hres hchild (sizeOf t) t
      (Nat.le_refl _) (hGl t (List.mem_cons_self _ _)) (hshownl t (List.mem_cons_self _ _))]
    rw [ihl (fun t' h => hshownl t' (List.mem_cons_of_mem _ h))
      (fun t' h => hGl t' (List.mem_cons_of_mem _ h))]
    rw [ProcWidgetData.bumpMetrics_bumpMetrics]

/-- The canonical collapse sum of a shown subtree: starting from the
root's row, exactly `sumCostForest` of its children's worth of iterations
folds the whole shown subtree in, yielding the subtree sum. -/
theorem sumCollapsed_run (harvest : List (Pid × ProcessHarvest))
    (F : List (Pid × List Pid)) (c m : Bool) (kept : Pid → Bool)
    (G : RTree → Prop)
    (hchar : ∀ s, G s → shownTree kept s = true →
      alookup s.rootPid F = some (shownRootPids kept s.children))
    (hres : ∀ s, G s → alookup s.rootPid harvest = some s.rootRec)
    (hchild : ∀ s t, G s → t ∈ s.children → G t)
    (s : RTree) (hG : G s) (hshown : shownTree kept s = true) :
    sumCollapsed harvest F c m (sumCostForest kept s.children) (rowOf c m s)
      = some ((rowOf c m s).bumpMetrics (subSumForest kept s.children)) := by
  unfold sumCollapsed
  rw [rowOf_pid, hchar s hG hshown]
  simp only
  cases s with
  | node r cs =>
    have hresc : ∀ t ∈ cs, alookup t.rootPid harvest = some t.rootRec :=
      fun t ht => hres t (hchild (RTree.node r cs) t hG ht)
    rw [show (RTree.node r cs).children = cs from rfl,
      resolve_shownRootPids harvest c m kept cs hresc, ← List.map_reverse]
    have hss : ∀ t ∈ (cs.filter (fun t => shownTree kept t)).reverse,
        shownTree kept t = true :=
      fun t ht => List.of_mem_filter (List.mem_reverse.mp ht)
    have hGs : ∀ t ∈ (cs.filter (fun t => shownTree kept t)).reverse, G t :=
      fun t ht => hchild (RTree.node r cs) t hG
        (List.mem_of_mem_filter (List.mem_reverse.mp ht))
    have hcosteq : sumCostForest kept cs
        = (((cs.filter (fun t => shownTree kept t)).reverse).map
            (sumCostTree kept)).sum + 0 := by
      rw [sumCostForest_eq, List.map_reverse, List.sum_reverse, Nat.add_zero]
    rw [show List.map (rowOf c m) (cs.filter (fun t => shownTree kept t)).reverse
        = List.map (rowOf c m) (cs.filter (fun t => shownTree kept t)).reverse ++ []
      from (List.append_nil _).symm]
    rw [hcosteq, sumLoop_run_forest harvest F c m kept G hchar hres hchild _
      hss hGs 0 _ []]
    rw [sumLoop_eq]
    simp only
    rw [List.map_reverse, List.sum_reverse, ← subSumForest_eq]
  
end ProcWidget

@[simp] theorem ProcWidgetData.metrics_withPrefix (a : ProcWidgetData) (p : Option String) :
    (a.withPrefix p).metrics = a.metrics := rfl

@[simp] theorem ProcWidgetData.metrics_withDisabled (a : ProcWidgetData) (d : Bool) :
    (a.withDisabled d).metrics = a.metrics := rfl

@[simp] theorem ProcWidgetData.pfx_withPrefix (a : ProcWidgetData) (p : Option String) :
    (a.withPrefix p).pfx = p := rfl

@[simp] theorem ProcWidgetData.pfx_withDisabled (a : ProcWidgetData) (d : Bool) :
    (a.withDisabled d).pfx = a.pfx := rfl

/-- `subSumTree` unfolded through the root projections. -/
theorem subSumTree_eq (kept : Pid → Bool) (s : RTree) :
    subSumTree kept s = s.rootRec.metrics + subSumForest kept s.children := by
  cases s with
  | node r cs => rw [subSumTree]; rfl

namespace ProcWidget

/-- The shape of a row the emission loop emits for a collapsed pid: the
collapse sum of its pid's stored record's fresh row, wearing some prefix
that ends in the collapse marker. -/
def CollapsedRowP (harvest : List (Pid × ProcessHarvest))
    (filteredTree : List (Pid × List Pid)) (collapsedPids : List Pid)
    (c m : Bool) (sumFuel : Nat) (r : ProcWidgetData) : Prop :=
  collapsedPids.contains r.pid = true →
    ∃ rec summed str d, alookup r.pid harvest = some rec ∧
      sumCollapsed harvest filteredTree c m sumFuel
          (ProcWidgetData.fromData rec c m) = some summed ∧
      r = (summed.withPrefix (some (str ++ "+ "))).withDisabled d

/-- The emission loop maintains `CollapsedRowP` for every emitted row, as
long as every stack element is some stored record's fresh display row. -/
theorem emitLoop_collapsed_inv (w : ProcWidget) (harvest : List (Pid × ProcessHarvest))
    (filteredTree : List (Pid × List Pid)) (kept : List (Pid × Bool))
    (collapsedPids : List Pid) (c m : Bool) (sumFuel : Nat)
    (hkm : ∀ kv ∈ harvest, kv.2.pid = kv.1) :
    ∀ (fuel : Nat) (stack : List ProcWidgetData) (lengthStack : List Nat)
      (pfxs : List String) (data rows : List ProcWidgetData),
      emitLoop w harvest filteredTree kept collapsedPids c m sumFuel fuel stack
        lengthStack pfxs data = some rows →
      (∀ e ∈ stack, ∃ k rec, alookup k harvest = some rec ∧
        e = ProcWidgetData.fromData rec c m) →
      (∀ r ∈ data, CollapsedRowP harvest filteredTree collapsedPids c m sumFuel r) →
      ∀ r ∈ rows, CollapsedRowP harvest filteredTree collapsedPids c m sumFuel r := by
  intro fuel
  induction fuel with
  | zero =>
    intro stack lengthStack pfxs data rows h hstack hdata
    cases stack with
    | nil =>
      rw [emitLoop_eq] at h
      injection h with h
      rw [← h]
      exact hdata
    | cons p s =>
      cases lengthStack with
      | nil =>
        rw [emitLoop_eq] at h
        injection h with h
        rw [← h]
        exact hdata
      | cons n L =>
        rw [emitLoop_eq] at h
        simp at h
  | succ fuel ih =>
    intro stack lengthStack pfxs data rows h hstack hdata
    cases stack with
    | nil =>
      rw [emitLoop_eq] at h
      injection h with h
      rw [← h]
      exact hdata
    | cons p s =>
      cases lengthStack with
      | nil =>
        rw [emitLoop_eq] at h
        injection h with h
        rw [← h]
        exact hdata
      | cons n L =>
        rw [emitLoop_eq] at h
        simp only at h
        obtain ⟨k, rec, hk, hpe⟩ := hstack p (List.mem_cons_self _ _)
        have hstackRest : ∀ e ∈ s, ∃ k rec, alookup k harvest = some rec ∧
            e = ProcWidgetData.fromData rec c m :=
          fun e he => hstack e (List.mem_cons_of_mem _ he)
        by_cases hcol : collapsedPids.contains p.pid = true
        · rw [if_pos hcol] at h
          cases hsum : sumCollapsed harvest filteredTree c m sumFuel p with
          | none =>
            rw [hsum] at h
            cases h
          | some summed =>
            rw [hsum] at h
            refine ih _ _ _ _ rows h hstackRest ?_
            intro r hr
            rcases List.mem_append.mp hr with hold | hnew
            · exact hdata r hold
            · rcases List.mem_singleton.mp hnew with rfl
              intro _
              have hpid : rec.pid = k := hkm (k, rec) (alookup_mem hk)
              have hrpid : ((summed.withPrefix (some (if pfxs.isEmpty then "" ++ "+ "
                  else rowPrefix pfxs (n - 1 = 0) ++ "+ "))).withDisabled
                    (!(alookup p.pid kept).getD false)).pid = p.pid := by
                simp only [ProcWidgetData.pid_withDisabled, ProcWidgetData.pid_withPrefix]
                exact sumCollapsed_pid harvest filteredTree c m sumFuel p summed hsum
              refine ⟨rec, summed, if pfxs.isEmpty then "" else rowPrefix pfxs (n - 1 = 0),
                !(alookup p.pid kept).getD false, ?_, ?_, ?_⟩
              · rw [hrpid, hpe]
                show alookup (ProcWidgetData.fromData rec c m).pid harvest = some rec
                rw [ProcWidgetData.pid_fromData, hpid]
                exact hk
              · rw [← hpe]
                exact hsum
              · by_cases hemp : pfxs.isEmpty = true
                · rw [if_pos hemp, if_pos hemp]
                · rw [if_neg hemp, if_neg hemp]
        · rw [if_neg hcol] at h
          have hnewrow : ∀ d' pfx',
              CollapsedRowP harvest filteredTree collapsedPids c m sumFuel
                ((p.withPrefix pfx').withDisabled d') := by
            intro d' pfx' hmem
            exfalso
            apply hcol
            simpa using hmem
          cases hft : alookup p.pid filteredTree with
          | some childrenPids =>
            rw [hft] at h
            refine ih _ _ _ _ rows h ?_ ?_
            · intro e he
              rcases List.mem_append.mp he with hrev | hrest
              · have hsorted := List.mem_reverse.mp hrev
                have hchildren := (tryRevSort_perm w _).mem_iff.mp hsorted
                obtain ⟨cp, _, hcp⟩ := List.mem_filterMap.mp hchildren
                cases hlc : alookup cp harvest with
                | none => rw [hlc] at hcp; cases hcp
                | some rec' =>
                  rw [hlc] at hcp
                  exact ⟨cp, rec', hlc, (Option.some.inj hcp).symm⟩
              · exact hstackRest e hrest
            · intro r hr
              rcases List.mem_append.mp hr with hold | hnew
              · exact hdata r hold
              · rcases List.mem_singleton.mp hnew with rfl
                exact hnewrow _ _
          | none =>
            rw [hft] at h
            refine ih _ _ _ _ rows h hstackRest ?_
            intro r hr
            rcases List.mem_append.mp hr with hold | hnew
            · exact hdata r hold
            · rcases List.mem_singleton.mp hnew with rfl
              exact hnewrow _ _

end ProcWidget

namespace ProcWidget

/-- C3: in Tree mode, under the acyclic-forest precondition, the emitted
row of a collapsed root pid whose subtree is shown carries exactly the
subtree sum — the root's own metrics plus those of every descendant
reachable through the filtered-forest map (the shown descendants) — and a
prefix ending in the collapse marker `"+ "`. -/
theorem spec_C3_collapse_aggregation (dc : DataCollection) (ts : List RTree)
    (hinv : ForestInv dc.processData ts) (w : ProcWidget) (collapsedPids : List Pid)
    (fuel : Nat) (rows : List ProcWidgetData)
    (hrun : getTreeData fuel w collapsedPids dc = some rows) :
    ∀ r ∈ rows, collapsedPids.contains r.pid = true →
      ∀ s, OccursInF ts s → s.rootPid = r.pid →
        shownTree (keptOf (keptPids dc.processData.processHarvest (getQuery w)
          (isUsingCommand w))) s = true →
        r.metrics = subSumTree (keptOf (keptPids dc.processData.processHarvest
            (getQuery w) (isUsingCommand w))) s ∧
          ∃ str, r.pfx = some (str ++ "+ ") := by
  unfold getTreeData at hrun
  simp only at hrun
  cases hft : filteredTreeOf fuel dc.processData (getQuery w) (isUsingCommand w) with
  | none => rw [hft] at hrun; cases hrun
  | some F =>
    rw [hft] at hrun
    simp only at hrun
    have hcanon := filteredTreeOf_run dc.processData ts hinv (getQuery w)
      (isUsingCommand w)
    have hFeq : F = forestFentsRev (keptOf (keptPids dc.processData.processHarvest
        (getQuery w) (isUsingCommand w))) ts.reverse := by
      unfold filteredTreeOf at hft hcanon
      have h1 := phase1Loop_mono_le dc.processData.processHarvest
        dc.processData.processParentMapping
        (keptPids dc.processData.processHarvest (getQuery w) (isUsingCommand w))
        (Nat.le_max_left fuel (forestCost ts.reverse)) _ _ _ _ hft
      have h2 := phase1Loop_mono_le dc.processData.processHarvest
        dc.processData.processParentMapping
        (keptPids dc.processData.processHarvest (getQuery w) (isUsingCommand w))
        (Nat.le_max_right fuel (forestCost ts.reverse)) _ _ _ _ hcanon
      rw [h1] at h2
      exact Option.some.inj h2
    -- every emitted row has the collapsed-row shape
    have hstack0 : ∀ e ∈ (trySort w (dc.processData.orphanPids.filterMap (fun pid =>
        if (alookup pid F).isSome = true then
          (alookup pid dc.processData.processHarvest).map
            (fun process => ProcWidgetData.fromData process (isUsingCommand w)
              (isMemPercent w))
        else none))).reverse,
        ∃ k rec, alookup k dc.processData.processHarvest = some rec ∧
          e = ProcWidgetData.fromData rec (isUsingCommand w) (isMemPercent w) := by
      intro e he
      have hsorted := List.mem_reverse.mp he
      have hroot := (trySort_perm w _).mem_iff.mp hsorted
      obtain ⟨pid, _, heq⟩ := List.mem_filterMap.mp hroot
      by_cases hif : (alookup pid F).isSome = true
      · rw [if_pos hif] at heq
        cases hlp : alookup pid dc.processData.processHarvest with
        | none => rw [hlp] at heq; cases heq
        | some rec =>
          rw [hlp] at heq
          exact ⟨pid, rec, hlp, (Option.some.inj heq).symm⟩
      · rw [if_neg hif] at heq
        cases heq
    have hrowsP := emitLoop_collapsed_inv w dc.processData.processHarvest F
      (keptPids dc.processData.processHarvest (getQuery w) (isUsingCommand w))
      collapsedPids (isUsingCommand w) (isMemPercent w) fuel hinv.keysMatch
      fuel _ _ _ _ rows hrun hstack0 (fun r hr => absurd hr (List.not_mem_nil r))
    intro r hr hcol s hocc hpid hshown
    obtain ⟨rec, summed, str, d, hrec, hsum, heq⟩ := hrowsP r hr hcol
    -- the abstract-occurrence hypotheses of the sum run, over the reversed forest
    have hnd : (forestPids ts.reverse).Nodup :=
      ((forestPids_perm (List.reverse_perm ts)).nodup_iff).mpr hinv.nodup
    have hGs : OccursInF ts.reverse s := by
      obtain ⟨t, ht, hocc'⟩ := hocc
      exact ⟨t, List.mem_reverse.mpr ht, hocc'⟩
    have hchar : ∀ s', OccursInF ts.reverse s' →
        shownTree (keptOf (keptPids dc.processData.processHarvest (getQuery w)
          (isUsingCommand w))) s' = true →
        alookup s'.rootPid F = some (shownRootPids (keptOf (keptPids
          dc.processData.processHarvest (getQuery w) (isUsingCommand w)))
          s'.children) := by
      intro s' hG' hs'
      rw [hFeq]
      have hco := alookup_forestFents_occurs (keptOf (keptPids
        dc.processData.processHarvest (getQuery w) (isUsingCommand w))) hnd hG'
      rw [if_pos hs'] at hco
      exact hco
    have hres : ∀ s', OccursInF ts.reverse s' →
        alookup s'.rootPid dc.processData.processHarvest = some s'.rootRec := by
      intro s' hG'
      obtain ⟨t', ht', hocc'⟩ := hG'
      exact (TreeWF.of_occurs (hinv.wf t' (List.mem_reverse.mp ht')) hocc').root_lookup
    have hchild : ∀ s' t', OccursInF ts.reverse s' → t' ∈ s'.children →
        OccursInF ts.reverse t' :=
      fun s' t' hG' ht' => occursInF_child hG' ht'
    -- the record the invariant found at the row's pid is the subtree's root
    have hreceq : rec = s.rootRec := by
      have hr2 := hres s hGs
      rw [hpid, hrec] at hr2
      exact Option.some.inj hr2
    -- the canonical collapse sum, and determinism over the stored one
    have hcanonSum := sumCollapsed_run dc.processData.processHarvest F
      (isUsingCommand w) (isMemPercent w)
      (keptOf (keptPids dc.processData.processHarvest (getQuery w) (isUsingCommand w)))
      (OccursInF ts.reverse) hchar hres hchild s hGs hshown
    have hsum' : sumCollapsed dc.processData.processHarvest F (isUsingCommand w)
        (isMemPercent w) fuel (rowOf (isUsingCommand w) (isMemPercent w) s)
        = some summed := by
      rw [rowOf, ← hreceq]
      exact hsum
    have h1 := sumCollapsed_mono_le dc.processData.processHarvest F (isUsingCommand w)
      (isMemPercent w) (Nat.le_max_left fuel (sumCostForest (keptOf (keptPids
        dc.processData.processHarvest (getQuery w) (isUsingCommand w))) s.children))
      _ _ hsum'
    have h2 := sumCollapsed_mono_le dc.processData.processHarvest F (isUsingCommand w)
      (isMemPercent w) (Nat.le_max_right fuel (sumCostForest (keptOf (keptPids
        dc.processData.processHarvest (getQuery w) (isUsingCommand w))) s.children))
      _ _ hcanonSum
    rw [h1] at h2
    have hsummed := Option.some.inj h2
    constructor
    · rw [heq, ProcWidgetData.metrics_withDisabled, ProcWidgetData.metrics_withPrefix,
        hsummed, ProcWidgetData.bumpMetrics_metrics, rowOf,
        ProcWidgetData.metrics_fromData, subSumTree_eq]
    · exact ⟨str, by rw [heq, ProcWidgetData.pfx_withDisabled,
        ProcWidgetData.pfx_withPrefix]⟩

end ProcWidget

namespace ProcWidget

/-- The one row the collapse scenario emits (pid 1 collapsed, query
"bash"): the head of `c9rows`. -/
def c3row : ProcWidgetData :=
  (c9rows.head?).getD (ProcWidgetData.fromData (sampleRec 0 "none" 0) false false)

/-- Witness for the hypotheses of the C3 theorem: in the scenario snapshot
(root "initd" cpu 1 with children "sshd" cpu 2 and "bash" cpu 3), with pid
1 collapsed under the query "bash", the emitted aggregate row carries
cpu 1 + 3 = 4 — the root plus its one shown descendant, the hidden "sshd"
excluded — and the collapse-marker prefix. -/
theorem spec_C3_witness :
    getTreeData 100 widgetBashTree [1] initTreeDC = some c9rows ∧
    c9rows.head? = some c3row ∧
    ([1] : List Pid).contains c3row.pid = true ∧
    initTree.rootPid = c3row.pid ∧
    shownTree (keptOf (keptPids initTreeDC.processData.processHarvest
      (getQuery widgetBashTree) (isUsingCommand widgetBashTree))) initTree = true ∧
    (c3row.metrics = subSumTree (keptOf (keptPids initTreeDC.processData.processHarvest
        (getQuery widgetBashTree) (isUsingCommand widgetBashTree))) initTree ∧
      ∃ str, c3row.pfx = some (str ++ "+ ")) ∧
    c3row.metrics.cpu = 4 ∧ c3row.pfx = some ("+ ") := by
  have hhead : c9rows.head? = some c3row := rfl
  have hmem : c3row ∈ c9rows := List.mem_of_mem_head? (Option.mem_def.mpr hhead)
  have hocc : OccursInF [initTree] initTree :=
    ⟨initTree, List.mem_cons_self _ _, OccursInT.refl _⟩
  have hcpu : c3row.metrics.cpu = 4 := by
    show (1 : ℚ) + 3 = 4
    norm_num
  exact ⟨rfl, hhead, rfl, rfl, rfl,
    spec_C3_collapse_aggregation initTreeDC [initTree] initTree_forestInv widgetBashTree
      [1] 100 c9rows rfl c3row hmem rfl initTree hocc rfl rfl,
    hcpu, rfl⟩

end ProcWidget

/-! ## Phase-2 emission: exact costs and the totality run -/

mutual
/-- The number of phase-2 emission iterations one shown subtree takes: a
collapsed root is one iteration; otherwise one iteration plus its shown
children. -/
def emitCostTree (kept : Pid → Bool) (collapsedPids : List Pid) : RTree → Nat
  | .node r cs =>
    if collapsedPids.contains r.pid then 1
    else 1 + emitCostForest kept collapsedPids cs
/-- The iterations spent on the shown trees of a forest. -/
def emitCostForest (kept : Pid → Bool) (collapsedPids : List Pid) : List RTree → Nat
  | [] => 0
  | t :: ts =>
    (if shownTree kept t then emitCostTree kept collapsedPids t else 0)
      + emitCostForest kept collapsedPids ts
end

theorem emitCostForest_eq (kept : Pid → Bool) (collapsedPids : List Pid)
    (ts : List RTree) :
    emitCostForest kept collapsedPids ts
      = ((ts.filter (fun t => shownTree kept t)).map
          (emitCostTree kept collapsedPids)).sum := by
  induction ts with
  | nil => rfl
  | cons t ts ih =>
    rw [emitCostForest, ih, List.filter_cons]
    by_cases h : shownTree kept t = true
    · rw [if_pos h, if_pos h, List.map_cons, List.sum_cons]
    · rw [if_neg h, if_neg h, Nat.zero_add]

namespace ProcWidget

/-- Popping with a non-exhausted top counter is a no-op. -/
theorem popZeros_cons_pos (n : Nat) (hn : n ≠ 0) (L : List Nat) (P : List String) :
    popZeros (n :: L) P = (n :: L, P) := by
  cases n with
  | zero => exact absurd rfl hn
  | succ k => rfl

/-- Popping an exhausted top counter drops it and its prefix fragment. -/
theorem popZeros_zero_cons (L : List Nat) (c : String) (P : List String) :
    popZeros (0 :: L) (c :: P) = popZeros L P := rfl

/-- `try_rev_sort` of a mapped row list is the map of a permutation of the
underlying list (the comparator pulls back along the map). -/
theorem tryRevSort_map (w : ProcWidget) (f : RTree → ProcWidgetData) (l : List RTree) :
    ∃ l', tryRevSort w (l.map f) = l'.map f ∧ List.Perm l' l := by
  unfold tryRevSort
  cases hcol : w.table.columns.get? w.table.sortIndex with
  | none => exact ⟨l, rfl, List.Perm.refl l⟩
  | some col =>
    simp only
    unfold SortColumnState.sortBy
    cases w.table.order with
    | Ascending =>
      simp only
      exact ⟨insertionSortB (fun x y => col.inner.leRow (f y) (f x)) l,
        insertionSortB_map _ f l, insertionSortB_perm _ l⟩
    | Descending =>
      simp only
      exact ⟨insertionSortB (fun x y => col.inner.leRow (f x) (f y)) l,
        insertionSortB_map _ f l, insertionSortB_perm _ l⟩

/-- `try_sort` of a mapped row list is the map of a permutation of the
underlying list. -/
theorem trySort_map (w : ProcWidget) (f : RTree → ProcWidgetData) (l : List RTree) :
    ∃ l', trySort w (l.map f) = l'.map f ∧ List.Perm l' l := by
  unfold trySort
  cases hcol : w.table.columns.get? w.table.sortIndex with
  | none => exact ⟨l, rfl, List.Perm.refl l⟩
  | some col =>
    simp only
    unfold SortColumnState.sortBy
    cases w.table.order with
    | Ascending =>
      simp only
      exact ⟨insertionSortB (fun x y => col.inner.leRow (f x) (f y)) l,
        insertionSortB_map _ f l, insertionSortB_perm _ l⟩
    | Descending =>
      simp only
      exact ⟨insertionSortB (fun x y => col.inner.leRow (f y) (f x)) l,
        insertionSortB_map _ f l, insertionSortB_perm _ l⟩

end ProcWidget

namespace ProcWidget

section EmitRun

variable (w : ProcWidget) (harvest : List (Pid × ProcessHarvest))
  (F : List (Pid × List Pid)) (keptA : List (Pid × Bool))
  (collapsedPids : List Pid) (cB mB : Bool) (sumFuel : Nat) (kept : Pid → Bool)

/-- The exact-cost emission step for one shown subtree: from its row on
top of the stack with a live sibling counter, `emitCostTree` iterations
pop the whole subtree, append a fixed block of rows, decrement the
counter and clean exhausted frames. -/
def TreeEmitRun (s : RTree) : Prop :=
  ∀ (pfxs : List String) (c₀ : Nat), 1 ≤ c₀ →
  ∃ out : List ProcWidgetData, ∀ (fuel : Nat) (S : List ProcWidgetData)
      (L : List Nat) (D : List ProcWidgetData),
    emitLoop w harvest F keptA collapsedPids cB mB sumFuel
        (emitCostTree kept collapsedPids s + fuel) (rowOf cB mB s :: S) (c₀ :: L) pfxs D
      = emitLoop w harvest F keptA collapsedPids cB mB sumFuel fuel S
          (popZeros ((c₀ - 1) :: L) pfxs).1 (popZeros ((c₀ - 1) :: L) pfxs).2 (D ++ out)

/-- The forest version: a nonempty block of shown trees laid out on the
stack under a fresh counter frame is consumed entirely, exhausting and
popping the frame. -/
def ForestEmitRun (l : List RTree) : Prop :=
  l ≠ [] → ∀ (pfxs : List String),
  ∃ out : List ProcWidgetData, ∀ (fuel : Nat) (S : List ProcWidgetData)
      (L : List Nat) (D : List ProcWidgetData),
    emitLoop w harvest F keptA collapsedPids cB mB sumFuel
        ((l.map (emitCostTree kept collapsedPids)).sum + fuel)
        (l.map (rowOf cB mB) ++ S) (l.length :: L) pfxs D
      = emitLoop w harvest F keptA collapsedPids cB mB sumFuel fuel S
          (popZeros (0 :: L) pfxs).1 (popZeros (0 :: L) pfxs).2 (D ++ out)

/-- A forest run follows from tree runs for its members. -/
theorem forestEmitRun_of (l : List RTree)
    (htree : ∀ t ∈ l,
      TreeEmitRun w harvest F keptA collapsedPids cB mB sumFuel kept t) :
    ForestEmitRun w harvest F keptA collapsedPids cB mB sumFuel kept l := by
  induction l with
  | nil => intro hne; exact absurd rfl hne
  | cons t l ihl =>
    intro _ pfxs
    obtain ⟨outt, hrt⟩ := htree t (List.mem_cons_self _ _) pfxs (l.length + 1)
      (by omega)
    cases l with
    | nil =>
      refine ⟨outt, ?_⟩
      intro fuel S L D
      simp only [List.map_cons, List.map_nil, List.sum_cons, List.sum_nil,
        List.cons_append, List.nil_append, List.length_cons, List.length_nil,
        Nat.add_zero]
      exact hrt fuel S L D
    | cons t2 l2 =>
      obtain ⟨outf, hrf⟩ := ihl (fun u hu => htree u (List.mem_cons_of_mem _ hu))
        (by simp) pfxs
      refine ⟨outt ++ outf, ?_⟩
      intro fuel S L D
      simp only [List.length_cons] at hrt
      simp only [List.map_cons, List.sum_cons, List.cons_append, List.length_cons] at hrf
      simp only [List.map_cons, List.sum_cons, List.cons_append, List.length_cons]
      rw [show emitCostTree kept collapsedPids t
            + (emitCostTree kept collapsedPids t2
                + (l2.map (emitCostTree kept collapsedPids)).sum) + fuel
          = emitCostTree kept collapsedPids t
            + ((emitCostTree kept collapsedPids t2
                + (l2.map (emitCostTree kept collapsedPids)).sum) + fuel) from by omega]
      rw [hrt ((emitCostTree kept collapsedPids t2
        + (l2.map (emitCostTree kept collapsedPids)).sum) + fuel) _ _ D]
      rw [Nat.add_sub_cancel, popZeros_cons_pos _ (by simp) L pfxs]
      simp only
      rw [hrf fuel S L (D ++ outt), List.append_assoc]

end EmitRun

end ProcWidget

namespace ProcWidget

/-- Every shown `G`-subtree satisfies the exact-cost emission step. `G`
abstracts occurrence in the snapshot forest; the collapse sums it needs
are assumed to succeed (`hsum`), which the totality theorem discharges
from the sum-run lemma. Strong induction on the tree size. -/
theorem treeEmitRun_all (w : ProcWidget) (harvest : List (Pid × ProcessHarvest))
    (F : List (Pid × List Pid)) (keptA : List (Pid × Bool))
    (collapsedPids : List Pid) (cB mB : Bool) (sumFuel : Nat) (kept : Pid → Bool)
    (G : RTree → Prop)
    (hchar : ∀ s, G s → shownTree kept s = true →
      alookup s.rootPid F = some (shownRootPids kept s.children))
    (hres : ∀ s, G s → alookup s.rootPid harvest = some s.rootRec)
    (hchild : ∀ s t, G s → t ∈ s.children → G t)
    (hsum : ∀ s, G s → shownTree kept s = true →
      collapsedPids.contains s.rootPid = true →
      ∃ res, sumCollapsed harvest F cB mB sumFuel (rowOf cB mB s) = some res) :
    ∀ (n : Nat) (s : RTree), sizeOf s ≤ n → G s → shownTree kept s = true →
      TreeEmitRun w harvest F keptA collapsedPids cB mB sumFuel kept s := by
  intro n
  induction n with
  | zero =>
    intro s hsz
    exfalso
    cases s with
    | node r cs => rw [RTree.node.sizeOf_spec] at hsz; omega
  | succ n ih =>
    intro s hsz hG hshown pfxs c₀ hc₀
    cases s with
    | node r cs =>
      rw [RTree.node.sizeOf_spec] at hsz
      cases hcol : collapsedPids.contains r.pid with
      | true =>
        obtain ⟨res, hresS⟩ := hsum (RTree.node r cs) hG hshown hcol
        refine ⟨[(res.withPrefix (some (if pfxs.isEmpty then "" ++ "+ "
            else rowPrefix pfxs (decide (c₀ - 1 = 0)) ++ "+ "))).withDisabled
          (!(alookup r.pid keptA).getD false)], ?_⟩
        intro fuel S L D
        rw [emitCostTree, if_pos hcol, Nat.add_comm 1 fuel]
        rw [emitLoop_eq]
        simp only [rowOf_pid, RTree.rootPid]
        rw [if_pos hcol, hresS]
      | false =>
        have hcol' : ¬(collapsedPids.contains r.pid = true) := by
          intro hcontra
          rw [hcol] at hcontra
          exact Bool.false_ne_true hcontra
        have hresc : ∀ t ∈ cs, alookup t.rootPid harvest = some t.rootRec :=
          fun t ht => hres t (hchild (RTree.node r cs) t hG ht)
        have hresolve := resolve_shownRootPids harvest cB mB kept cs hresc
        have hF : alookup r.pid F = some (shownRootPids kept cs) :=
          hchar (RTree.node r cs) hG hshown
        obtain ⟨l', hsorted, hperm⟩ := tryRevSort_map w (rowOf cB mB)
          (cs.filter (fun t => shownTree kept t))
        cases l' with
        | nil =>
          have hfilnil : cs.filter (fun t => shownTree kept t) = [] :=
            hperm.symm.eq_nil
          have hec : emitCostForest kept collapsedPids cs = 0 := by
            rw [emitCostForest_eq, hfilnil]
            rfl
          refine ⟨[((rowOf cB mB (RTree.node r cs)).withPrefix
              (some (rowPrefix pfxs (decide (c₀ - 1 = 0))))).withDisabled
            (!(alookup r.pid keptA).getD false)], ?_⟩
          intro fuel S L D
          rw [emitCostTree, if_neg hcol', hec,
            show 1 + 0 + fuel = fuel + 1 from by omega]
          rw [emitLoop_eq]
          simp only [rowOf_pid, RTree.rootPid]
          rw [if_neg hcol', hF]
          simp only
          rw [hresolve, hsorted]
          simp only [List.map_nil, List.reverse_nil, List.nil_append, List.length_nil]
          rw [popZeros_zero_cons]
        | cons u l'' =>
          have hmemM : ∀ t ∈ (u :: l'' : List RTree).reverse,
              t ∈ cs.filter (fun t => shownTree kept t) := by
            intro t ht
            exact hperm.mem_iff.mp (List.mem_reverse.mp ht)
          have htreeM : ∀ t ∈ (u :: l'' : List RTree).reverse,
              TreeEmitRun w harvest F keptA collapsedPids cB mB sumFuel kept t := by
            intro t ht
            have htcs : t ∈ cs := List.mem_of_mem_filter (hmemM t ht)
            have hszt : sizeOf t ≤ n := by
              have := List.sizeOf_lt_of_mem htcs
              omega
            exact ih t hszt (hchild (RTree.node r cs) t hG htcs)
              (List.of_mem_filter (hmemM t ht))
          have hne : ((u :: l'' : List RTree).reverse : List RTree) ≠ [] := by
            simp
          obtain ⟨outf, hfor⟩ := forestEmitRun_of w harvest F keptA collapsedPids
            cB mB sumFuel kept (u :: l'').reverse htreeM hne
            ((if pfxs.isEmpty = true then ""
              else if c₀ - 1 = 0 then "   " else "│" ++ "  ") :: pfxs)
          have hec : emitCostForest kept collapsedPids cs
              = (((u :: l'' : List RTree).reverse).map
                  (emitCostTree kept collapsedPids)).sum := by
            rw [emitCostForest_eq]
            exact ((((u :: l'').reverse_perm).trans hperm).map
              (emitCostTree kept collapsedPids)).sum_eq.symm
          refine ⟨((rowOf cB mB (RTree.node r cs)).withPrefix
              (some (rowPrefix pfxs (decide (c₀ - 1 = 0))))).withDisabled
            (!(alookup r.pid keptA).getD false) :: outf, ?_⟩
          intro fuel S L D
          rw [emitCostTree, if_neg hcol', hec,
            show 1 + (((u :: l'' : List RTree).reverse).map
                (emitCostTree kept collapsedPids)).sum + fuel
              = ((((u :: l'' : List RTree).reverse).map
                  (emitCostTree kept collapsedPids)).sum + fuel) + 1 from by omega]
          rw [emitLoop_eq]
          simp only [rowOf_pid, RTree.rootPid]
          rw [if_neg hcol', hF]
          simp only
          rw [hresolve, hsorted]
          simp only [List.length_map, List.length_cons]
          rw [popZeros_cons_pos (l''.length + 1) (by omega) _ _]
          simp only
          rw [← List.map_reverse]
          have hfor' := hfor fuel S ((c₀ - 1) :: L) (D ++
            [((rowOf cB mB (RTree.node r cs)).withPrefix
              (some (rowPrefix pfxs (decide (c₀ - 1 = 0))))).withDisabled
            (!(alookup r.pid keptA).getD false)])
          rw [List.length_reverse, List.length_cons] at hfor'
          rw [hfor', popZeros_zero_cons, List.append_assoc]
          rfl

end ProcWidget

namespace ProcWidget

/-- Phase 2's seeding: resolving the orphan list through the
filtered-forest membership test and the record map yields exactly the
shown roots' rows, in orphan order. Orphan pids that no longer resolve
contribute nothing. -/
theorem seed_rows (harvest : List (Pid × ProcessHarvest)) (F : List (Pid × List Pid))
    (cB mB : Bool) (kept : Pid → Bool)
    (hkm : ∀ kv ∈ harvest, kv.2.pid = kv.1) :
    ∀ (orphans : List Pid) (ts : List RTree),
      orphans.filterMap (fun p => alookup p harvest) = ts.map RTree.rootRec →
      (∀ t ∈ ts, alookup t.rootPid F
        = if shownTree kept t then some (shownRootPids kept t.children) else none) →
      orphans.filterMap (fun pid =>
        if (alookup pid F).isSome = true then
          (alookup pid harvest).map (fun process => ProcWidgetData.fromData process cB mB)
        else none)
      = (ts.filter (fun t => shownTree kept t)).map (rowOf cB mB) := by
  intro orphans
  induction orphans with
  | nil =>
    intro ts hseeds _
    rw [List.filterMap_nil] at hseeds ⊢
    have : ts = [] := by
      cases ts with
      | nil => rfl
      | cons t ts' => rw [List.map_cons] at hseeds; cases hseeds
    rw [this, List.filter_nil, List.map_nil]
  | cons o os ih =>
    intro ts hseeds hF
    rw [List.filterMap_cons] at hseeds ⊢
    cases hlo : alookup o harvest with
    | none =>
      rw [hlo] at hseeds
      simp only at hseeds
      have hskip : (if (alookup o F).isSome = true then
          Option.map (fun process => ProcWidgetData.fromData process cB mB) none
        else none) = none := by
        simp
      rw [hskip]
      simp only
      exact ih ts hseeds hF
    | some rec =>
      rw [hlo] at hseeds
      simp only at hseeds
      cases ts with
      | nil => rw [List.map_nil] at hseeds; cases hseeds
      | cons t ts' =>
        rw [List.map_cons] at hseeds
        have h1 : rec = t.rootRec := (List.cons.injEq _ _ _ _ ▸ hseeds).1
        have h2 : os.filterMap (fun p => alookup p harvest) = ts'.map RTree.rootRec :=
          (List.cons.injEq _ _ _ _ ▸ hseeds).2
        have hpid : t.rootPid = o := by
          rw [← RTree.rootRec_pid, ← h1]
          exact hkm (o, rec) (alookup_mem hlo)
        have hFt := hF t (List.mem_cons_self _ _)
        rw [hpid] at hFt
        have htail := ih ts' h2 (fun u hu => hF u (List.mem_cons_of_mem _ hu))
        rw [List.filter_cons]
        by_cases hsh : shownTree kept t = true
        · rw [if_pos hsh] at hFt
          have hcond : (alookup o F).isSome = true := by rw [hFt]; rfl
          rw [hcond]
          simp only [if_true, Option.map_some]
          rw [if_pos hsh, List.map_cons, htail, h1]
          rfl
        · rw [if_neg hsh] at hFt
          have hcond : (alookup o F).isSome = false := by rw [hFt]; rfl
          rw [hcond]
          simp only [Bool.false_eq_true, if_false]
          rw [if_neg hsh]
          exact htail

end ProcWidget

/-- A member's value is at most the sum over the list. -/
theorem le_sum_map_of_mem {α : Type _} (f : α → Nat) {a : α} :
    ∀ {l : List α}, a ∈ l → f a ≤ (l.map f).sum := by
  intro l
  induction l with
  | nil => intro h; cases h
  | cons b l ih =>
    intro h
    rw [List.map_cons, List.sum_cons]
    rcases List.mem_cons.mp h with rfl | h'
    · exact Nat.le_add_right _ _
    · exact Nat.le_trans (ih h') (Nat.le_add_left _ _)

/-- A shown member's sum cost is at most the forest's. -/
theorem sumCostTree_le_forest (kept : Pid → Bool) {t : RTree} {ts : List RTree}
    (hm : t ∈ ts) (hsh : shownTree kept t = true) :
    sumCostTree kept t ≤ sumCostForest kept ts := by
  induction ts with
  | nil => cases hm
  | cons u ts ih =>
    rw [sumCostForest]
    rcases List.mem_cons.mp hm with rfl | hm'
    · rw [if_pos hsh]
      exact Nat.le_add_right _ _
    · exact Nat.le_trans (ih hm') (Nat.le_add_left _ _)

/-- The sum cost of a shown subtree is at most that of the tree it occurs
in. -/
theorem sumCostTree_le_of_occurs (kept : Pid → Bool) {t s : RTree}
    (hocc : OccursInT t s) (hsh : shownTree kept s = true) :
    sumCostTree kept s ≤ sumCostTree kept t := by
  induction hocc with
  | refl t => exact Nat.le_refl _
  | @child t c s hc hocc ih =>
    have hshc : shownTree kept c = true := shownTree_of_occurs hocc hsh
    refine Nat.le_trans (ih hsh) ?_
    cases t with
    | node r cs =>
      rw [sumCostTree]
      have := @sumCostTree_le_forest kept c cs hc hshc
      omega

namespace ProcWidget

/-- Every row the emission loop appends keeps a pid that resolves in the
record map, as long as every stack element is some stored record's row. -/
theorem emitLoop_pids_inv (w : ProcWidget) (harvest : List (Pid × ProcessHarvest))
    (filteredTree : List (Pid × List Pid)) (kept : List (Pid × Bool))
    (collapsedPids : List Pid) (c m : Bool) (sumFuel : Nat)
    (hkm : ∀ kv ∈ harvest, kv.2.pid = kv.1) :
    ∀ (fuel : Nat) (stack : List ProcWidgetData) (lengthStack : List Nat)
      (pfxs : List String) (data rows : List ProcWidgetData),
      emitLoop w harvest filteredTree kept collapsedPids c m sumFuel fuel stack
        lengthStack pfxs data = some rows →
      (∀ e ∈ stack, ∃ k rec, alookup k harvest = some rec ∧
        e = ProcWidgetData.fromData rec c m) →
      (∀ r ∈ data, (alookup r.pid harvest).isSome = true) →
      ∀ r ∈ rows, (alookup r.pid harvest).isSome = true := by
  intro fuel
  induction fuel with
  | zero =>
    intro stack lengthStack pfxs data rows h hstack hdata
    cases stack with
    | nil =>
      rw [emitLoop_eq] at h
      injection h with h
      rw [← h]
      exact hdata
    | cons p s =>
      cases lengthStack with
      | nil =>
        rw [emitLoop_eq] at h
        injection h with h
        rw [← h]
        exact hdata
      | cons n L =>
        rw [emitLoop_eq] at h
        simp at h
  | succ fuel ih =>
    intro stack lengthStack pfxs data rows h hstack hdata
    cases stack with
    | nil =>
      rw [emitLoop_eq] at h
      injection h with h
      rw [← h]
      exact hdata
    | cons p s =>
      cases lengthStack with
      | nil =>
        rw [emitLoop_eq] at h
        injection h with h
        rw [← h]
        exact hdata
      | cons n L =>
        rw [emitLoop_eq] at h
        simp only at h
        obtain ⟨k, rec, hk, hpe⟩ := hstack p (List.mem_cons_self _ _)
        have hppid : (alookup p.pid harvest).isSome = true := by
          rw [hpe, ProcWidgetData.pid_fromData, hkm (k, rec) (alookup_mem hk), hk]
          rfl
        have hstackRest : ∀ e ∈ s, ∃ k rec, alookup k harvest = some rec ∧
            e = ProcWidgetData.fromData rec c m :=
          fun e he => hstack e (List.mem_cons_of_mem _ he)
        by_cases hcol : collapsedPids.contains p.pid = true
        · rw [if_pos hcol] at h
          cases hsum : sumCollapsed harvest filteredTree c m sumFuel p with
          | none =>
            rw [hsum] at h
            cases h
          | some summed =>
            rw [hsum] at h
            refine ih _ _ _ _ rows h hstackRest ?_
            intro r hr
            rcases List.mem_append.mp hr with hold | hnew
            · exact hdata r hold
            · rcases List.mem_singleton.mp hnew with rfl
              simp only [ProcWidgetData.pid_withDisabled, ProcWidgetData.pid_withPrefix]
              rw [sumCollapsed_pid harvest filteredTree c m sumFuel p summed hsum]
              exact hppid
        · rw [if_neg hcol] at h
          cases hft : alookup p.pid filteredTree with
          | some childrenPids =>
            rw [hft] at h
            refine ih _ _ _ _ rows h ?_ ?_
            · intro e he
              rcases List.mem_append.mp he with hrev | hrest
              · have hsorted := List.mem_reverse.mp hrev
                have hchildren := (tryRevSort_perm w _).mem_iff.mp hsorted
                obtain ⟨cp, _, hcp⟩ := List.mem_filterMap.mp hchildren
                cases hlc : alookup cp harvest with
                | none => rw [hlc] at hcp; cases hcp
                | some rec' =>
                  rw [hlc] at hcp
                  exact ⟨cp, rec', hlc, (Option.some.inj hcp).symm⟩
              · exact hstackRest e hrest
            · intro r hr
              rcases List.mem_append.mp hr with hold | hnew
              · exact hdata r hold
              · rcases List.mem_singleton.mp hnew with rfl
                simp only [ProcWidgetData.pid_withDisabled, ProcWidgetData.pid_withPrefix]
                exact hppid
          | none =>
            rw [hft] at h
            refine ih _ _ _ _ rows h hstackRest ?_
            intro r hr
            rcases List.mem_append.mp hr with hold | hnew
            · exact hdata r hold
            · rcases List.mem_singleton.mp hnew with rfl
              simp only [ProcWidgetData.pid_withDisabled, ProcWidgetData.pid_withPrefix]
              exact hppid

end ProcWidget

namespace ProcWidget

/-- C8: under the acyclic-forest precondition, Tree-mode refresh is total
for every widget state and collapsed-pid set — enough fuel makes
`get_tree_data` return rows — and every missing key (a collapsed or
referenced pid absent from the snapshot) is merely excluded: every emitted
row's pid still resolves in the snapshot's record map. -/
theorem spec_C8_refresh_total (dc : DataCollection) (ts : List RTree)
    (hinv : ForestInv dc.processData ts) (w : ProcWidget) (collapsedPids : List Pid) :
    ∃ fuel rows, getTreeData fuel w collapsedPids dc = some rows ∧
      ∀ r ∈ rows, (alookup r.pid dc.processData.processHarvest).isSome = true := by
  have hnd : (forestPids ts.reverse).Nodup :=
    ((forestPids_perm (List.reverse_perm ts)).nodup_iff).mpr hinv.nodup
  have hphase := filteredTreeOf_run dc.processData ts hinv (getQuery w) (isUsingCommand w)
  have hchar : ∀ s, OccursInF ts.reverse s →
      shownTree (keptOf (keptPids dc.processData.processHarvest (getQuery w)
        (isUsingCommand w))) s = true →
      alookup s.rootPid (forestFentsRev (keptOf (keptPids dc.processData.processHarvest
        (getQuery w) (isUsingCommand w))) ts.reverse)
        = some (shownRootPids (keptOf (keptPids dc.processData.processHarvest
            (getQuery w) (isUsingCommand w))) s.children) := by
    intro s hG' hs'
    have hco := alookup_forestFents_occurs (keptOf (keptPids
      dc.processData.processHarvest (getQuery w) (isUsingCommand w))) hnd hG'
    rw [if_pos hs'] at hco
    exact hco
  have hres : ∀ s, OccursInF ts.reverse s →
      alookup s.rootPid dc.processData.processHarvest = some s.rootRec := by
    intro s hG'
    obtain ⟨t', ht', hocc'⟩ := hG'
    exact (TreeWF.of_occurs (hinv.wf t' (List.mem_reverse.mp ht')) hocc').root_lookup
  have hchild : ∀ s t, OccursInF ts.reverse s → t ∈ s.children →
      OccursInF ts.reverse t :=
    fun s t hG' ht' => occursInF_child hG' ht'
  have hFroots : ∀ t ∈ ts, alookup t.rootPid (forestFentsRev (keptOf (keptPids
      dc.processData.processHarvest (getQuery w) (isUsingCommand w))) ts.reverse)
      = if shownTree (keptOf (keptPids dc.processData.processHarvest (getQuery w)
          (isUsingCommand w))) t = true
        then some (shownRootPids (keptOf (keptPids dc.processData.processHarvest
          (getQuery w) (isUsingCommand w))) t.children)
        else none :=
    fun t ht => alookup_forestFents_occurs _ hnd
      ⟨t, List.mem_reverse.mpr ht, OccursInT.refl t⟩
  have hseedEq := seed_rows dc.processData.processHarvest
    (forestFentsRev (keptOf (keptPids dc.processData.processHarvest (getQuery w)
      (isUsingCommand w))) ts.reverse) (isUsingCommand w) (isMemPercent w)
    (keptOf (keptPids dc.processData.processHarvest (getQuery w) (isUsingCommand w)))
    hinv.keysMatch dc.processData.orphanPids ts hinv.seeds hFroots
  obtain ⟨l', hsorted, hperm⟩ := trySort_map w
    (rowOf (isUsingCommand w) (isMemPercent w))
    (ts.filter (fun t => shownTree (keptOf (keptPids dc.processData.processHarvest
      (getQuery w) (isUsingCommand w))) t))
  cases l' with
  | nil =>
    refine ⟨forestCost ts.reverse, [], ?_, ?_⟩
    · unfold getTreeData
      simp only
      rw [hphase]
      simp only
      rw [hseedEq, hsorted]
      rw [emitLoop_eq]
      rfl
    · intro r hr
      cases hr
  | cons u l'' =>
    have hmemRoots : ∀ t ∈ (u :: l'' : List RTree).reverse,
        t ∈ ts.filter (fun t => shownTree (keptOf (keptPids
          dc.processData.processHarvest (getQuery w) (isUsingCommand w))) t) :=
      fun t ht => hperm.mem_iff.mp (List.mem_reverse.mp ht)
    have hsum : ∀ s, OccursInF ts.reverse s →
        shownTree (keptOf (keptPids dc.processData.processHarvest (getQuery w)
          (isUsingCommand w))) s = true →
        collapsedPids.contains s.rootPid = true →
        ∃ res, sumCollapsed dc.processData.processHarvest
          (forestFentsRev (keptOf (keptPids dc.processData.processHarvest (getQuery w)
            (isUsingCommand w))) ts.reverse) (isUsingCommand w) (isMemPercent w)
          ((((u :: l'' : List RTree).reverse).map
              (emitCostTree (keptOf (keptPids dc.processData.processHarvest (getQuery w)
                (isUsingCommand w))) collapsedPids)).sum
            + (forestCost ts.reverse
              + (ts.reverse.map (sumCostTree (keptOf (keptPids
                  dc.processData.processHarvest (getQuery w) (isUsingCommand w))))).sum
              + 1))
          (rowOf (isUsingCommand w) (isMemPercent w) s) = some res := by
      intro s hG' hsh _
      have hcanon := sumCollapsed_run dc.processData.processHarvest _
        (isUsingCommand w) (isMemPercent w) _ (OccursInF ts.reverse)
        hchar hres hchild s hG' hsh
      have hb : sumCostForest (keptOf (keptPids dc.processData.processHarvest
          (getQuery w) (isUsingCommand w))) s.children
          ≤ (((u :: l'' : List RTree).reverse).map
              (emitCostTree (keptOf (keptPids dc.processData.processHarvest (getQuery w)
                (isUsingCommand w))) collapsedPids)).sum
            + (forestCost ts.reverse
              + (ts.reverse.map (sumCostTree (keptOf (keptPids
                  dc.processData.processHarvest (getQuery w) (isUsingCommand w))))).sum
              + 1) := by
        obtain ⟨t, htm, hocc⟩ := hG'
        have h1 : sumCostForest (keptOf (keptPids dc.processData.processHarvest
            (getQuery w) (isUsingCommand w))) s.children
            ≤ sumCostTree (keptOf (keptPids dc.processData.processHarvest
              (getQuery w) (isUsingCommand w))) s := by
          cases s with
          | node r cs =>
            simp only [RTree.children]
            rw [sumCostTree]
            omega
        have h2 := sumCostTree_le_of_occurs (keptOf (keptPids
          dc.processData.processHarvest (getQuery w) (isUsingCommand w))) hocc hsh
        have h3 := le_sum_map_of_mem (sumCostTree (keptOf (keptPids
          dc.processData.processHarvest (getQuery w) (isUsingCommand w)))) htm
        omega
      exact ⟨_, sumCollapsed_mono_le _ _ _ _ hb _ _ hcanon⟩
    have htreeM : ∀ t ∈ (u :: l'' : List RTree).reverse,
        TreeEmitRun w dc.processData.processHarvest
          (forestFentsRev (keptOf (keptPids dc.processData.processHarvest (getQuery w)
            (isUsingCommand w))) ts.reverse)
          (keptPids dc.processData.processHarvest (getQuery w) (isUsingCommand w))
          collapsedPids (isUsingCommand w) (isMemPercent w)
          ((((u :: l'' : List RTree).reverse).map
              (emitCostTree (keptOf (keptPids dc.processData.processHarvest (getQuery w)
                (isUsingCommand w))) collapsedPids)).sum
            + (forestCost ts.reverse
              + (ts.reverse.map (sumCostTree (keptOf (keptPids
                  dc.processData.processHarvest (getQuery w) (isUsingCommand w))))).sum
              + 1))
          (keptOf (keptPids dc.processData.processHarvest (getQuery w)
            (isUsingCommand w))) t := by
      intro t ht
      have htf := hmemRoots t ht
      have hts : t ∈ ts := List.mem_of_mem_filter htf
      exact treeEmitRun_all w dc.processData.processHarvest _ _ collapsedPids
        (isUsingCommand w) (isMemPercent w) _ _ (OccursInF ts.reverse)
        hchar hres hchild hsum (sizeOf t) t (Nat.le_refl _)
        ⟨t, List.mem_reverse.mpr hts, OccursInT.refl t⟩ (List.of_mem_filter htf)
    obtain ⟨out, hfor⟩ := forestEmitRun_of w dc.processData.processHarvest
      (forestFentsRev (keptOf (keptPids dc.processData.processHarvest (getQuery w)
        (isUsingCommand w))) ts.reverse)
      (keptPids dc.processData.processHarvest (getQuery w) (isUsingCommand w))
      collapsedPids (isUsingCommand w) (isMemPercent w)
      ((((u :: l'' : List RTree).reverse).map
          (emitCostTree (keptOf (keptPids dc.processData.processHarvest (getQuery w)
            (isUsingCommand w))) collapsedPids)).sum
        + (forestCost ts.reverse
          + (ts.reverse.map (sumCostTree (keptOf (keptPids
              dc.processData.processHarvest (getQuery w) (isUsingCommand w))))).sum
          + 1))
      (keptOf (keptPids dc.processData.processHarvest (getQuery w) (isUsingCommand w)))
      (u :: l'').reverse htreeM (by simp) []
    refine ⟨(((u :: l'' : List RTree).reverse).map
        (emitCostTree (keptOf (keptPids dc.processData.processHarvest (getQuery w)
          (isUsingCommand w))) collapsedPids)).sum
      + (forestCost ts.reverse
        + (ts.reverse.map (sumCostTree (keptOf (keptPids
            dc.processData.processHarvest (getQuery w) (isUsingCommand w))))).sum
        + 1), out, ?_, ?_⟩
    · unfold getTreeData
      simp only
      have hphaseAt : filteredTreeOf
          ((((u :: l'' : List RTree).reverse).map
              (emitCostTree (keptOf (keptPids dc.processData.processHarvest (getQuery w)
                (isUsingCommand w))) collapsedPids)).sum
            + (forestCost ts.reverse
              + (ts.reverse.map (sumCostTree (keptOf (keptPids
                  dc.processData.processHarvest (getQuery w) (isUsingCommand w))))).sum
              + 1)) dc.processData (getQuery w) (isUsingCommand w)
          = some (forestFentsRev (keptOf (keptPids dc.processData.processHarvest
              (getQuery w) (isUsingCommand w))) ts.reverse) := by
        unfold filteredTreeOf at hphase ⊢
        exact phase1Loop_mono_le _ _ _ (by omega) _ _ _ _ hphase
      rw [hphaseAt]
      simp only
      rw [hseedEq, hsorted, ← List.map_reverse]
      simp only [List.length_map]
      rw [show List.map (rowOf (isUsingCommand w) (isMemPercent w)) (u :: l'').reverse
          = List.map (rowOf (isUsingCommand w) (isMemPercent w)) (u :: l'').reverse ++ []
        from (List.append_nil _).symm]
      rw [hfor (forestCost ts.reverse
        + (ts.reverse.map (sumCostTree (keptOf (keptPids
            dc.processData.processHarvest (getQuery w) (isUsingCommand w))))).sum
        + 1) [] [] []]
      rw [emitLoop_eq]
      rfl
    · intro r hr
      have hstack0 : ∀ e ∈ (trySort w (dc.processData.orphanPids.filterMap (fun pid =>
          if (alookup pid (forestFentsRev (keptOf (keptPids
              dc.processData.processHarvest (getQuery w) (isUsingCommand w)))
              ts.reverse)).isSome = true then
            (alookup pid dc.processData.processHarvest).map
              (fun process => ProcWidgetData.fromData process (isUsingCommand w)
                (isMemPercent w))
          else none))).reverse,
          ∃ k rec, alookup k dc.processData.processHarvest = some rec ∧
            e = ProcWidgetData.fromData rec (isUsingCommand w) (isMemPercent w) := by
        intro e he
        have hroot := (trySort_perm w _).mem_iff.mp (List.mem_reverse.mp he)
        obtain ⟨pid, _, heq⟩ := List.mem_filterMap.mp hroot
        by_cases hif : (alookup pid (forestFentsRev (keptOf (keptPids
            dc.processData.processHarvest (getQuery w) (isUsingCommand w)))
            ts.reverse)).isSome = true
        · rw [if_pos hif] at heq
          cases hlp : alookup pid dc.processData.processHarvest with
          | none => rw [hlp] at heq; cases heq
          | some rec =>
            rw [hlp] at heq
            exact ⟨pid, rec, hlp, (Option.some.inj heq).symm⟩
        · rw [if_neg hif] at heq
          cases heq
      have hloop : emitLoop w dc.processData.processHarvest
          (forestFentsRev (keptOf (keptPids dc.processData.processHarvest (getQuery w)
            (isUsingCommand w))) ts.reverse)
          (keptPids dc.processData.processHarvest (getQuery w) (isUsingCommand w))
          collapsedPids (isUsingCommand w) (isMemPercent w)
          ((((u :: l'' : List RTree).reverse).map
              (emitCostTree (keptOf (keptPids dc.processData.processHarvest (getQuery w)
                (isUsingCommand w))) collapsedPids)).sum
            + (forestCost ts.reverse
              + (ts.reverse.map (sumCostTree (keptOf (keptPids
                  dc.processData.processHarvest (getQuery w) (isUsingCommand w))))).sum
              + 1))
          ((((u :: l'' : List RTree).reverse).map
              (emitCostTree (keptOf (keptPids dc.processData.processHarvest (getQuery w)
                (isUsingCommand w))) collapsedPids)).sum
            + (forestCost ts.reverse
              + (ts.reverse.map (sumCostTree (keptOf (keptPids
                  dc.processData.processHarvest (getQuery w) (isUsingCommand w))))).sum
              + 1))
          ((u :: l'' : List RTree).reverse.map
            (rowOf (isUsingCommand w) (isMemPercent w)))
          [((u :: l'' : List RTree).reverse.map
            (rowOf (isUsingCommand w) (isMemPercent w))).length] [] [] = some out := by
        simp only [List.length_map]
        rw [show List.map (rowOf (isUsingCommand w) (isMemPercent w)) (u :: l'').reverse
            = List.map (rowOf (isUsingCommand w) (isMemPercent w)) (u :: l'').reverse ++ []
          from (List.append_nil _).symm]
        rw [hfor (forestCost ts.reverse
          + (ts.reverse.map (sumCostTree (keptOf (keptPids
              dc.processData.processHarvest (getQuery w) (isUsingCommand w))))).sum
          + 1) [] [] []]
        rw [emitLoop_eq]
        rfl
      have hstack1 : ∀ e ∈ (u :: l'' : List RTree).reverse.map
          (rowOf (isUsingCommand w) (isMemPercent w)),
          ∃ k rec, alookup k dc.processData.processHarvest = some rec ∧
            e = ProcWidgetData.fromData rec (isUsingCommand w) (isMemPercent w) := by
        have hrw : trySort w (dc.processData.orphanPids.filterMap (fun pid =>
            if (alookup pid (forestFentsRev (keptOf (keptPids
                dc.processData.processHarvest (getQuery w) (isUsingCommand w)))
                ts.reverse)).isSome = true then
              (alookup pid dc.processData.processHarvest).map
                (fun process => ProcWidgetData.fromData process (isUsingCommand w)
                  (isMemPercent w))
            else none))
            = List.map (rowOf (isUsingCommand w) (isMemPercent w)) (u :: l'') := by
          rw [hseedEq, hsorted]
        intro e he
        apply hstack0
        rw [hrw, ← List.map_reverse]
        exact he
      exact emitLoop_pids_inv w dc.processData.processHarvest _ _ collapsedPids
        (isUsingCommand w) (isMemPercent w) _ hinv.keysMatch _ _ _ _ _ out hloop
        hstack1 (fun r hr => absurd hr (List.not_mem_nil r)) r hr

end ProcWidget

namespace ProcWidget

/-- The rows the Tree refresh emits for `initTreeDC` when the persistent
collapse set `[99, 1]` disagrees with the snapshot (pid 99 has exited). -/
def c8rows : List ProcWidgetData :=
  (getTreeData 100 widgetBashTree [99, 1] initTreeDC).getD []

/-- Witness for the hypotheses of the C8 theorem: on the scenario
snapshot with the stale collapse set `[99, 1]` — pid 99 is absent from the
snapshot — the refresh succeeds, emits exactly the aggregate row for pid 1,
every emitted pid resolves in the record map, and the stale pid 99 neither
appears nor causes a failure. -/
theorem spec_C8_witness :
    (∃ fuel rows, getTreeData fuel widgetBashTree [99, 1] initTreeDC = some rows ∧
      ∀ r ∈ rows, (alookup r.pid initTreeDC.processData.processHarvest).isSome = true) ∧
    getTreeData 100 widgetBashTree [99, 1] initTreeDC = some c8rows ∧
    c8rows.map ProcWidgetData.pid = [1] ∧
    alookup 99 initTreeDC.processData.processHarvest = none := by
  refine ⟨spec_C8_refresh_total initTreeDC [initTree] initTree_forestInv widgetBashTree
    [99, 1], rfl, rfl, rfl⟩

end ProcWidget

namespace ProcWidget

/-- Witness for the hypotheses of the C7 theorem, at concrete widgets and
a concrete snapshot. The first block calls `update_query` on *non-empty*
text (`"bash"`, with a failing parse) on a widget whose scroll and cursor
sit at 3 and 4: the call still resets both to zero and sets the dirty
flag. The second block is the blank-text scenario. -/
theorem spec_C7_witness :
    (widgetBashTree.procSearch.searchState.currentSearchQuery = "bash" ∧
     widgetBashTree.table.displayStartIndex = 3 ∧
     widgetBashTree.table.currentIndex = 4 ∧
     (updateQuery (fun _ _ _ _ => Except.error "e")
       widgetBashTree).table.displayStartIndex = 0 ∧
     (updateQuery (fun _ _ _ _ => Except.error "e")
       widgetBashTree).table.currentIndex = 0 ∧
     (updateQuery (fun _ _ _ _ => Except.error "e")
       widgetBashTree).forceUpdateData = true) ∧
    (sampleWidget ProcWidgetMode.Normal).procSearch.searchState.currentSearchQuery = "" ∧
    getQuery (updateQuery (fun _ _ _ _ => Except.error "e")
      (sampleWidget ProcWidgetMode.Normal)) = none ∧
    (getNormalData (updateQuery (fun _ _ _ _ => Except.error "e")
        (sampleWidget ProcWidgetMode.Normal))
      [(1, sampleRec 1 "a" 1), (2, sampleRec 2 "b" 2)]).2.length = 2 ∧
    (updateQuery (fun _ _ _ _ => Except.error "e")
      (sampleWidget ProcWidgetMode.Normal)).table.currentIndex = 0 := by
  have hb := spec_C7_update_query_blank_and_reset (fun _ _ _ _ => Except.error "e")
    widgetBashTree
  have h := spec_C7_update_query_blank_and_reset (fun _ _ _ _ => Except.error "e")
    (sampleWidget ProcWidgetMode.Normal)
  refine ⟨⟨rfl, rfl, rfl, hb.1.1, hb.1.2.1, hb.1.2.2⟩,
    rfl, (h.2 rfl).2.2.1, ?_, h.1.2.1⟩
  exact ((h.2 rfl).2.2.2 rfl [(1, sampleRec 1 "a" 1), (2, sampleRec 2 "b" 2)]).1

end ProcWidget
